import Mathlib

/-!
mdb: an in-memory database with snapshot transactions.

A shallow embedding of `src/mdb.go` (package `mdb`): the database handle `MDB`
(current root plus writer mutex), the transaction handle `Txn`, and the methods
`New`, `Txn`, `Put`, `Get`, `Delete`, `All`, `Commit`, `Abort`.

`mdb.go` keeps its data in the immutable radix tree of the imported package
`github.com/hashicorp/go-immutable-radix` (`iradix`).  That package is not part of
the sources, so namespace `Iradix` models it from the specification (spec.md §3 and
§4.1): nodes with an optional inline leaf, an edge-label prefix and child edges
ordered by their first byte; `Get`, path-copying `Insert`, `Delete` with node
collapsing, and the depth-first prefix iterator.  Namespace `Mdb` is the embedding
of `mdb.go` on top of it.

In `Iradix` and `Mdb` a handle holds its tree as a value.  In the program the trees
are nodes in memory, and the root of the database, the snapshots of the readers and
the working tree of the writer share nodes.  Namespaces `IradixP` and `MdbP` model
this: the nodes lie in one store, a tree is the address of its root node, and
`Insert` and `Delete` allocate the copies of the nodes on the path.  There a call on
one handle could change what another handle reads; that it does not is a theorem
about the path-copying code, and so is the agreement of this model with the one on
values.

Conventions.
* A key is the byte string `[]byte(k)`; a byte is a natural number (no arithmetic is
  ever done on bytes, only comparisons).
* A Go value of type `interface{}` is a `Value`; `Value.nil` is Go's `nil`.
* A nil pointer is `none`.  Calling a method of `*iradix.Txn` on a nil pointer
  dereferences it and panics; this is the result `Except.error Fault.nilDeref`.
* `sync.Mutex` is a `Bool` (`true` = locked).  `Lock` on a locked mutex blocks, so the
  step is not enabled; `Unlock` of an unlocked mutex is a fatal runtime error.
* Method calls are atomic steps of a system state (`Sys`): the one database handle
  plus every transaction handle created so far.  Concurrent goroutines are
  interleavings of such steps.

The file has two parts: all definitions, then all theorems.
-/

namespace Iradix

/-- A key: the byte string `[]byte(k)`, each byte a natural number. -/
abbrev Key := List Nat

/-- A Go value of type `interface{}`: `nil`, an integer, a string, or any other
datum, which the store only keeps by reference (`ref`). -/
inductive Value where
  | nil
  | int (n : Int)
  | str (s : String)
  | ref (addr : Nat)
deriving DecidableEq, Repr

/-- Modelled from the spec: the leaf record of the radix tree of package `iradix`,
which is not under src/ (spec §3: "a Leaf carries the full key and an opaque
value"). -/
structure leafNode where
  key : Key
  val : Value
deriving DecidableEq, Repr

mutual
/-- Modelled from the spec: a node of the radix tree of package `iradix`, which is
not under src/ (spec §3): an optional inline leaf, the edge-label prefix, and the
child edges. -/
inductive Node where
  | mk (leaf : Option leafNode) (pfx : Key) (edges : Edges)
/-- Modelled from the spec: the child edges of a node of the radix tree (package
`iradix`, not under src/), each a label (the next distinguishing byte) and a child,
kept in ascending label order (spec §3). -/
inductive Edges where
  | nil
  | cons (label : Nat) (node : Node) (rest : Edges)
end

/-- Modelled from the spec: the inline leaf of a node (field of the absent `iradix`
node). -/
def Node.leaf : Node → Option leafNode
  | .mk l _ _ => l

/-- Modelled from the spec: the edge-label prefix of a node (field of the absent
`iradix` node). -/
def Node.pfx : Node → Key
  | .mk _ p _ => p

/-- Modelled from the spec: the child edges of a node (field of the absent `iradix`
node). -/
def Node.edges : Node → Edges
  | .mk _ _ e => e

/-- Modelled from the spec: the number of edges of a node of the absent `iradix`
tree. -/
def Edges.length : Edges → Nat
  | .nil => 0
  | .cons _ _ es => es.length + 1

/-- Modelled from the spec: the number of leading bytes two keys share (helper of
the absent `iradix` package, used to split a node on insert). -/
def longestPrefix : Key → Key → Nat
  | a :: as, b :: bs => if a = b then longestPrefix as bs + 1 else 0
  | _, _ => 0

/-- Modelled from the spec: add an edge to a node of the absent `iradix` tree,
keeping the edges in ascending label order (the edge goes before the first edge
whose label is not smaller). -/
def Edges.addEdge : Edges → Nat → Node → Edges
  | .nil, l, n => .cons l n .nil
  | .cons l' n' es, l, n =>
    if l' < l then .cons l' n' (Edges.addEdge es l n) else .cons l n (.cons l' n' es)

mutual
/-- Modelled from the spec: `Get(tree, key)` of the absent `iradix` package (spec
§4.1) "walks from root, consuming the key byte-by-byte against edge labels".
`Node.Get n search` looks `search` up below `n`. -/
def Node.Get : Node → Key → Option Value
  | .mk leaf _ _, [] => leaf.map (·.val)
  | .mk _ _ edges, b :: rest => Edges.Get edges b rest
/-- Modelled from the spec: the edge step of the absent `iradix` `Get`: find the
edge labelled with the next byte `b`, check that the child's prefix is a prefix of
the remaining key, and continue below the child. -/
def Edges.Get : Edges → Nat → Key → Option Value
  | .nil, _, _ => none
  | .cons l c es, b, rest =>
    if l < b then Edges.Get es b rest
    else if l = b then
      if c.pfx <+: (b :: rest) then Node.Get c ((b :: rest).drop c.pfx.length) else none
    else none
end

/-- Modelled from the spec: the node split of the absent `iradix` insert, for a
child whose prefix shares only `cp` bytes with the remaining key `search`
(path-copying insert, spec §4.1): a new node carries the common part; below it the
old child with the rest of its prefix and, unless the key ends here, a new leaf
node. -/
def splitNode (child : Node) (k search : Key) (cp : Nat) (v : Value) : Node :=
  let modChild := Node.mk child.leaf (child.pfx.drop cp) child.edges
  let e := Edges.nil.addEdge (child.pfx.getD cp 0) modChild
  match search.drop cp with
  | [] => .mk (some ⟨k, v⟩) (search.take cp) e
  | b :: rest => .mk none (search.take cp) (e.addEdge b (.mk (some ⟨k, v⟩) (b :: rest) .nil))

mutual
/-- Modelled from the spec: `Insert(root, key, value) -> newRoot` of the absent
`iradix` package (spec §4.1), by path copying: the nodes on the path to the key are
rebuilt and every other subtree is shared.  `k` is the whole key, the second `Key`
the part of it still to be consumed below this node.  The second component of the
result tells whether the key was already present. -/
def Node.insert : Node → Key → Key → Value → Node × Bool
  | .mk leaf pfx edges, k, [], v => (.mk (some ⟨k, v⟩) pfx edges, leaf.isSome)
  | .mk leaf pfx edges, k, b :: rest, v =>
    let r := Edges.insert edges k b rest v
    (.mk leaf pfx r.1, r.2)
/-- Modelled from the spec: the edge step of the absent `iradix` insert for the
remaining key `b :: rest`: a new leaf node when no edge has the label `b`, the
recursive insert when the child's prefix is consumed by the key, a split
otherwise. -/
def Edges.insert : Edges → Key → Nat → Key → Value → Edges × Bool
  | .nil, k, b, rest, v => (.cons b (.mk (some ⟨k, v⟩) (b :: rest) .nil) .nil, false)
  | .cons l c es, k, b, rest, v =>
    if l < b then
      let r := Edges.insert es k b rest v
      (.cons l c r.1, r.2)
    else if l = b then
      if longestPrefix (b :: rest) c.pfx = c.pfx.length then
        let r := Node.insert c k ((b :: rest).drop c.pfx.length) v
        (.cons l r.1 es, r.2)
      else
        (.cons b (splitNode c k (b :: rest) (longestPrefix (b :: rest) c.pfx) v) es, false)
    else
      (.cons b (.mk (some ⟨k, v⟩) (b :: rest) .nil) (.cons l c es), false)
end

/-- Modelled from the spec: node collapsing of the absent `iradix` delete (spec
§4.1): a node left with exactly one child and no inline leaf "must merge its edge
label with that child's label".  A node without edges is returned as it is (the
callers only pass nodes with exactly one edge). -/
def Node.mergeChild : Node → Node
  | .mk _ pfx (.cons _ child _) => .mk child.leaf (pfx ++ child.pfx) child.edges
  | n => n

mutual
/-- Modelled from the spec: `Delete(root, key) -> (newRoot, found)` of the absent
`iradix` package (spec §4.1).  `none` means the key is absent and nothing was built;
otherwise the new node and the removed leaf.  `isRoot` marks the root of the tree,
which is never merged. -/
def Node.delete : Node → Bool → Key → Option (Node × leafNode)
  | .mk leaf pfx edges, isRoot, [] =>
    match leaf with
    | none => none
    | some oldLeaf =>
      some (if !isRoot && edges.length == 1 then (Node.mk none pfx edges).mergeChild
            else Node.mk none pfx edges, oldLeaf)
  | .mk leaf pfx edges, isRoot, b :: rest =>
    match Edges.delete edges b rest with
    | none => none
    | some (edges', removed, oldLeaf) =>
      some (if removed && !isRoot && edges'.length == 1 && leaf.isNone
            then (Node.mk leaf pfx edges').mergeChild
            else Node.mk leaf pfx edges', oldLeaf)
/-- Modelled from the spec: the edge step of the absent `iradix` delete for the
remaining key `b :: rest`: the new edges, whether the edge was removed (its child
became empty), and the removed leaf. -/
def Edges.delete : Edges → Nat → Key → Option (Edges × Bool × leafNode)
  | .nil, _, _ => none
  | .cons l c es, b, rest =>
    if l < b then
      match Edges.delete es b rest with
      | none => none
      | some (es', removed, oldLeaf) => some (.cons l c es', removed, oldLeaf)
    else if l = b then
      if c.pfx <+: (b :: rest) then
        match Node.delete c false ((b :: rest).drop c.pfx.length) with
        | none => none
        | some (newChild, oldLeaf) =>
          if newChild.leaf.isNone && newChild.edges.length == 0 then some (es, true, oldLeaf)
          else some (.cons l newChild es, false, oldLeaf)
      else none
    else none
end

mutual
/-- Modelled from the spec: the descent of the prefix iterator of the absent
`iradix` package (spec §4.1): "descends to the subtree whose accumulated edge labels
match `prefix`"; `none` when no subtree matches. -/
def Node.seekPrefix : Node → Key → Option Node
  | n, [] => some n
  | .mk _ _ edges, b :: rest => Edges.seekPrefix edges b rest
/-- Modelled from the spec: the edge step of the absent `iradix` prefix descent for
the remaining prefix `b :: rest`: continue below the child when its prefix is
consumed by the prefix sought, stop at the child when the prefix sought ends inside
the child's prefix, and find nothing otherwise. -/
def Edges.seekPrefix : Edges → Nat → Key → Option Node
  | .nil, _, _ => none
  | .cons l c es, b, rest =>
    if l < b then Edges.seekPrefix es b rest
    else if l = b then
      if c.pfx <+: (b :: rest) then Node.seekPrefix c ((b :: rest).drop c.pfx.length)
      else if (b :: rest) <+: c.pfx then some c
      else none
    else none
end

mutual
/-- Number of nodes of a subtree (the measure that bounds the iterator's loop). -/
def Node.size : Node → Nat
  | .mk _ _ edges => Edges.size edges + 1
/-- Number of nodes below a list of edges. -/
def Edges.size : Edges → Nat
  | .nil => 0
  | .cons _ c es => Node.size c + Edges.size es
end

/-- Modelled from the spec: the iterator of the absent `iradix` package over a
subtree (spec §4.1, "lazy ordered sequence"): the node to start from (`none`:
nothing matches) and the stack of the edge lists still to visit, top first (`none`
until the first `Next`).  An edge list on the stack is never empty, so it is kept
as its first edge and the rest. -/
structure Iterator where
  node : Option Node
  stack : Option (List (Nat × Node × Edges))

/-- Modelled from the spec: a fresh iterator of the absent `iradix` package over the
subtree of `n`. -/
def Node.Iterator (n : Node) : Iterator := ⟨some n, none⟩

/-- Modelled from the spec: `SeekPrefix` of the absent `iradix` iterator: move the
iterator to the subtree matching `p` and forget the stack. -/
def Iterator.SeekPrefix (i : Iterator) (p : Key) : Iterator :=
  ⟨i.node.bind (fun n => n.seekPrefix p), none⟩

/-- Modelled from the spec: push an edge list on the stack of the absent `iradix`
iterator unless it is empty. -/
def pushEdges : Edges → List (Nat × Node × Edges) → List (Nat × Node × Edges)
  | .nil, st => st
  | .cons l c es, st => (l, c, es) :: st

/-- Total number of nodes waiting on the stack. -/
def stackSize : List (Nat × Node × Edges) → Nat
  | [] => 0
  | (_, c, es) :: st => c.size + es.size + stackSize st

/-- Modelled from the spec: the loop of `Next` of the absent `iradix` iterator: pop
the first edge of the top edge list, push the edges of its node, and stop at the
first node that carries a leaf ("depth-first, children visited in ascending
edge-byte order").  The first argument bounds the number of rounds. -/
def Iterator.nextLoop : Nat → List (Nat × Node × Edges) →
    Option leafNode × List (Nat × Node × Edges)
  | 0, st => (none, st)
  | _ + 1, [] => (none, [])
  | fuel + 1, (_, elem, rest) :: st =>
    match elem.leaf with
    | some lf => (some lf, pushEdges elem.edges (pushEdges rest st))
    | none => Iterator.nextLoop fuel (pushEdges elem.edges (pushEdges rest st))

/-- Modelled from the spec: the stack a call of `Next` of the absent `iradix`
iterator works on: the one left by the previous call, or on the first call the
start node alone. -/
def Iterator.startStack (i : Iterator) : List (Nat × Node × Edges) :=
  match i.stack, i.node with
  | some st, _ => st
  | none, some n => [(0, n, Edges.nil)]
  | none, none => []

/-- Modelled from the spec: `Next` of the absent `iradix` iterator yields the next
leaf of the iteration, or `none` at the end.  Each round of the loop removes one
node from the stack, so `stackSize` rounds are enough. -/
def Iterator.Next (i : Iterator) : Option leafNode × Iterator :=
  let r := Iterator.nextLoop (stackSize i.startStack) i.startStack
  (r.1, ⟨i.node, some r.2⟩)

/-- The leaves produced by at most `fuel` further calls of `Next` that yield one. -/
def Iterator.drain : Nat → Iterator → List leafNode
  | 0, _ => []
  | fuel + 1, i =>
    match i.Next with
    | (some lf, i') => lf :: Iterator.drain fuel i'
    | (none, _) => []

/-- Every leaf the iterator yields, in order: `Next` is called until it reports the
end.  Each call that yields a leaf removes at least one node from the stack, so
`stackSize` calls suffice. -/
def Iterator.toList (i : Iterator) : List leafNode :=
  Iterator.drain (stackSize i.startStack) i

mutual
/-- The leaves below a node in depth-first order: the inline leaf first, then the
children from the smallest label to the largest. -/
def Node.entries : Node → List leafNode
  | .mk leaf _ edges => leaf.toList ++ Edges.entries edges
/-- The leaves below a list of edges, first edge first. -/
def Edges.entries : Edges → List leafNode
  | .nil => []
  | .cons _ c es => Node.entries c ++ Edges.entries es
end

/-- Modelled from the spec: a tree of the absent `iradix` package is a root node
(spec §3) together with the number
of keys it holds. -/
structure Tree where
  root : Node
  size : Nat

/-- Modelled from the spec: `iradix.New()`, the empty tree of the absent `iradix`
package. -/
def New : Tree := ⟨.mk none [] .nil, 0⟩

/-- Modelled from the spec: the mutation overlay `iradix.Txn` of the absent `iradix`
package (spec §3): the working root, the
root captured when the overlay was created, and the working size. -/
structure Txn where
  root : Node
  snap : Node
  size : Nat

/-- Modelled from the spec: `Tree.Txn()` of the absent `iradix` package, an overlay
over a tree; the tree itself is never
changed. -/
def Tree.Txn (t : Tree) : Txn := ⟨t.root, t.root, t.size⟩

/-- Modelled from the spec: `Txn.Insert` of the absent `iradix` package: insert into
the working root; returns the previous value
and whether there was one. -/
def Txn.Insert (t : Txn) (k : Key) (v : Value) : Txn × Value × Bool :=
  let r := t.root.insert k k v
  ({ t with root := r.1, size := if r.2 then t.size else t.size + 1 },
   (t.root.Get k).getD Value.nil, r.2)

/-- Modelled from the spec: `Txn.Delete` of the absent `iradix` package: delete from
the working root; returns the removed value
and whether the key was found.  When it is not found the overlay is unchanged. -/
def Txn.Delete (t : Txn) (k : Key) : Txn × Value × Bool :=
  match t.root.delete true k with
  | none => (t, Value.nil, false)
  | some (newRoot, oldLeaf) => ({ t with root := newRoot, size := t.size - 1 }, oldLeaf.val, true)

/-- Modelled from the spec: `Txn.Get` of the absent `iradix` package: read from the
working root; the value (nil when absent) and whether the key was found. -/
def Txn.Get (t : Txn) (k : Key) : Value × Bool :=
  match t.root.Get k with
  | some v => (v, true)
  | none => (Value.nil, false)

/-- Modelled from the spec: `Txn.Root` of the absent `iradix` package, the working
root of the overlay. -/
def Txn.Root (t : Txn) : Node := t.root

/-- Modelled from the spec: `Txn.Commit` of the absent `iradix` package: the
overlay's working root as a new tree. -/
def Txn.Commit (t : Txn) : Tree := ⟨t.root, t.size⟩

/-! ## Notions used to state the properties of the tree -/

/-- The parent's view of a child: the remaining key must start with the child's
prefix, and the rest is looked up below the child. -/
def Node.GetVia (n : Node) (s : Key) : Option Value :=
  if n.pfx <+: s then n.Get (s.drop n.pfx.length) else none

/-- Every label of the edges is above `l` (stated for the first edge; the edges of a
well-formed node ascend). -/
def Edges.above (l : Nat) : Edges → Prop
  | .nil => True
  | .cons l' _ _ => l < l'

mutual
/-- A well-formed subtree whose node sits at the key `acc` (the labels on the path
from the root, this node's prefix included): the inline leaf carries the key `acc`,
and the edges are well formed. -/
def Node.WF : Key → Node → Prop
  | acc, .mk leaf _ edges => (∀ lf, leaf = some lf → lf.key = acc) ∧ Edges.WF acc edges
/-- Well-formed edges of a node at key `acc`: every child's prefix starts with the
edge label, the labels strictly ascend, and every child is well formed. -/
def Edges.WF : Key → Edges → Prop
  | _, .nil => True
  | acc, .cons l c es =>
    (∃ r, c.pfx = l :: r) ∧ Node.WF (acc ++ c.pfx) c ∧ Edges.above l es ∧ Edges.WF acc es
end

/-- The byte-wise lexicographic order on keys. -/
def keyLt (a b : Key) : Prop := List.Lex (· < ·) a b

/-- The leaves of the subtree `seekPrefix` found (none when nothing matches). -/
def entriesOf : Option Node → List leafNode
  | none => []
  | some n => n.entries

/-- The leaves still to come from a stack. -/
def stackEntries : List (Nat × Node × Edges) → List leafNode
  | [] => []
  | (_, c, es) :: st => c.entries ++ es.entries ++ stackEntries st

/-- A well-formed tree: the root has the empty prefix and sits at the empty key. -/
def TreeWF (n : Node) : Prop := n.pfx = [] ∧ Node.WF [] n

end Iradix


namespace Mdb

open Iradix (Key Value Node Edges Tree Iterator leafNode)

/-- The ways a call can crash instead of returning. -/
inductive Fault where
  /-- A method of `*iradix.Txn` called through a nil pointer (runtime panic). -/
  | nilDeref
  /-- `sync.Mutex.Unlock` of a mutex that is not locked (fatal runtime error). -/
  | unlockOfUnlocked
deriving DecidableEq, Repr

/-- The error values `Put` and `Delete` return (built there with `errors.New`). -/
inductive Error where
  /-- "mdb: cannot put in read-only transaction" -/
  | putReadOnly
  /-- "mdb: cannot delete in read-only transaction" -/
  | deleteReadOnly
  /-- "mdb: \"k\" wasn't found" -/
  | notFound (k : Key)
deriving DecidableEq, Repr

/-- `sync.Mutex.Lock`: `none` when the mutex is held (the caller blocks). -/
def Mutex.Lock (m : Bool) : Option Bool :=
  if m then none else some true

/-- `sync.Mutex.Unlock`: fatal when the mutex is not held. -/
def Mutex.Unlock (m : Bool) : Except Fault Bool :=
  if m then .ok false else .error .unlockOfUnlocked

/-- `type MDB struct`: the current root and the writer mutex. -/
structure MDB where
  root : Tree
  writer : Bool

/-- `type Txn struct`: the `write` flag and the radix transaction (`none` is the nil
pointer the handle holds once it is committed or aborted).  The field `db` points to
the one database of the system state and is not stored. -/
structure Txn where
  write : Bool
  rootTxn : Option Iradix.Txn

/-- `func New() *MDB`. -/
def New : MDB := ⟨Iradix.New, false⟩

/-- `func (db *MDB) getRoot() *iradix.Tree`. -/
def MDB.getRoot (db : MDB) : Tree := db.root

/-- `func (db *MDB) Txn(write bool) *Txn`: `none` while the call blocks on the
writer mutex; otherwise the database (with the mutex taken when `write`) and the new
handle over the current root. -/
def MDB.Txn (db : MDB) (write : Bool) : Option (MDB × Txn) :=
  match (if write then Mutex.Lock db.writer else some db.writer) with
  | none => none
  | some w =>
    let db' : MDB := { db with writer := w }
    some (db', ⟨write, some db'.getRoot.Txn⟩)

/-- `func (txn *Txn) Put(k string, v interface{}) error`: the handle after the call
and the returned error (`none` is a nil error). -/
def Txn.Put (txn : Txn) (k : Key) (v : Value) : Except Fault (Txn × Option Error) :=
  if !txn.write then .ok (txn, some .putReadOnly)
  else
    match txn.rootTxn with
    | none => .error .nilDeref
    | some rt => .ok ({ txn with rootTxn := some (rt.Insert k v).1 }, none)

/-- `func (txn *Txn) Get(k string) interface{}`. -/
def Txn.Get (txn : Txn) (k : Key) : Except Fault Value :=
  match txn.rootTxn with
  | none => .error .nilDeref
  | some rt => .ok (rt.Get k).1

/-- `func (txn *Txn) Delete(k string) error`. -/
def Txn.Delete (txn : Txn) (k : Key) : Except Fault (Txn × Option Error) :=
  if !txn.write then .ok (txn, some .deleteReadOnly)
  else
    match txn.rootTxn with
    | none => .error .nilDeref
    | some rt =>
      let r := rt.Delete k
      if !r.2.2 then .ok ({ txn with rootTxn := some r.1 }, some (.notFound k))
      else .ok ({ txn with rootTxn := some r.1 }, none)

/-- `func (txn *Txn) All(prefix string) *iradix.Iterator`. -/
def Txn.All (txn : Txn) (p : Key) : Except Fault Iterator :=
  match txn.rootTxn with
  | none => .error .nilDeref
  | some rt => .ok (rt.Root.Iterator.SeekPrefix p)

/-- `func (txn *Txn) Commit()`: the database and the handle after the call. -/
def Txn.Commit (txn : Txn) (db : MDB) : Except Fault (MDB × Txn) :=
  if !txn.write then .ok (db, txn)
  else
    match txn.rootTxn with
    | none => .ok (db, txn)
    | some rt =>
      let newRoot := rt.Commit
      match Mutex.Unlock db.writer with
      | .error f => .error f
      | .ok w => .ok ({ root := newRoot, writer := w }, { txn with rootTxn := none })

/-- `func (txn *Txn) Abort()`: the database and the handle after the call. -/
def Txn.Abort (txn : Txn) (db : MDB) : Except Fault (MDB × Txn) :=
  if !txn.write then .ok (db, txn)
  else
    match txn.rootTxn with
    | none => .ok (db, txn)
    | some _ =>
      match Mutex.Unlock db.writer with
      | .error f => .error f
      | .ok w => .ok ({ db with writer := w }, { txn with rootTxn := none })

/-- A transaction that can still be used: its radix transaction is not nil. -/
def Txn.live (t : Txn) : Bool := t.rootTxn.isSome

/-- A write transaction that is neither committed nor aborted. -/
def Txn.liveWriter (t : Txn) : Bool := t.write && t.rootTxn.isSome

/-- The system state: the database and every transaction handle created so far
(a handle is named by its position in the list). -/
structure Sys where
  db : MDB
  txns : List Txn

/-- The state-changing calls a program can make. -/
inductive Op where
  | txn (write : Bool)
  | put (i : Nat) (k : Key) (v : Value)
  | delete (i : Nat) (k : Key)
  | commit (i : Nat)
  | abort (i : Nat)
deriving DecidableEq

/-- The handle an operation is called on (`none` for `db.Txn`). -/
def Op.handle : Op → Option Nat
  | .txn _ => none
  | .put i _ _ => some i
  | .delete i _ => some i
  | .commit i => some i
  | .abort i => some i

/-- The state after `New()`. -/
def Sys.init : Sys := ⟨New, []⟩

/-- One call as an atomic step.  `none`: the call is not enabled (a `Txn(true)` that
blocks, a handle that does not exist) or it crashes. -/
def Sys.step (s : Sys) : Op → Option Sys
  | .txn w =>
    match s.db.Txn w with
    | none => none
    | some (db', t) => some ⟨db', s.txns ++ [t]⟩
  | .put i k v =>
    match s.txns[i]? with
    | none => none
    | some t =>
      match t.Put k v with
      | .error _ => none
      | .ok (t', _) => some ⟨s.db, s.txns.set i t'⟩
  | .delete i k =>
    match s.txns[i]? with
    | none => none
    | some t =>
      match t.Delete k with
      | .error _ => none
      | .ok (t', _) => some ⟨s.db, s.txns.set i t'⟩
  | .commit i =>
    match s.txns[i]? with
    | none => none
    | some t =>
      match t.Commit s.db with
      | .error _ => none
      | .ok (db', t') => some ⟨db', s.txns.set i t'⟩
  | .abort i =>
    match s.txns[i]? with
    | none => none
    | some t =>
      match t.Abort s.db with
      | .error _ => none
      | .ok (db', t') => some ⟨db', s.txns.set i t'⟩

/-- A sequence of calls, each enabled and returning. -/
def Sys.run (s : Sys) : List Op → Option Sys
  | [] => some s
  | op :: ops =>
    match s.step op with
    | none => none
    | some s' => Sys.run s' ops

/-- What `Get(k)` on handle `i` gives in state `s` (`none`: no such handle). -/
def Sys.Get (s : Sys) (i : Nat) (k : Key) : Option (Except Fault Value) :=
  (s.txns[i]?).map (fun t => t.Get k)

/-- The states a program can reach from `New()`. -/
inductive Reachable : Sys → Prop where
  | init : Reachable Sys.init
  | step {s s' : Sys} (op : Op) : Reachable s → s.step op = some s' → Reachable s'

/-- The key "lease". -/
def keyLease : Key := [108, 101, 97, 115, 101]

/-- The key "a". -/
def keyA : Key := [97]

/-- The key "a.1". -/
def keyA1 : Key := [97, 46, 49]

/-- The key "a.2". -/
def keyA2 : Key := [97, 46, 50]

/-- The key "c.1". -/
def keyC1 : Key := [99, 46, 49]

/-- The state a sequence of calls leads to (the state itself when a call is not
enabled). -/
def Sys.after (s : Sys) (ops : List Op) : Sys := (s.run ops).getD s

/-- A state with a live write transaction (handle 0) that has put "a" = "b". -/
def exLive : Sys := Sys.init.after [.txn true, .put 0 keyA (.str "b")]

/-- The live write transaction of `exLive`. -/
def exLiveTxn : Txn := ⟨true, some (Iradix.New.Txn.Insert keyA (.str "b")).1⟩

/-- `TestDeleteAbort`, first half: "a" is committed as "a". -/
def exCommitted : Sys := Sys.init.after [.txn true, .put 0 keyA (.str "a"), .commit 0]

/-- A write transaction after `Commit`: its radix transaction is nil. -/
def exDead : Txn := ⟨true, none⟩

/-- `TestIterator`: "a.1", "a.2" and "c.1" are committed, then a reader (handle 1)
begins. -/
def exIter : Sys :=
  Sys.init.after [.txn true, .put 0 keyA1 (.str "a.1"), .put 0 keyA2 (.str "a.2"),
    .put 0 keyC1 (.str "c.1"), .commit 0, .txn false]

/-- The tree of `exIter` as the overlay a transaction begun on it holds. -/
def exIterTree : Iradix.Txn :=
  (Iradix.Tree.mk (((Iradix.New.Txn.Insert keyA1 (.str "a.1")).1.Insert keyA2 (.str "a.2")).1.Insert
    keyC1 (.str "c.1")).1.root 3).Txn

/-- The reader of `exIter`. -/
def exIterTxn : Txn := ⟨false, some exIterTree⟩

/-- An edit a write transaction makes to its working tree. -/
inductive Edit where
  | put (k : Key) (v : Value)
  | delete (k : Key)

/-- The edit as a call on handle `i`. -/
def Edit.op (i : Nat) : Edit → Op
  | .put k v => .put i k v
  | .delete k => .delete i k

/-- A call that ends a transaction: `Commit` (`true`) or `Abort` (`false`). -/
def endOp (i : Nat) (commit : Bool) : Op :=
  if commit then .commit i else .abort i

/-- The program of the writers in `TestWriteSafety`: begin a write transaction, read
the integer under `k`, store its successor, commit.  `none` when a step is not
enabled or the value is not an integer. -/
def Sys.increment (s : Sys) (k : Key) : Option Sys :=
  match s.step (.txn true) with
  | none => none
  | some s1 =>
    match s1.Get s.txns.length k with
    | some (.ok (.int n)) =>
      match s1.step (.put s.txns.length k (.int (n + 1))) with
      | none => none
      | some s2 => s2.step (.commit s.txns.length)
    | _ => none

/-- The trees of a state are well-formed radix trees. -/
def Sys.WF (s : Sys) : Prop :=
  Iradix.TreeWF s.db.root.root ∧
  ∀ (i : Nat) (t : Txn) (rt : Iradix.Txn),
    s.txns[i]? = some t → t.rootTxn = some rt → Iradix.TreeWF rt.root

/-- The single-writer invariant: at most one write transaction is live, the writer
mutex is held exactly when one is, and a live write transaction was begun on the
current root. -/
def Sys.Inv (s : Sys) : Prop :=
  (∀ (i j : Nat) (ti tj : Txn), s.txns[i]? = some ti → s.txns[j]? = some tj →
    ti.liveWriter = true → tj.liveWriter = true → i = j) ∧
  (s.db.writer = true ↔ ∃ (i : Nat) (t : Txn), s.txns[i]? = some t ∧ t.liveWriter = true) ∧
  (∀ (i : Nat) (t : Txn) (rt : Iradix.Txn),
    s.txns[i]? = some t → t.liveWriter = true → t.rootTxn = some rt →
    s.db.root.root = rt.snap)

/-- The five ways a step changes the state. -/
inductive StepKind (s s' : Sys) : Prop where
  | begin (w : Bool) (hfree : w = true → s.db.writer = false)
      (h : s' = ⟨⟨s.db.root, s.db.writer || w⟩, s.txns ++ [⟨w, some s.db.root.Txn⟩]⟩)
  | same (h : s' = s)
  | edit (i : Nat) (t : Txn) (rt rt' : Iradix.Txn) (ht : s.txns[i]? = some t)
      (hw : t.write = true) (hr : t.rootTxn = some rt) (hsnap : rt'.snap = rt.snap)
      (hwf : Iradix.TreeWF rt.root → Iradix.TreeWF rt'.root)
      (h : s' = ⟨s.db, s.txns.set i ⟨true, some rt'⟩⟩)
  | commit (i : Nat) (t : Txn) (rt : Iradix.Txn) (ht : s.txns[i]? = some t)
      (hw : t.write = true) (hr : t.rootTxn = some rt) (hlock : s.db.writer = true)
      (h : s' = ⟨⟨rt.Commit, false⟩, s.txns.set i ⟨true, none⟩⟩)
  | abort (i : Nat) (t : Txn) (rt : Iradix.Txn) (ht : s.txns[i]? = some t)
      (hw : t.write = true) (hr : t.rootTxn = some rt) (hlock : s.db.writer = true)
      (h : s' = ⟨⟨s.db.root, false⟩, s.txns.set i ⟨true, none⟩⟩)

end Mdb

namespace IradixP

open Iradix (Key Value leafNode Node Edges longestPrefix)

/-- Modelled from the spec: a node of the radix tree of the absent `iradix` package
as it lies in memory (spec §3): the inline leaf, the edge-label prefix, and the child
edges, each a label and the address of the child node ("child references are shared,
never copied unless an ancestor on the mutation path is replaced"). -/
structure Cell where
  leaf : Option leafNode
  pfx : Key
  edges : List (Nat × Nat)
deriving DecidableEq, Repr

/-- Modelled from the spec: the memory that holds the nodes of all trees of the
absent `iradix` package.  An address is a position in the list; allocating a node
appends it.  Every tree, snapshot and overlay is an address into this one store, so
trees share nodes (spec §3, "structural sharing"). -/
abbrev Store := List Cell

/-- Modelled from the spec: the child of the edge labelled `b` in the absent
`iradix` node's ascending edge list, if there is one. -/
def getEdge : List (Nat × Nat) → Nat → Option Nat
  | [], _ => none
  | (l, q) :: es, b => if l < b then getEdge es b else if l = b then some q else none

/-- Modelled from the spec: add an edge to the edge list of an absent `iradix` node,
keeping the labels ascending. -/
def addEdge : List (Nat × Nat) → Nat → Nat → List (Nat × Nat)
  | [], b, q => [(b, q)]
  | (l, q') :: es, b, q =>
    if l < b then (l, q') :: addEdge es b q else (b, q) :: (l, q') :: es

/-- Modelled from the spec: point the edge labelled `b` of an absent `iradix` node
to another child. -/
def setEdge : List (Nat × Nat) → Nat → Nat → List (Nat × Nat)
  | [], _, _ => []
  | (l, q') :: es, b, q =>
    if l < b then (l, q') :: setEdge es b q else if l = b then (l, q) :: es else (l, q') :: es

/-- Modelled from the spec: remove the edge labelled `b` from the edge list of an
absent `iradix` node. -/
def delEdge : List (Nat × Nat) → Nat → List (Nat × Nat)
  | [], _ => []
  | (l, q') :: es, b =>
    if l < b then (l, q') :: delEdge es b else if l = b then es else (l, q') :: es

/-- Modelled from the spec: the loop of `Get(tree, key)` of the absent `iradix`
package over the node store (spec §4.1): "walks from root, consuming the key
byte-by-byte against edge labels".  The first argument bounds the number of rounds;
an address outside the store ends the walk. -/
def getLoop : Nat → Store → Nat → Key → Option Value
  | 0, _, _, _ => none
  | fuel + 1, h, p, search =>
    match h[p]? with
    | none => none
    | some n =>
      match search with
      | [] => n.leaf.map (·.val)
      | b :: rest =>
        match getEdge n.edges b with
        | none => none
        | some q =>
          match h[q]? with
          | none => none
          | some child =>
            if child.pfx <+: (b :: rest) then
              getLoop fuel h q ((b :: rest).drop child.pfx.length)
            else none

/-- Modelled from the spec: `Get` below the node at address `p`.  A child lies at a
smaller address than its parent, so `p + 1` rounds are enough. -/
def Get (h : Store) (p : Nat) (k : Key) : Option Value := getLoop (p + 1) h p k

/-- Modelled from the spec: path-copying `Insert` of the absent `iradix` package
over the node store (spec §4.1): "clone each node along the root-to-insertion-point
path, reusing all untouched siblings"; no node already in the store is written, the
clones and the new leaf are appended.  Arguments: the bound on the recursion depth,
the store, the address of the node, the whole key `k`, the part of the key still to
be consumed, the value.  Result: the new store, the address of the clone of the
node, and whether the key was present; `none` when the bound is hit or an address
lies outside the store. -/
def insertLoop : Nat → Store → Nat → Key → Key → Value → Option (Store × Nat × Bool)
  | 0, _, _, _, _, _ => none
  | fuel + 1, h, p, k, search, v =>
    match h[p]? with
    | none => none
    | some n =>
      match search with
      | [] => some (h ++ [{ n with leaf := some ⟨k, v⟩ }], h.length, n.leaf.isSome)
      | b :: rest =>
        match getEdge n.edges b with
        | none =>
          some (h ++ [⟨some ⟨k, v⟩, b :: rest, []⟩]
                  ++ [{ n with edges := addEdge n.edges b h.length }], h.length + 1, false)
        | some q =>
          match h[q]? with
          | none => none
          | some child =>
            if longestPrefix (b :: rest) child.pfx = child.pfx.length then
              match insertLoop fuel h q k ((b :: rest).drop child.pfx.length) v with
              | none => none
              | some (h1, q', upd) =>
                some (h1 ++ [{ n with edges := setEdge n.edges b q' }], h1.length, upd)
            else
              let cp := longestPrefix (b :: rest) child.pfx
              let modChild : Cell := { child with pfx := child.pfx.drop cp }
              let e := addEdge [] (child.pfx.getD cp 0) h.length
              match (b :: rest).drop cp with
              | [] =>
                some (h ++ [modChild] ++ [⟨some ⟨k, v⟩, (b :: rest).take cp, e⟩]
                        ++ [{ n with edges := setEdge n.edges b (h.length + 1) }],
                      h.length + 2, false)
              | b' :: rest' =>
                some (h ++ [modChild] ++ [⟨some ⟨k, v⟩, b' :: rest', []⟩]
                        ++ [⟨none, (b :: rest).take cp, addEdge e b' (h.length + 1)⟩]
                        ++ [{ n with edges := setEdge n.edges b (h.length + 2) }],
                      h.length + 3, false)

/-- Modelled from the spec: node collapsing of the absent `iradix` delete (spec
§4.1) over the node store: the clone `nc` of a node left with one child and no
inline leaf takes over the child's leaf and edges and the joined prefix.  A clone
without an edge, or with a child outside the store, is returned as it is. -/
def mergeChild (h : Store) (nc : Cell) : Cell :=
  match nc.edges with
  | [] => nc
  | (_, q) :: _ =>
    match h[q]? with
    | none => nc
    | some child => ⟨child.leaf, nc.pfx ++ child.pfx, child.edges⟩

/-- Modelled from the spec: path-copying `Delete` of the absent `iradix` package
over the node store (spec §4.1).  `none`: the key is absent (or the bound is hit, or
an address lies outside the store) and nothing is allocated, so the caller keeps
the very same root ("pointer-identical to the input").  Otherwise the new store, the
address of the clone of the node, and the removed leaf.  `isRoot` marks the root of
the tree, which is never merged. -/
def deleteLoop : Nat → Store → Bool → Nat → Key → Option (Store × Nat × leafNode)
  | 0, _, _, _, _ => none
  | fuel + 1, h, isRoot, p, search =>
    match h[p]? with
    | none => none
    | some n =>
      match search with
      | [] =>
        match n.leaf with
        | none => none
        | some oldLeaf =>
          some (h ++ [if !isRoot && n.edges.length == 1
                      then mergeChild h { n with leaf := none } else { n with leaf := none }],
                h.length, oldLeaf)
      | b :: rest =>
        match getEdge n.edges b with
        | none => none
        | some q =>
          match h[q]? with
          | none => none
          | some child =>
            if child.pfx <+: (b :: rest) then
              match deleteLoop fuel h false q ((b :: rest).drop child.pfx.length) with
              | none => none
              | some (h1, q', oldLeaf) =>
                match h1[q']? with
                | none => none
                | some newChild =>
                  if newChild.leaf.isNone && newChild.edges.length == 0 then
                    some (h1 ++ [if !isRoot && (delEdge n.edges b).length == 1 && n.leaf.isNone
                                 then mergeChild h1 { n with edges := delEdge n.edges b }
                                 else { n with edges := delEdge n.edges b }],
                          h1.length, oldLeaf)
                  else
                    some (h1 ++ [{ n with edges := setEdge n.edges b q' }], h1.length, oldLeaf)
            else none

/-- Modelled from the spec: a tree of the absent `iradix` package: the address of
its root node and the number of keys. -/
structure Tree where
  root : Nat
  size : Nat
deriving DecidableEq, Repr

/-- Modelled from the spec: the mutation overlay `iradix.Txn` of the absent package
(spec §3): the address of the working root, the address of the root captured when
the overlay was created, and the working size. -/
structure Txn where
  root : Nat
  snap : Nat
  size : Nat
deriving DecidableEq, Repr

/-- Modelled from the spec: `iradix.New()` of the absent package over the node
store: the store that holds the one, empty, root node, and the tree rooted there. -/
def New : Store × Tree := ([⟨none, [], []⟩], ⟨0, 0⟩)

/-- Modelled from the spec: `Tree.Txn()` of the absent `iradix` package: an overlay
that starts at the root of the tree. -/
def Tree.Txn (t : Tree) : Txn := ⟨t.root, t.root, t.size⟩

/-- Modelled from the spec: `Txn.Insert` of the absent `iradix` package over the
node store: the new store and the overlay with its new working root. -/
def Txn.Insert (h : Store) (t : Txn) (k : Key) (v : Value) : Option (Store × Txn) :=
  match insertLoop (t.root + 1) h t.root k k v with
  | none => none
  | some (h', p', upd) =>
    some (h', { t with root := p', size := if upd then t.size else t.size + 1 })

/-- Modelled from the spec: `Txn.Delete` of the absent `iradix` package over the
node store: the new store, the overlay, and whether the key was found.  When it is
not found, store and overlay are unchanged. -/
def Txn.Delete (h : Store) (t : Txn) (k : Key) : Store × Txn × Bool :=
  match deleteLoop (t.root + 1) h true t.root k with
  | none => (h, t, false)
  | some (h', p', _) => (h', { t with root := p', size := t.size - 1 }, true)

/-- Modelled from the spec: `Txn.Get` of the absent `iradix` package over the node
store: the value (nil when absent) and whether the key was found. -/
def Txn.Get (h : Store) (t : Txn) (k : Key) : Value × Bool :=
  match IradixP.Get h t.root k with
  | some v => (v, true)
  | none => (Value.nil, false)

/-- Modelled from the spec: `Txn.Commit` of the absent `iradix` package: the
overlay's working root as a new tree. -/
def Txn.Commit (t : Txn) : Tree := ⟨t.root, t.size⟩

/-- The store holds no dangling address and every child lies at a smaller address
than its parent. -/
def Closed (h : Store) : Prop :=
  ∀ (i : Nat) (c : Cell), h[i]? = some c → ∀ e ∈ c.edges, e.2 < i

/-- The edges of a node, read out of the store by `f`. -/
def reifyEdges (f : Nat → Node) : List (Nat × Nat) → Edges
  | [] => .nil
  | (l, q) :: es => .cons l (f q) (reifyEdges f es)

/-- The tree below the address `p`, read out of the store as a value.  The first
argument bounds the depth; an address outside the store reads as the empty node. -/
def reify : Nat → Store → Nat → Node
  | 0, _, _ => .mk none [] .nil
  | fuel + 1, h, p =>
    match h[p]? with
    | none => .mk none [] .nil
    | some c => .mk c.leaf c.pfx (reifyEdges (reify fuel h) c.edges)

/-- The tree whose root lies at address `p`. -/
def nodeAt (h : Store) (p : Nat) : Node := reify (p + 1) h p

end IradixP

namespace MdbP

open Iradix (Key Value)
open IradixP (Store Cell)
open Mdb (Fault Error Op)

/-- `type MDB struct` over the node store: the current root is the address of a
tree, as in `root unsafe.Pointer`. -/
structure MDB where
  root : IradixP.Tree
  writer : Bool
deriving DecidableEq, Repr

/-- `type Txn struct` over the node store: the radix transaction holds addresses of
nodes that other handles may hold too (`none` is the nil pointer). -/
structure Txn where
  write : Bool
  rootTxn : Option IradixP.Txn
deriving DecidableEq, Repr

/-- `func New() *MDB`: the store with the empty root node, and the database. -/
def New : Store × MDB := (IradixP.New.1, ⟨IradixP.New.2, false⟩)

/-- `func (db *MDB) getRoot() *iradix.Tree`. -/
def MDB.getRoot (db : MDB) : IradixP.Tree := db.root

/-- `func (db *MDB) Txn(write bool) *Txn`: `none` while the call blocks on the
writer mutex.  No node is allocated: the new handle points to the current root. -/
def MDB.Txn (db : MDB) (write : Bool) : Option (MDB × Txn) :=
  match (if write then Mdb.Mutex.Lock db.writer else some db.writer) with
  | none => none
  | some w =>
    let db' : MDB := { db with writer := w }
    some (db', ⟨write, some db'.getRoot.Txn⟩)

/-- `func (txn *Txn) Put(k string, v interface{}) error` over the node store `h`:
the store, the handle and the error after the call.  An address outside the store
counts as a nil dereference. -/
def Txn.Put (h : Store) (txn : Txn) (k : Key) (v : Value) :
    Except Fault (Store × Txn × Option Error) :=
  if !txn.write then .ok (h, txn, some .putReadOnly)
  else
    match txn.rootTxn with
    | none => .error .nilDeref
    | some rt =>
      match rt.Insert h k v with
      | none => .error .nilDeref
      | some (h', rt') => .ok (h', { txn with rootTxn := some rt' }, none)

/-- `func (txn *Txn) Get(k string) interface{}` over the node store `h`. -/
def Txn.Get (h : Store) (txn : Txn) (k : Key) : Except Fault Value :=
  match txn.rootTxn with
  | none => .error .nilDeref
  | some rt => .ok (rt.Get h k).1

/-- `func (txn *Txn) Delete(k string) error` over the node store `h`. -/
def Txn.Delete (h : Store) (txn : Txn) (k : Key) : Except Fault (Store × Txn × Option Error) :=
  if !txn.write then .ok (h, txn, some .deleteReadOnly)
  else
    match txn.rootTxn with
    | none => .error .nilDeref
    | some rt =>
      let r := rt.Delete h k
      if !r.2.2 then .ok (r.1, { txn with rootTxn := some r.2.1 }, some (.notFound k))
      else .ok (r.1, { txn with rootTxn := some r.2.1 }, none)

/-- `func (txn *Txn) Commit()`: the database and the handle after the call; the
store is not touched. -/
def Txn.Commit (txn : Txn) (db : MDB) : Except Fault (MDB × Txn) :=
  if !txn.write then .ok (db, txn)
  else
    match txn.rootTxn with
    | none => .ok (db, txn)
    | some rt =>
      let newRoot := rt.Commit
      match Mdb.Mutex.Unlock db.writer with
      | .error f => .error f
      | .ok w => .ok ({ root := newRoot, writer := w }, { txn with rootTxn := none })

/-- `func (txn *Txn) Abort()`: the database and the handle after the call; the store
is not touched. -/
def Txn.Abort (txn : Txn) (db : MDB) : Except Fault (MDB × Txn) :=
  if !txn.write then .ok (db, txn)
  else
    match txn.rootTxn with
    | none => .ok (db, txn)
    | some _ =>
      match Mdb.Mutex.Unlock db.writer with
      | .error f => .error f
      | .ok w => .ok ({ db with writer := w }, { txn with rootTxn := none })

/-- The system state over the node store: the one memory all trees live in, the
database, and every transaction handle created so far. -/
structure Sys where
  store : Store
  db : MDB
  txns : List Txn
deriving DecidableEq, Repr

/-- The state after `New()`. -/
def Sys.init : Sys := ⟨New.1, New.2, []⟩

/-- One call as an atomic step over the node store.  `none`: the call is not
enabled or it crashes. -/
def Sys.step (s : Sys) : Op → Option Sys
  | .txn w =>
    match s.db.Txn w with
    | none => none
    | some (db', t) => some ⟨s.store, db', s.txns ++ [t]⟩
  | .put i k v =>
    match s.txns[i]? with
    | none => none
    | some t =>
      match t.Put s.store k v with
      | .error _ => none
      | .ok (h', t', _) => some ⟨h', s.db, s.txns.set i t'⟩
  | .delete i k =>
    match s.txns[i]? with
    | none => none
    | some t =>
      match t.Delete s.store k with
      | .error _ => none
      | .ok (h', t', _) => some ⟨h', s.db, s.txns.set i t'⟩
  | .commit i =>
    match s.txns[i]? with
    | none => none
    | some t =>
      match t.Commit s.db with
      | .error _ => none
      | .ok (db', t') => some ⟨s.store, db', s.txns.set i t'⟩
  | .abort i =>
    match s.txns[i]? with
    | none => none
    | some t =>
      match t.Abort s.db with
      | .error _ => none
      | .ok (db', t') => some ⟨s.store, db', s.txns.set i t'⟩

/-- A sequence of calls, each enabled and returning. -/
def Sys.run (s : Sys) : List Op → Option Sys
  | [] => some s
  | op :: ops =>
    match s.step op with
    | none => none
    | some s' => Sys.run s' ops

/-- What `Get(k)` on handle `i` gives in state `s` (`none`: no such handle). -/
def Sys.Get (s : Sys) (i : Nat) (k : Key) : Option (Except Fault Value) :=
  (s.txns[i]?).map (fun t => t.Get s.store k)

/-- The states a program can reach from `New()`. -/
inductive Reachable : Sys → Prop where
  | init : Reachable Sys.init
  | step {s s' : Sys} (op : Op) : Reachable s → s.step op = some s' → Reachable s'

/-- The state a sequence of calls leads to (the state itself when a call is not
enabled). -/
def Sys.after (s : Sys) (ops : List Op) : Sys := (s.run ops).getD s

/-- `TestReadConcurrency`, first half: "lease" is committed as 1, then a reader
(handle 1) begins. -/
def exReaderOps : List Op :=
  [.txn true, .put 0 Mdb.keyLease (.int 1), .commit 0, .txn false]

/-- The state of the node store model after `exReaderOps`. -/
def exReader : Sys := Sys.init.after exReaderOps

/-- What a later writer (handle 2) does while the reader of `exReader` is open:
it overwrites "lease", puts and deletes further keys, and commits. -/
def exWriterOps : List Op :=
  [.txn true, .put 2 Mdb.keyLease (.int 2), .put 2 Mdb.keyA1 (.int 3), .delete 2 Mdb.keyA1,
    .delete 2 Mdb.keyLease, .put 2 Mdb.keyLease (.int 2), .commit 2]

/-- The addresses a state holds all lie in the store, and the store is closed: the
database root and the working root and captured root of every live handle. -/
def Sys.Inv (s : Sys) : Prop :=
  IradixP.Closed s.store ∧ s.db.root.root < s.store.length ∧
    ∀ (i : Nat) (t : Txn) (rt : IradixP.Txn), s.txns[i]? = some t → t.rootTxn = some rt →
      rt.root < s.store.length ∧ rt.snap < s.store.length

/-- The radix transaction a handle holds, read out of the store as a value. -/
def absRadix (h : Store) (rt : IradixP.Txn) : Iradix.Txn :=
  ⟨IradixP.nodeAt h rt.root, IradixP.nodeAt h rt.snap, rt.size⟩

/-- A transaction handle with its tree read out of the store. -/
def Txn.abs (h : Store) (t : Txn) : Mdb.Txn := ⟨t.write, t.rootTxn.map (absRadix h)⟩

/-- The system state with every tree read out of the store: the state of the
embedding of `mdb.go` in which a handle holds its tree as a value. -/
def Sys.abs (s : Sys) : Mdb.Sys :=
  ⟨⟨⟨IradixP.nodeAt s.store s.db.root.root, s.db.root.size⟩, s.db.writer⟩,
    s.txns.map (Txn.abs s.store)⟩

end MdbP

/-! # Theorems -/

namespace Iradix

/-! ## Lookup after insert -/

theorem Node.Get_mk_nil (l : Option leafNode) (p : Key) (e : Edges) :
    (Node.mk l p e).Get [] = l.map (·.val) := rfl

theorem Node.Get_mk_cons (l : Option leafNode) (p : Key) (e : Edges) (b : Nat) (rest : Key) :
    (Node.mk l p e).Get (b :: rest) = Edges.Get e b rest := rfl

theorem Edges.Get_nil (b : Nat) (rest : Key) : Edges.Get .nil b rest = none := rfl

theorem Edges.Get_cons (l : Nat) (c : Node) (es : Edges) (b : Nat) (rest : Key) :
    Edges.Get (.cons l c es) b rest =
      if l < b then Edges.Get es b rest
      else if l = b then c.GetVia (b :: rest) else none := rfl

theorem longestPrefix_decomp (s p : Key) :
    ∃ c s' p', s = c ++ s' ∧ p = c ++ p' ∧ longestPrefix s p = c.length ∧
      (∀ x xs y ys, s' = x :: xs → p' = y :: ys → x ≠ y) := by
  induction s generalizing p with
  | nil => exact ⟨[], [], p, rfl, rfl, by simp [longestPrefix], by simp⟩
  | cons a as ih =>
    cases p with
    | nil => exact ⟨[], a :: as, [], rfl, rfl, by simp [longestPrefix], by simp⟩
    | cons b bs =>
      by_cases hab : a = b
      · subst hab
        obtain ⟨c, s', p', h1, h2, h3, h4⟩ := ih bs
        exact ⟨a :: c, s', p', by simp [h1], by simp [h2], by simp [longestPrefix, h3], h4⟩
      · refine ⟨[], a :: as, b :: bs, rfl, rfl, by simp [longestPrefix, hab], ?_⟩
        intro x xs y ys h1 h2
        cases h1; cases h2; exact hab

theorem longestPrefix_eq_length_iff (s p : Key) :
    longestPrefix s p = p.length ↔ p <+: s := by
  induction s generalizing p with
  | nil => cases p <;> simp [longestPrefix]
  | cons a as ih =>
    cases p with
    | nil => simp [longestPrefix]
    | cons b bs =>
      by_cases hab : a = b
      · subst hab
        simp [longestPrefix, ih, List.cons_prefix_cons]
      · simp [longestPrefix, hab, List.cons_prefix_cons]
        intro h; exact absurd h.symm hab

theorem Node.GetVia_mk_self (leaf : Option leafNode) (p : Key) (es : Edges) (t : Key) :
    (Node.mk leaf p es).GetVia (p ++ t) = (Node.mk leaf p es).Get t := by
  simp [Node.GetVia, Node.pfx]

theorem Node.Get_mk_pfx (leaf : Option leafNode) (p q : Key) (es : Edges) (t : Key) :
    (Node.mk leaf p es).Get t = (Node.mk leaf q es).Get t := by
  cases t <;> rfl

theorem Node.GetVia_mk_append (leaf : Option leafNode) (p1 p2 : Key) (es : Edges) (t : Key) :
    (Node.mk leaf (p1 ++ p2) es).GetVia (p1 ++ t) = (Node.mk leaf p2 es).GetVia t := by
  simp only [Node.GetVia, Node.pfx, List.prefix_append_right_inj, List.length_append]
  by_cases h : p2 <+: t
  · simp only [h, if_true]
    rw [← List.drop_drop, List.drop_left]
    exact Node.Get_mk_pfx _ _ _ _ _
  · simp [h]

theorem Node.GetVia_not_prefix (n : Node) (s : Key) (h : ¬ n.pfx <+: s) :
    n.GetVia s = none := by
  simp [Node.GetVia, h]

theorem Node.GetVia_mk_cons (leaf : Option leafNode) (y : Nat) (ys : Key) (es : Edges)
    (x : Nat) (xs : Key) (h : x ≠ y) :
    (Node.mk leaf (y :: ys) es).GetVia (x :: xs) = none := by
  apply Node.GetVia_not_prefix
  simp only [Node.pfx, List.cons_prefix_cons]
  intro h2; exact h h2.1.symm

theorem Node.GetVia_leafNode (lf : leafNode) (p s : Key) :
    (Node.mk (some lf) p .nil).GetVia s = if s = p then some lf.val else none := by
  by_cases h : p <+: s
  · obtain ⟨t, rfl⟩ := h
    rw [Node.GetVia_mk_self]
    cases t with
    | nil => simp [Node.Get_mk_nil]
    | cons x xs => simp [Node.Get_mk_cons, Edges.Get_nil]
  · rw [Node.GetVia_not_prefix _ _ (by simpa [Node.pfx] using h)]
    split
    · next h2 => subst h2; exact absurd (List.prefix_refl _) h
    · rfl

theorem getD_append_cons (cpre : Key) (y : Nat) (ys : Key) :
    (cpre ++ y :: ys).getD cpre.length 0 = y := by
  induction cpre with
  | nil => rfl
  | cons a as ih => simpa using ih

theorem splitNode_nil (cl : Option leafNode) (ce : Edges) (cpre : Key) (y : Nat) (ys : Key)
    (k : Key) (v : Value) :
    splitNode (.mk cl (cpre ++ y :: ys) ce) k cpre cpre.length v =
      .mk (some ⟨k, v⟩) cpre (.cons y (.mk cl (y :: ys) ce) .nil) := by
  unfold splitNode
  simp only [Node.pfx, Node.leaf, Node.edges, List.drop_left, List.take_length,
    getD_append_cons, Edges.addEdge, List.drop_length]

theorem splitNode_cons (cl : Option leafNode) (ce : Edges) (cpre : Key) (y : Nat) (ys : Key)
    (x0 : Nat) (xs0 : Key) (k : Key) (v : Value) :
    splitNode (.mk cl (cpre ++ y :: ys) ce) k (cpre ++ x0 :: xs0) cpre.length v =
      .mk none cpre (if y < x0
        then .cons y (.mk cl (y :: ys) ce) (.cons x0 (.mk (some ⟨k, v⟩) (x0 :: xs0) .nil) .nil)
        else .cons x0 (.mk (some ⟨k, v⟩) (x0 :: xs0) .nil) (.cons y (.mk cl (y :: ys) ce) .nil)) := by
  unfold splitNode
  simp only [Node.pfx, Node.leaf, Node.edges, List.drop_left, List.take_left,
    getD_append_cons, Edges.addEdge]

/-- Looking a key up through a freshly split node gives the new value for the
inserted key and what the old child gave for every other key. -/
theorem splitNode_GetVia (cl : Option leafNode) (ce : Edges) (cpre : Key) (y : Nat) (ys s' : Key)
    (k : Key) (v : Value) (hne : ∀ x xs, s' = x :: xs → x ≠ y) (s'' : Key) :
    (splitNode (.mk cl (cpre ++ y :: ys) ce) k (cpre ++ s') cpre.length v).GetVia s'' =
      if s'' = cpre ++ s' then some v else (Node.mk cl (cpre ++ y :: ys) ce).GetVia s'' := by
  by_cases hp : cpre <+: s''
  · obtain ⟨t, rfl⟩ := hp
    rw [Node.GetVia_mk_append]
    simp only [List.append_cancel_left_eq]
    cases s' with
    | nil =>
      rw [List.append_nil, splitNode_nil, Node.GetVia_mk_self]
      cases t with
      | nil => simp [Node.Get_mk_nil]
      | cons x xs =>
        simp only [Node.Get_mk_cons, Edges.Get_cons, Edges.Get_nil, reduceCtorEq, if_false]
        by_cases hxy : y = x
        · subst hxy; simp
        · have := Node.GetVia_mk_cons cl y ys ce x xs (fun h => hxy h.symm)
          simp [hxy, this]
    | cons x0 xs0 =>
      have hx0 : x0 ≠ y := hne x0 xs0 rfl
      rw [splitNode_cons, Node.GetVia_mk_self]
      cases t with
      | nil =>
        have h2 : (Node.mk cl (y :: ys) ce).GetVia [] = none :=
          Node.GetVia_not_prefix _ _ (by simp [Node.pfx])
        rw [h2]
        simp [Node.Get_mk_nil]
      | cons x xs =>
        rw [Node.Get_mk_cons]
        have hL : (Node.mk (some ⟨k, v⟩) (x0 :: xs0) Edges.nil).GetVia (x :: xs) =
            if x :: xs = x0 :: xs0 then some v else none := Node.GetVia_leafNode _ _ _
        by_cases hxx0 : x = x0
        · subst hxx0
          have h3 := Node.GetVia_mk_cons cl y ys ce x xs hx0
          rw [h3]
          split <;> simp only [Edges.Get_cons, Edges.Get_nil, hL, h3] <;>
            (split_ifs <;> first | rfl | omega)
        · have h6 : ¬ (x :: xs = x0 :: xs0) := by
            intro h; cases h; exact hxx0 rfl
          have hL' : (Node.mk (some ⟨k, v⟩) (x0 :: xs0) Edges.nil).GetVia (x :: xs) = none := by
            rw [hL, if_neg h6]
          rw [if_neg h6]
          by_cases hxy : x = y
          · subst hxy
            split <;> simp only [Edges.Get_cons, Edges.Get_nil, hL'] <;>
              (split_ifs <;> first | rfl | omega)
          · have h3 := Node.GetVia_mk_cons cl y ys ce x xs hxy
            rw [h3]
            split <;> simp only [Edges.Get_cons, Edges.Get_nil, hL', h3] <;>
              (split_ifs <;> rfl)
  · have h7 : ¬ (s'' = cpre ++ s') := by
      intro h; subst h; exact hp (List.prefix_append _ _)
    have h8 : (Node.mk cl (cpre ++ y :: ys) ce).GetVia s'' = none :=
      Node.GetVia_not_prefix _ _ (by
        simp only [Node.pfx]; intro h; exact hp ((List.prefix_append _ _).trans h))
    rw [if_neg h7, h8]
    apply Node.GetVia_not_prefix
    cases s' with
    | nil => rw [List.append_nil, splitNode_nil]; exact hp
    | cons x0 xs0 => rw [splitNode_cons]; exact hp

theorem Node.insert_pfx (n : Node) (k s : Key) (v : Value) : (n.insert k s v).1.pfx = n.pfx := by
  cases n; cases s <;> rfl

theorem Node.insert_mk_nil (l : Option leafNode) (p : Key) (e : Edges) (k : Key) (v : Value) :
    (Node.mk l p e).insert k [] v = (.mk (some ⟨k, v⟩) p e, l.isSome) := rfl

theorem Node.insert_mk_cons (l : Option leafNode) (p : Key) (e : Edges) (k : Key) (b : Nat)
    (rest : Key) (v : Value) :
    (Node.mk l p e).insert k (b :: rest) v =
      (.mk l p (Edges.insert e k b rest v).1, (Edges.insert e k b rest v).2) := rfl

theorem Edges.insert_nil (k : Key) (b : Nat) (rest : Key) (v : Value) :
    Edges.insert .nil k b rest v = (.cons b (.mk (some ⟨k, v⟩) (b :: rest) .nil) .nil, false) := rfl

theorem Edges.insert_cons (l : Nat) (c : Node) (es : Edges) (k : Key) (b : Nat) (rest : Key)
    (v : Value) :
    Edges.insert (.cons l c es) k b rest v =
      if l < b then (.cons l c (Edges.insert es k b rest v).1, (Edges.insert es k b rest v).2)
      else if l = b then
        if longestPrefix (b :: rest) c.pfx = c.pfx.length then
          (.cons l (Node.insert c k ((b :: rest).drop c.pfx.length) v).1 es,
            (Node.insert c k ((b :: rest).drop c.pfx.length) v).2)
        else
          (.cons b (splitNode c k (b :: rest) (longestPrefix (b :: rest) c.pfx) v) es, false)
      else
        (.cons b (.mk (some ⟨k, v⟩) (b :: rest) .nil) (.cons l c es), false) := by
  rw [Edges.insert]

mutual
/-- Lookup after insert below a node: the inserted key gives the new value, every
other key what it gave before. -/
theorem Node.Get_insert : ∀ (n : Node) (k s : Key) (v : Value) (s' : Key),
    (n.insert k s v).1.Get s' = if s' = s then some v else n.Get s'
  | .mk leaf pfx edges, k, [], v, s' => by
    cases s' <;> simp [Node.insert_mk_nil, Node.Get_mk_nil, Node.Get_mk_cons]
  | .mk leaf pfx edges, k, b :: rest, v, s' => by
    cases s' with
    | nil => simp [Node.insert_mk_cons, Node.Get_mk_nil]
    | cons b' rest' =>
      rw [Node.insert_mk_cons, Node.Get_mk_cons, Node.Get_mk_cons]
      exact Edges.edge_Get_insert edges k b rest v b' rest'
/-- Lookup after insert, at the edges of a node. -/
theorem Edges.edge_Get_insert : ∀ (es : Edges) (k : Key) (b : Nat) (rest : Key) (v : Value)
    (b' : Nat) (rest' : Key),
    Edges.Get (es.insert k b rest v).1 b' rest' =
      if b' :: rest' = b :: rest then some v else Edges.Get es b' rest'
  | .nil, k, b, rest, v, b', rest' => by
    rw [Edges.insert_nil]
    simp only [Edges.Get_cons, Edges.Get_nil, Node.GetVia_leafNode]
    by_cases h : b' :: rest' = b :: rest
    · cases h; simp
    · simp only [h, if_false]; split_ifs <;> rfl
  | .cons l c es, k, b, rest, v, b', rest' => by
    rw [Edges.insert_cons]
    by_cases hlb : l < b
    · simp only [hlb, if_true, Edges.Get_cons]
      by_cases hlb' : l < b'
      · simp only [hlb', if_true]
        exact Edges.edge_Get_insert es k b rest v b' rest'
      · have h : ¬ (b' :: rest' = b :: rest) := by
          intro h; cases h; exact hlb' hlb
        simp only [hlb', h, if_false]
    · simp only [hlb, if_false]
      by_cases hlb2 : l = b
      · subst hlb2
        simp only [if_true]
        by_cases hlb' : l < b'
        · have h : ¬ (b' :: rest' = l :: rest) := by
            intro h; cases h; omega
          split <;> simp only [Edges.Get_cons, hlb', h, if_true, if_false]
        · by_cases hlb3 : l = b'
          · subst hlb3
            by_cases hp : longestPrefix (l :: rest) c.pfx = c.pfx.length
            · simp only [hp, if_true, Edges.Get_cons, hlb', if_false]
              have hpre : c.pfx <+: l :: rest := (longestPrefix_eq_length_iff _ _).1 hp
              unfold Node.GetVia
              rw [Node.insert_pfx]
              by_cases hp' : c.pfx <+: l :: rest'
              · simp only [hp', if_true]
                rw [Node.Get_insert c]
                obtain ⟨t, ht⟩ := hpre
                obtain ⟨t', ht'⟩ := hp'
                rw [← ht, ← ht']
                simp only [List.drop_left, List.append_cancel_left_eq]
              · have h : ¬ (l :: rest' = l :: rest) := by
                  intro h; rw [h] at hp'; exact hp' hpre
                simp only [hp', h, if_false]
            · simp only [hp, if_false, Edges.Get_cons, hlb', if_true]
              obtain ⟨cpre, s', p', h1, h2, h3, h4⟩ := longestPrefix_decomp (l :: rest) c.pfx
              cases c with
              | mk cl cp ce =>
                simp only [Node.pfx] at h2 hp h3 ⊢
                cases p' with
                | nil => exfalso; apply hp; rw [h3, h2]; simp
                | cons y ys =>
                  subst h2
                  rw [h3, h1]
                  exact splitNode_GetVia cl ce cpre y ys s' k v
                    (fun x xs hx => h4 x xs y ys hx rfl) _
          · have h : ¬ (b' :: rest' = l :: rest) := by
              intro h; cases h; exact hlb3 rfl
            split <;> simp only [Edges.Get_cons, hlb', hlb3, h, if_false]
      · simp only [hlb2, if_false, Edges.Get_cons, Node.GetVia_leafNode]
        by_cases h : b' :: rest' = b :: rest
        · cases h; simp
        · simp only [h, if_false]
          split_ifs <;> first | rfl | omega
end

/-! ## Well-formed trees -/

theorem Node.WF_mk (acc : Key) (leaf : Option leafNode) (p : Key) (es : Edges) :
    Node.WF acc (.mk leaf p es) ↔ (∀ lf, leaf = some lf → lf.key = acc) ∧ Edges.WF acc es := by
  rw [Node.WF]

theorem Edges.WF_nil (acc : Key) : Edges.WF acc .nil := by
  rw [Edges.WF]; trivial

theorem Edges.WF_cons (acc : Key) (l : Nat) (c : Node) (es : Edges) :
    Edges.WF acc (.cons l c es) ↔
      (∃ r, c.pfx = l :: r) ∧ Node.WF (acc ++ c.pfx) c ∧ Edges.above l es ∧ Edges.WF acc es := by
  rw [Edges.WF]

theorem Edges.above_nil (l : Nat) : Edges.above l .nil := trivial

theorem Edges.above_cons (l l' : Nat) (c : Node) (es : Edges) :
    Edges.above l (.cons l' c es) ↔ l < l' := Iff.rfl

theorem Edges.above_trans {m l : Nat} {es : Edges} (h : m ≤ l) (ha : Edges.above l es) :
    Edges.above m es := by
  cases es with
  | nil => trivial
  | cons l' c es => rw [Edges.above_cons] at ha ⊢; omega

theorem Node.WF_leafNode (acc k : Key) (v : Value) (p : Key) (h : k = acc) :
    Node.WF acc (.mk (some ⟨k, v⟩) p .nil) := by
  rw [Node.WF_mk]
  refine ⟨?_, Edges.WF_nil _⟩
  intro lf hlf; cases hlf; exact h

theorem splitNode_WF (acc : Key) (cl : Option leafNode) (ce : Edges) (cpre : Key) (y : Nat)
    (ys s' : Key) (k : Key) (v : Value) (hne : ∀ x xs, s' = x :: xs → x ≠ y)
    (hk : k = acc ++ (cpre ++ s'))
    (hc : Node.WF (acc ++ (cpre ++ y :: ys)) (.mk cl (cpre ++ y :: ys) ce)) :
    Node.WF (acc ++ cpre)
      (splitNode (.mk cl (cpre ++ y :: ys) ce) k (cpre ++ s') cpre.length v) := by
  have hmod : Node.WF (acc ++ cpre ++ (Node.mk cl (y :: ys) ce).pfx) (.mk cl (y :: ys) ce) := by
    rw [Node.WF_mk] at hc ⊢
    simpa [Node.pfx] using hc
  cases s' with
  | nil =>
    rw [List.append_nil, splitNode_nil, Node.WF_mk]
    refine ⟨?_, ?_⟩
    · intro lf hlf; cases hlf; simpa using hk
    · rw [Edges.WF_cons]
      exact ⟨⟨ys, rfl⟩, hmod, Edges.above_nil _, Edges.WF_nil _⟩
  | cons x0 xs0 =>
    have hx0 : x0 ≠ y := hne x0 xs0 rfl
    have hnew : Node.WF (acc ++ cpre ++ (Node.mk (some ⟨k, v⟩) (x0 :: xs0) Edges.nil).pfx)
        (.mk (some ⟨k, v⟩) (x0 :: xs0) .nil) :=
      Node.WF_leafNode _ _ _ _ (by simpa [Node.pfx] using hk)
    rw [splitNode_cons, Node.WF_mk]
    refine ⟨(by intro lf hlf; cases hlf), ?_⟩
    split
    · next hlt =>
      rw [Edges.WF_cons, Edges.WF_cons]
      exact ⟨⟨ys, rfl⟩, hmod, hlt, ⟨xs0, rfl⟩, hnew, Edges.above_nil _, Edges.WF_nil _⟩
    · next hlt =>
      rw [Edges.WF_cons, Edges.WF_cons]
      refine ⟨⟨xs0, rfl⟩, hnew, ?_, ⟨ys, rfl⟩, hmod, Edges.above_nil _, Edges.WF_nil _⟩
      rw [Edges.above_cons]; omega

theorem splitNode_pfx (c : Node) (k search : Key) (cp : Nat) (v : Value) :
    (splitNode c k search cp v).pfx = search.take cp := by
  unfold splitNode
  split <;> rfl

mutual
/-- Insert keeps a subtree well formed. -/
theorem Node.WF_insert : ∀ (n : Node) (acc k s : Key) (v : Value),
    Node.WF acc n → k = acc ++ s → Node.WF acc (n.insert k s v).1
  | .mk leaf pfx edges, acc, k, [], v, h, hk => by
    rw [Node.insert_mk_nil, Node.WF_mk]
    rw [Node.WF_mk] at h
    refine ⟨?_, h.2⟩
    intro lf hlf; cases hlf; simpa using hk
  | .mk leaf pfx edges, acc, k, b :: rest, v, h, hk => by
    rw [Node.insert_mk_cons, Node.WF_mk]
    rw [Node.WF_mk] at h
    exact ⟨h.1, (Edges.edge_WF_insert edges acc k b rest v h.2 hk).1⟩
/-- Insert keeps the edges well formed and above every bound below the new label. -/
theorem Edges.edge_WF_insert : ∀ (es : Edges) (acc k : Key) (b : Nat) (rest : Key) (v : Value),
    Edges.WF acc es → k = acc ++ b :: rest →
    Edges.WF acc (es.insert k b rest v).1 ∧
      ∀ m, m < b → Edges.above m es → Edges.above m (es.insert k b rest v).1
  | .nil, acc, k, b, rest, v, _, hk => by
    rw [Edges.insert_nil]
    refine ⟨?_, fun m hm _ => hm⟩
    rw [Edges.WF_cons]
    exact ⟨⟨rest, rfl⟩, Node.WF_leafNode _ _ _ _ hk, Edges.above_nil _, Edges.WF_nil _⟩
  | .cons l c es, acc, k, b, rest, v, h, hk => by
    rw [Edges.insert_cons]
    rw [Edges.WF_cons] at h
    obtain ⟨⟨r, hr⟩, hc, hab, hes⟩ := h
    by_cases hlb : l < b
    · simp only [hlb, if_true]
      have ih := Edges.edge_WF_insert es acc k b rest v hes hk
      refine ⟨?_, fun m _ ha => ha⟩
      rw [Edges.WF_cons]
      exact ⟨⟨r, hr⟩, hc, ih.2 l hlb hab, ih.1⟩
    · simp only [hlb, if_false]
      by_cases hlb2 : l = b
      · subst hlb2
        simp only [if_true]
        by_cases hp : longestPrefix (l :: rest) c.pfx = c.pfx.length
        · simp only [hp, if_true]
          refine ⟨?_, fun m _ ha => ha⟩
          rw [Edges.WF_cons, Node.insert_pfx]
          refine ⟨⟨r, hr⟩, ?_, hab, hes⟩
          apply Node.WF_insert c _ k _ v hc
          obtain ⟨t, ht⟩ := (longestPrefix_eq_length_iff _ _).1 hp
          rw [hk, ← ht, List.drop_left, List.append_assoc]
        · simp only [hp, if_false]
          refine ⟨?_, fun m hm _ => hm⟩
          obtain ⟨cpre, s', p', h1, h2, h3, h4⟩ := longestPrefix_decomp (l :: rest) c.pfx
          cases c with
          | mk cl cp ce =>
            simp only [Node.pfx] at h2 hp h3 hr hc
            cases p' with
            | nil => exfalso; apply hp; rw [h3, h2]; simp
            | cons y ys =>
              have hcpre : ∃ r', cpre = l :: r' := by
                cases cpre with
                | nil =>
                  exfalso
                  rw [hr] at h2
                  simp only [List.nil_append] at h1 h2
                  exact h4 l rest y ys h1.symm rfl (by cases h2; rfl)
                | cons a as =>
                  simp only [List.cons_append, List.cons.injEq] at h1
                  exact ⟨as, by rw [h1.1]⟩
              subst h2
              rw [Edges.WF_cons, splitNode_pfx]
              simp only [Node.pfx]
              rw [h3, h1, List.take_left]
              exact ⟨hcpre, splitNode_WF acc cl ce cpre y ys s' k v
                (fun x xs hx => h4 x xs y ys hx rfl) (by rw [hk, h1]) hc, hab, hes⟩
      · simp only [hlb2, if_false]
        refine ⟨?_, fun m hm _ => hm⟩
        rw [Edges.WF_cons, Edges.WF_cons]
        refine ⟨⟨rest, rfl⟩, Node.WF_leafNode _ _ _ _ hk, ?_, ⟨r, hr⟩, hc, hab, hes⟩
        rw [Edges.above_cons]; omega
end

/-! ## Delete -/

theorem Node.delete_mk_nil (leaf : Option leafNode) (p : Key) (e : Edges) (isRoot : Bool) :
    (Node.mk leaf p e).delete isRoot [] =
      match leaf with
      | none => none
      | some oldLeaf =>
        some (if !isRoot && e.length == 1 then (Node.mk none p e).mergeChild
              else Node.mk none p e, oldLeaf) := rfl

theorem Node.delete_mk_cons (leaf : Option leafNode) (p : Key) (e : Edges) (isRoot : Bool)
    (b : Nat) (rest : Key) :
    (Node.mk leaf p e).delete isRoot (b :: rest) =
      match Edges.delete e b rest with
      | none => none
      | some (edges', removed, oldLeaf) =>
        some (if removed && !isRoot && edges'.length == 1 && leaf.isNone
              then (Node.mk leaf p edges').mergeChild
              else Node.mk leaf p edges', oldLeaf) := rfl

theorem Edges.delete_nil (b : Nat) (rest : Key) : Edges.delete .nil b rest = none := rfl

theorem Edges.delete_cons (l : Nat) (c : Node) (es : Edges) (b : Nat) (rest : Key) :
    Edges.delete (.cons l c es) b rest =
      if l < b then
        match Edges.delete es b rest with
        | none => none
        | some (es', removed, oldLeaf) => some (.cons l c es', removed, oldLeaf)
      else if l = b then
        if c.pfx <+: (b :: rest) then
          match Node.delete c false ((b :: rest).drop c.pfx.length) with
          | none => none
          | some (newChild, oldLeaf) =>
            if newChild.leaf.isNone && newChild.edges.length == 0 then some (es, true, oldLeaf)
            else some (.cons l newChild es, false, oldLeaf)
        else none
      else none := by
  rw [Edges.delete]

theorem Edges.length_eq_one {es : Edges} (h : es.length = 1) : ∃ l d, es = .cons l d .nil := by
  cases es with
  | nil => simp [Edges.length] at h
  | cons l d es' =>
    cases es' with
    | nil => exact ⟨l, d, rfl⟩
    | cons l2 d2 es2 => simp [Edges.length] at h

theorem Edges.length_eq_zero {es : Edges} (h : es.length = 0) : es = .nil := by
  cases es with
  | nil => rfl
  | cons l d es' => simp [Edges.length] at h

theorem Edges.Get_of_above {l : Nat} {es : Edges} (h : Edges.above l es) (b : Nat) (rest : Key)
    (hb : b ≤ l) : Edges.Get es b rest = none := by
  cases es with
  | nil => rfl
  | cons l' c es' =>
    rw [Edges.above_cons] at h
    rw [Edges.Get_cons, if_neg (by omega), if_neg (by omega)]

theorem Node.GetVia_mk_not_prefix (leaf : Option leafNode) (p : Key) (e : Edges) (s : Key)
    (h : ¬ p <+: s) : (Node.mk leaf p e).GetVia s = none :=
  Node.GetVia_not_prefix _ _ h

theorem Node.GetVia_mk_not_prefix_append (leaf : Option leafNode) (p q : Key) (e : Edges)
    (s : Key) (h : ¬ p <+: s) : (Node.mk leaf (p ++ q) e).GetVia s = none :=
  Node.GetVia_not_prefix _ _ (fun h2 => h ((List.prefix_append _ _).trans h2))

theorem Node.GetVia_empty (p s : Key) : (Node.mk none p .nil).GetVia s = none := by
  by_cases h : p <+: s
  · obtain ⟨t, rfl⟩ := h
    rw [Node.GetVia_mk_self]
    cases t <;> rfl
  · exact Node.GetVia_not_prefix _ _ h

theorem Node.WF_pfx (acc : Key) (leaf : Option leafNode) (p q : Key) (es : Edges) :
    Node.WF acc (.mk leaf p es) ↔ Node.WF acc (.mk leaf q es) := by
  rw [Node.WF_mk, Node.WF_mk]

/-- Looking up through a merged node gives what the node gave before the merge. -/
theorem Node.mergeChild_GetVia (p : Key) (l : Nat) (d : Node) (r : Key) (hd : d.pfx = l :: r)
    (s : Key) :
    (Node.mk none p (.cons l d .nil)).mergeChild.GetVia s =
      (Node.mk none p (.cons l d .nil)).GetVia s := by
  cases d with
  | mk dl dp de =>
    simp only [Node.pfx] at hd
    subst hd
    simp only [Node.mergeChild, Node.leaf, Node.pfx, Node.edges]
    by_cases h : p <+: s
    · obtain ⟨t, rfl⟩ := h
      rw [Node.GetVia_mk_append, Node.GetVia_mk_self]
      cases t with
      | nil =>
        rw [Node.Get_mk_nil]
        exact Node.GetVia_not_prefix _ _ (by simp [Node.pfx])
      | cons x xs =>
        rw [Node.Get_mk_cons, Edges.Get_cons, Edges.Get_nil]
        by_cases hx : l = x
        · subst hx; simp
        · rw [Node.GetVia_mk_cons _ _ _ _ _ _ (fun h => hx h.symm)]
          split_ifs <;> rfl
    · rw [Node.GetVia_mk_not_prefix _ _ _ _ h]
      exact Node.GetVia_mk_not_prefix_append _ _ _ _ _ h

theorem Node.mergeChild_WF (P p : Key) (l : Nat) (d : Node)
    (h : Edges.WF (P ++ p) (.cons l d .nil)) :
    Node.WF (P ++ (Node.mk none p (.cons l d .nil)).mergeChild.pfx)
      (Node.mk none p (.cons l d .nil)).mergeChild := by
  rw [Edges.WF_cons] at h
  cases d with
  | mk dl dp de =>
    simp only [Node.mergeChild, Node.leaf, Node.pfx, Node.edges] at h ⊢
    rw [← List.append_assoc]
    exact (Node.WF_pfx _ _ _ _ _).1 h.2.1

theorem Node.mergeChild_pfx (p : Key) (l : Nat) (d : Node) :
    p <+: (Node.mk none p (.cons l d .nil)).mergeChild.pfx := by
  simp [Node.mergeChild, Node.pfx]

/-- Lookup through a node whose inline leaf was cleared. -/
theorem Node.GetVia_clear (leaf : Option leafNode) (p : Key) (e : Edges) (s : Key) :
    (Node.mk none p e).GetVia s = if s = p ++ [] then none else (Node.mk leaf p e).GetVia s := by
  by_cases h : p <+: s
  · obtain ⟨t, rfl⟩ := h
    rw [Node.GetVia_mk_self, Node.GetVia_mk_self]
    cases t with
    | nil => simp [Node.Get_mk_nil]
    | cons x xs => simp [Node.Get_mk_cons]
  · rw [Node.GetVia_mk_not_prefix _ _ _ _ h, Node.GetVia_mk_not_prefix _ _ _ _ h]
    split <;> rfl

/-- Lookup through a node whose edges were replaced. -/
theorem Node.GetVia_edges (leaf : Option leafNode) (p : Key) (e e' : Edges) (b : Nat) (rest : Key)
    (h : ∀ b' rest', Edges.Get e' b' rest' =
      if b' :: rest' = b :: rest then none else Edges.Get e b' rest') (s : Key) :
    (Node.mk leaf p e').GetVia s =
      if s = p ++ b :: rest then none else (Node.mk leaf p e).GetVia s := by
  by_cases hp : p <+: s
  · obtain ⟨t, rfl⟩ := hp
    rw [Node.GetVia_mk_self, Node.GetVia_mk_self]
    cases t with
    | nil => simp [Node.Get_mk_nil]
    | cons x xs => simp [Node.Get_mk_cons, h]
  · rw [Node.GetVia_mk_not_prefix _ _ _ _ hp, Node.GetVia_mk_not_prefix _ _ _ _ hp]
    split <;> rfl

mutual
/-- What `delete` does below a node at key `P ++ n.pfx`: it fails exactly when the
key is absent; otherwise it returns the leaf that was stored, a well-formed node
whose prefix extends the old one, and lookups through the new node give nothing for
the deleted key and the old result for every other key. -/
theorem Node.delete_spec : ∀ (n : Node) (r : Bool) (s P : Key), Node.WF (P ++ n.pfx) n →
    (n.delete r s = none → n.Get s = none) ∧
    (∀ n' lf, n.delete r s = some (n', lf) →
      n.Get s = some lf.val ∧ n.pfx <+: n'.pfx ∧ (r = true → n'.pfx = n.pfx) ∧
      Node.WF (P ++ n'.pfx) n' ∧
      ∀ s', n'.GetVia s' = if s' = n.pfx ++ s then none else n.GetVia s')
  | .mk leaf p e, r, [], P, h => by
    rw [Node.delete_mk_nil]
    simp only [Node.pfx] at h
    cases leaf with
    | none => exact ⟨fun _ => rfl, fun _ _ h => by cases h⟩
    | some old =>
      refine ⟨fun h => (by cases h), ?_⟩
      intro n' lf hd
      simp only [Option.some.injEq, Prod.mk.injEq] at hd
      obtain ⟨hn, hlf⟩ := hd
      subst hlf
      have hE : Edges.WF (P ++ p) e := ((Node.WF_mk _ _ _ _).1 h).2
      have hWF' : Node.WF (P ++ p) (.mk none p e) := by
        rw [Node.WF_mk]; exact ⟨(by intro lf h; cases h), hE⟩
      by_cases hc : (!r && e.length == 1) = true
      · rw [if_pos hc] at hn; subst hn
        simp only [Bool.and_eq_true, Bool.not_eq_true', beq_iff_eq] at hc
        obtain ⟨l, d, rfl⟩ := Edges.length_eq_one hc.2
        obtain ⟨r', hr'⟩ := ((Edges.WF_cons _ _ _ _).1 hE).1
        refine ⟨rfl, Node.mergeChild_pfx _ _ _, (by intro hr; rw [hr] at hc; simp at hc),
          Node.mergeChild_WF P p l d hE, ?_⟩
        intro s'
        rw [Node.mergeChild_GetVia p l d r' hr', Node.GetVia_clear (some old)]
        rfl
      · rw [if_neg hc] at hn; subst hn
        exact ⟨rfl, List.prefix_refl _, fun _ => rfl, hWF', fun s' => Node.GetVia_clear _ _ _ _⟩
  | .mk leaf p e, r, b :: rest, P, h => by
    rw [Node.delete_mk_cons, Node.Get_mk_cons]
    simp only [Node.pfx] at h
    have hL := ((Node.WF_mk _ _ _ _).1 h).1
    have hE : Edges.WF (P ++ p) e := ((Node.WF_mk _ _ _ _).1 h).2
    have ih := Edges.edge_delete_spec e b rest (P ++ p) hE
    cases hd : Edges.delete e b rest with
    | none => exact ⟨fun _ => ih.1 hd, fun _ _ h => by cases h⟩
    | some x =>
      obtain ⟨e', rm, lf0⟩ := x
      obtain ⟨hg, hE', _, hget⟩ := ih.2 e' rm lf0 hd
      refine ⟨fun h => (by cases h), ?_⟩
      intro n' lf hd2
      simp only [Option.some.injEq, Prod.mk.injEq] at hd2
      obtain ⟨hn, hlf⟩ := hd2
      subst hlf
      have hWF' : Node.WF (P ++ p) (.mk leaf p e') := by
        rw [Node.WF_mk]; exact ⟨hL, hE'⟩
      by_cases hc : (rm && !r && e'.length == 1 && leaf.isNone) = true
      · rw [if_pos hc] at hn; subst hn
        simp only [Bool.and_eq_true, Bool.not_eq_true', beq_iff_eq, Option.isNone_iff_eq_none]
          at hc
        obtain ⟨⟨⟨_, hr⟩, hlen⟩, hleaf⟩ := hc
        subst hleaf
        obtain ⟨l, d, rfl⟩ := Edges.length_eq_one hlen
        obtain ⟨r', hr'⟩ := ((Edges.WF_cons _ _ _ _).1 hE').1
        refine ⟨hg, Node.mergeChild_pfx _ _ _, (by intro h2; rw [h2] at hr; cases hr),
          Node.mergeChild_WF P p l d hE', ?_⟩
        intro s'
        rw [Node.mergeChild_GetVia p l d r' hr']
        exact Node.GetVia_edges none p e _ b rest hget s'
      · rw [if_neg hc] at hn; subst hn
        exact ⟨hg, List.prefix_refl _, fun _ => rfl, hWF',
          fun s' => Node.GetVia_edges leaf p e e' b rest hget s'⟩
/-- What `delete` does at the edges of a node at key `acc`. -/
theorem Edges.edge_delete_spec : ∀ (es : Edges) (b : Nat) (rest acc : Key), Edges.WF acc es →
    (es.delete b rest = none → Edges.Get es b rest = none) ∧
    (∀ es' rm lf, es.delete b rest = some (es', rm, lf) →
      Edges.Get es b rest = some lf.val ∧ Edges.WF acc es' ∧
      (∀ m, Edges.above m es → Edges.above m es') ∧
      ∀ b' rest', Edges.Get es' b' rest' =
        if b' :: rest' = b :: rest then none else Edges.Get es b' rest')
  | .nil, b, rest, acc, _ => by
    rw [Edges.delete_nil]
    exact ⟨fun _ => rfl, fun _ _ _ h => by cases h⟩
  | .cons l c es, b, rest, acc, h => by
    rw [Edges.delete_cons, Edges.Get_cons]
    obtain ⟨⟨r0, hr0⟩, hc, hab, hes⟩ := (Edges.WF_cons _ _ _ _).1 h
    by_cases hlb : l < b
    · simp only [hlb, if_true]
      have ih := Edges.edge_delete_spec es b rest acc hes
      cases hd : Edges.delete es b rest with
      | none => exact ⟨fun _ => ih.1 hd, fun _ _ _ h => by cases h⟩
      | some x =>
        obtain ⟨e', rm0, lf0⟩ := x
        obtain ⟨hg, hE', habove, hget⟩ := ih.2 e' rm0 lf0 hd
        refine ⟨fun h => (by cases h), ?_⟩
        intro es' rm lf hd2
        simp only [Option.some.injEq, Prod.mk.injEq] at hd2
        obtain ⟨rfl, rfl, rfl⟩ := hd2
        refine ⟨hg, ?_, fun m hm => hm, ?_⟩
        · rw [Edges.WF_cons]; exact ⟨⟨r0, hr0⟩, hc, habove l hab, hE'⟩
        · intro b' rest'
          simp only [Edges.Get_cons]
          by_cases hlb' : l < b'
          · simp only [hlb', if_true]; exact hget b' rest'
          · have hne : ¬ (b' :: rest' = b :: rest) := by
              intro h; cases h; exact hlb' hlb
            simp only [hlb', hne, if_false]
    · simp only [hlb, if_false]
      by_cases hlb2 : l = b
      · subst hlb2
        simp only [if_true]
        by_cases hp : c.pfx <+: l :: rest
        · simp only [hp, if_true]
          have ih := Node.delete_spec c false ((l :: rest).drop c.pfx.length) acc hc
          have hG : c.GetVia (l :: rest) = c.Get ((l :: rest).drop c.pfx.length) := by
            unfold Node.GetVia; rw [if_pos hp]
          have hsplit : c.pfx ++ (l :: rest).drop c.pfx.length = l :: rest := by
            obtain ⟨t, ht⟩ := hp
            rw [← ht, List.drop_left]
          cases hd : Node.delete c false ((l :: rest).drop c.pfx.length) with
          | none => exact ⟨fun _ => by rw [hG]; exact ih.1 hd, fun _ _ _ h => by cases h⟩
          | some x =>
            obtain ⟨c', lf0⟩ := x
            obtain ⟨hg, hpre, _, hWF', hget⟩ := ih.2 c' lf0 hd
            rw [hsplit] at hget
            refine ⟨fun h => (by simp only at h; split at h <;> cases h), ?_⟩
            intro es' rm lf hd2
            simp only at hd2
            by_cases hemp : (c'.leaf.isNone && c'.edges.length == 0) = true
            · rw [if_pos hemp] at hd2
              simp only [Option.some.injEq, Prod.mk.injEq] at hd2
              obtain ⟨rfl, rfl, rfl⟩ := hd2
              refine ⟨by rw [hG]; exact hg, hes, fun m hm => ?_, ?_⟩
              · rw [Edges.above_cons] at hm
                exact Edges.above_trans (Nat.le_of_lt hm) hab
              · intro b' rest'
                have hnone : ∀ s', c'.GetVia s' = none := by
                  intro s'
                  cases c' with
                  | mk cl cp ce =>
                    simp only [Node.leaf, Node.edges, Bool.and_eq_true,
                      Option.isNone_iff_eq_none, beq_iff_eq] at hemp
                    obtain ⟨rfl, hz⟩ := hemp
                    rw [Edges.length_eq_zero hz]
                    exact Node.GetVia_empty _ _
                simp only [Edges.Get_cons]
                by_cases hlb' : l < b'
                · have hne : ¬ (b' :: rest' = l :: rest) := by
                    intro h; cases h; omega
                  simp only [hlb', hne, if_true, if_false]
                · rw [Edges.Get_of_above hab b' rest' (by omega)]
                  by_cases hne : b' :: rest' = l :: rest
                  · simp only [hne, if_true]
                  · simp only [hne, hlb', if_false]
                    by_cases hlb3 : l = b'
                    · subst hlb3
                      have := hget (l :: rest')
                      rw [hnone, if_neg hne] at this
                      simp only [if_true]; exact this
                    · simp only [hlb3, if_false]
            · rw [if_neg hemp] at hd2
              simp only [Option.some.injEq, Prod.mk.injEq] at hd2
              obtain ⟨rfl, rfl, rfl⟩ := hd2
              refine ⟨by rw [hG]; exact hg, ?_, fun m hm => hm, ?_⟩
              · rw [Edges.WF_cons]
                refine ⟨?_, hWF', hab, hes⟩
                obtain ⟨t, ht⟩ := hpre
                exact ⟨r0 ++ t, by rw [← ht, hr0]; rfl⟩
              · intro b' rest'
                simp only [Edges.Get_cons]
                by_cases hlb' : l < b'
                · have hne : ¬ (b' :: rest' = l :: rest) := by
                    intro h; cases h; omega
                  simp only [hlb', hne, if_true, if_false]
                · by_cases hlb3 : l = b'
                  · subst hlb3
                    simp only [hlb', if_false, if_true]
                    exact hget (l :: rest')
                  · have hne : ¬ (b' :: rest' = l :: rest) := by
                      intro h; cases h; exact hlb3 rfl
                    simp only [hlb', hlb3, hne, if_false]
        · simp only [hp, if_false]
          exact ⟨fun _ => Node.GetVia_not_prefix _ _ hp, fun _ _ _ h => by cases h⟩
      · simp only [hlb2, if_false]
        exact ⟨fun _ => trivial, fun _ _ _ h => by cases h⟩
end

/-! ## The leaves in depth-first order -/

theorem Node.entries_mk (leaf : Option leafNode) (p : Key) (e : Edges) :
    (Node.mk leaf p e).entries = leaf.toList ++ e.entries := by
  rw [Node.entries]

theorem Edges.entries_nil : Edges.entries .nil = [] := by
  rw [Edges.entries]

theorem Edges.entries_cons (l : Nat) (c : Node) (es : Edges) :
    (Edges.cons l c es).entries = c.entries ++ es.entries := by
  rw [Edges.entries]

theorem Edges.lt_of_Get {m : Nat} {es : Edges} (h : Edges.above m es) {b : Nat} {rest : Key}
    {v : Value} (hg : Edges.Get es b rest = some v) : m < b := by
  by_contra hlt
  rw [Edges.Get_of_above h b rest (by omega)] at hg
  cases hg

mutual
/-- The leaves below a well-formed node at key `acc` are exactly the bindings that
`Get` finds below it, each stored under its full key. -/
theorem Node.mem_entries : ∀ (n : Node) (acc : Key), Node.WF acc n → ∀ lf : leafNode,
    lf ∈ n.entries ↔ ∃ s, lf.key = acc ++ s ∧ n.Get s = some lf.val
  | .mk leaf p e, acc, h, lf => by
    obtain ⟨hL, hE⟩ := (Node.WF_mk _ _ _ _).1 h
    rw [Node.entries_mk, List.mem_append, Edges.edge_mem_entries e acc hE lf]
    constructor
    · rintro (h1 | ⟨b, rest, hk, hg⟩)
      · rw [Option.mem_toList] at h1
        refine ⟨[], ?_, ?_⟩
        · rw [List.append_nil]; exact hL lf h1
        · rw [Node.Get_mk_nil]; rw [Option.mem_def] at h1; rw [h1]; rfl
      · exact ⟨b :: rest, hk, by rw [Node.Get_mk_cons]; exact hg⟩
    · rintro ⟨s, hk, hg⟩
      cases s with
      | nil =>
        left
        rw [Node.Get_mk_nil] at hg
        cases leaf with
        | none => cases hg
        | some l0 =>
          have h0 := hL l0 rfl
          simp only [Option.map_some', Option.some.injEq] at hg
          rw [Option.mem_toList, Option.mem_def]
          congr 1
          cases l0; cases lf
          simp only [List.append_nil] at hk h0 hg ⊢
          simp only [leafNode.mk.injEq]
          exact ⟨by rw [h0, hk], hg⟩
      | cons b rest =>
        right
        exact ⟨b, rest, hk, by rw [Node.Get_mk_cons] at hg; exact hg⟩
/-- The leaves below well-formed edges are exactly the bindings `Get` finds. -/
theorem Edges.edge_mem_entries : ∀ (es : Edges) (acc : Key), Edges.WF acc es → ∀ lf : leafNode,
    lf ∈ es.entries ↔ ∃ b rest, lf.key = acc ++ b :: rest ∧ Edges.Get es b rest = some lf.val
  | .nil, acc, _, lf => by
    rw [Edges.entries_nil]
    constructor
    · intro h; cases h
    · rintro ⟨b, rest, _, hg⟩; rw [Edges.Get_nil] at hg; cases hg
  | .cons l c es, acc, h, lf => by
    obtain ⟨⟨r0, hr0⟩, hc, hab, hes⟩ := (Edges.WF_cons _ _ _ _).1 h
    rw [Edges.entries_cons, List.mem_append, Node.mem_entries c _ hc lf,
      Edges.edge_mem_entries es acc hes lf]
    constructor
    · rintro (⟨s, hk, hg⟩ | ⟨b, rest, hk, hg⟩)
      · refine ⟨l, r0 ++ s, ?_, ?_⟩
        · rw [hk, hr0]; simp
        · rw [Edges.Get_cons, if_neg (Nat.lt_irrefl l), if_pos rfl]
          have : l :: (r0 ++ s) = c.pfx ++ s := by rw [hr0]; rfl
          rw [this]
          unfold Node.GetVia
          rw [if_pos (List.prefix_append _ _), List.drop_left]
          exact hg
      · refine ⟨b, rest, hk, ?_⟩
        rw [Edges.Get_cons, if_pos (Edges.lt_of_Get hab hg)]
        exact hg
    · rintro ⟨b, rest, hk, hg⟩
      rw [Edges.Get_cons] at hg
      by_cases hlb : l < b
      · rw [if_pos hlb] at hg
        exact Or.inr ⟨b, rest, hk, hg⟩
      · rw [if_neg hlb] at hg
        by_cases hlb2 : l = b
        · rw [if_pos hlb2] at hg
          unfold Node.GetVia at hg
          by_cases hp : c.pfx <+: b :: rest
          · rw [if_pos hp] at hg
            obtain ⟨t, ht⟩ := hp
            rw [← ht, List.drop_left] at hg
            exact Or.inl ⟨t, by rw [hk, ← ht, List.append_assoc], hg⟩
          · rw [if_neg hp] at hg; cases hg
        · rw [if_neg hlb2] at hg; cases hg
end

/-- Every leaf below a well-formed node at key `acc` has a key that starts
with `acc`. -/
theorem Node.prefix_of_mem_entries {n : Node} {acc : Key} (h : Node.WF acc n) {lf : leafNode}
    (hm : lf ∈ n.entries) : acc <+: lf.key := by
  obtain ⟨s, hk, _⟩ := (Node.mem_entries n acc h lf).1 hm
  exact ⟨s, hk.symm⟩

/-- Every leaf below well-formed edges continues the key `acc` with a byte above
every lower bound of the labels. -/
theorem Edges.key_of_mem_entries {es : Edges} {acc : Key} (h : Edges.WF acc es) {lf : leafNode}
    (hm : lf ∈ es.entries) :
    ∃ b rest, lf.key = acc ++ b :: rest ∧ ∀ m, Edges.above m es → m < b := by
  obtain ⟨b, rest, hk, hg⟩ := (Edges.edge_mem_entries es acc h lf).1 hm
  exact ⟨b, rest, hk, fun m hab => Edges.lt_of_Get hab hg⟩

theorem keyLt_append_cons (acc : Key) (b : Nat) (rest : Key) : keyLt acc (acc ++ b :: rest) := by
  have h : keyLt (acc ++ []) (acc ++ b :: rest) := List.Lex.append_left _ List.Lex.nil acc
  simpa using h

theorem keyLt_of_lt (acc : Key) {a b : Nat} (h : a < b) (x y : Key) :
    keyLt (acc ++ a :: x) (acc ++ b :: y) :=
  List.Lex.append_left _ (List.Lex.rel h) acc

mutual
/-- The depth-first order of a well-formed subtree is the ascending key order. -/
theorem Node.sorted_entries : ∀ (n : Node) (acc : Key), Node.WF acc n →
    n.entries.Pairwise (fun a b => keyLt a.key b.key)
  | .mk leaf p e, acc, h => by
    obtain ⟨hL, hE⟩ := (Node.WF_mk _ _ _ _).1 h
    rw [Node.entries_mk, List.pairwise_append]
    refine ⟨?_, Edges.edge_sorted_entries e acc hE, ?_⟩
    · cases leaf <;> simp
    · intro a ha b hb
      rw [Option.mem_toList] at ha
      obtain ⟨x, rest, hk, _⟩ := Edges.key_of_mem_entries hE hb
      rw [hL a ha, hk]
      exact keyLt_append_cons _ _ _
/-- The depth-first order below well-formed edges is the ascending key order. -/
theorem Edges.edge_sorted_entries : ∀ (es : Edges) (acc : Key), Edges.WF acc es →
    es.entries.Pairwise (fun a b => keyLt a.key b.key)
  | .nil, _, _ => by rw [Edges.entries_nil]; exact List.Pairwise.nil
  | .cons l c es, acc, h => by
    obtain ⟨⟨r0, hr0⟩, hc, hab, hes⟩ := (Edges.WF_cons _ _ _ _).1 h
    rw [Edges.entries_cons, List.pairwise_append]
    refine ⟨Node.sorted_entries c _ hc, Edges.edge_sorted_entries es acc hes, ?_⟩
    intro a ha b hb
    obtain ⟨s, hs⟩ := Node.prefix_of_mem_entries hc ha
    obtain ⟨x, rest, hk, hx⟩ := Edges.key_of_mem_entries hes hb
    rw [← hs, hk, hr0, List.append_assoc, List.cons_append]
    exact keyLt_of_lt acc (hx l hab) _ _
end

/-! ## The prefix iterator -/

theorem Node.seekPrefix_nil (n : Node) : n.seekPrefix [] = some n := by
  cases n; rfl

theorem Node.seekPrefix_mk_cons (leaf : Option leafNode) (p : Key) (e : Edges) (b : Nat)
    (rest : Key) : (Node.mk leaf p e).seekPrefix (b :: rest) = Edges.seekPrefix e b rest := rfl

theorem Edges.edge_seekPrefix_nil (b : Nat) (rest : Key) : Edges.seekPrefix .nil b rest = none := rfl

theorem Edges.seekPrefix_cons (l : Nat) (c : Node) (es : Edges) (b : Nat) (rest : Key) :
    Edges.seekPrefix (.cons l c es) b rest =
      if l < b then Edges.seekPrefix es b rest
      else if l = b then
        if c.pfx <+: (b :: rest) then Node.seekPrefix c ((b :: rest).drop c.pfx.length)
        else if (b :: rest) <+: c.pfx then some c
        else none
      else none := by
  rw [Edges.seekPrefix]

theorem not_prefix_of_ne (acc : Key) {a b : Nat} (h : a ≠ b) (x y : Key) :
    ¬ (acc ++ a :: x) <+: (acc ++ b :: y) := by
  rw [List.prefix_append_right_inj, List.cons_prefix_cons]
  exact fun h2 => h h2.1

mutual
/-- The subtree `seekPrefix` finds holds exactly the leaves whose key starts with
the prefix, in the order of the whole tree. -/
theorem Node.entries_seekPrefix : ∀ (n : Node) (acc s : Key), Node.WF acc n →
    entriesOf (n.seekPrefix s) = n.entries.filter (fun lf => decide ((acc ++ s) <+: lf.key))
  | n, acc, [], h => by
    rw [Node.seekPrefix_nil, entriesOf, eq_comm, List.filter_eq_self]
    intro lf hlf
    simpa using Node.prefix_of_mem_entries h hlf
  | .mk leaf p e, acc, b :: rest, h => by
    obtain ⟨hL, hE⟩ := (Node.WF_mk _ _ _ _).1 h
    rw [Node.seekPrefix_mk_cons, Node.entries_mk, List.filter_append,
      Edges.edge_entries_seekPrefix e acc b rest hE]
    have : leaf.toList.filter (fun lf => decide ((acc ++ b :: rest) <+: lf.key)) = [] := by
      rw [List.filter_eq_nil_iff]
      intro lf hlf
      rw [Option.mem_toList] at hlf
      rw [hL lf hlf]
      simp only [decide_eq_true_eq]
      intro hp
      have := hp.length_le
      simp at this
    rw [this, List.nil_append]
/-- The prefix search at the edges of a node. -/
theorem Edges.edge_entries_seekPrefix : ∀ (es : Edges) (acc : Key) (b : Nat) (rest : Key),
    Edges.WF acc es →
    entriesOf (es.seekPrefix b rest) =
      es.entries.filter (fun lf => decide ((acc ++ b :: rest) <+: lf.key))
  | .nil, acc, b, rest, _ => by
    rw [Edges.edge_seekPrefix_nil, Edges.entries_nil]; rfl
  | .cons l c es, acc, b, rest, h => by
    obtain ⟨⟨r0, hr0⟩, hc, hab, hes⟩ := (Edges.WF_cons _ _ _ _).1 h
    rw [Edges.seekPrefix_cons, Edges.entries_cons, List.filter_append]
    have hrest : ∀ m, m ≤ l → b ≤ m →
        es.entries.filter (fun lf => decide ((acc ++ b :: rest) <+: lf.key)) = [] := by
      intro m hm hbm
      rw [List.filter_eq_nil_iff]
      intro lf hlf
      obtain ⟨x, xs, hk, hx⟩ := Edges.key_of_mem_entries hes hlf
      have := hx l hab
      rw [hk]
      simp only [decide_eq_true_eq]
      exact not_prefix_of_ne acc (by omega) _ _
    have hchild : l ≠ b →
        c.entries.filter (fun lf => decide ((acc ++ b :: rest) <+: lf.key)) = [] := by
      intro hne
      rw [List.filter_eq_nil_iff]
      intro lf hlf
      obtain ⟨s, hs⟩ := Node.prefix_of_mem_entries hc hlf
      rw [← hs, hr0, List.append_assoc, List.cons_append]
      simp only [decide_eq_true_eq]
      exact not_prefix_of_ne acc (fun h => hne h.symm) _ _
    by_cases hlb : l < b
    · rw [if_pos hlb, hchild (by omega), List.nil_append]
      exact Edges.edge_entries_seekPrefix es acc b rest hes
    · rw [if_neg hlb]
      by_cases hlb2 : l = b
      · subst hlb2
        rw [if_pos rfl, hrest l (Nat.le_refl _) (Nat.le_refl _), List.append_nil]
        by_cases hp : c.pfx <+: l :: rest
        · rw [if_pos hp, Node.entries_seekPrefix c _ _ hc]
          obtain ⟨t, ht⟩ := hp
          rw [← ht, List.drop_left, List.append_assoc]
        · rw [if_neg hp]
          by_cases hp2 : (l :: rest) <+: c.pfx
          · rw [if_pos hp2, entriesOf, eq_comm, List.filter_eq_self]
            intro lf hlf
            have h1 := Node.prefix_of_mem_entries hc hlf
            simp only [decide_eq_true_eq]
            exact ((List.prefix_append_right_inj acc).2 hp2).trans h1
          · rw [if_neg hp2, entriesOf, eq_comm, List.filter_eq_nil_iff]
            intro lf hlf
            obtain ⟨s, hs⟩ := Node.prefix_of_mem_entries hc hlf
            simp only [decide_eq_true_eq]
            rw [← hs, List.append_assoc, List.prefix_append_right_inj]
            intro h3
            rcases List.prefix_or_prefix_of_prefix h3 (List.prefix_append c.pfx s) with h4 | h4
            · exact hp2 h4
            · exact hp h4
      · rw [if_neg hlb2, hchild hlb2, hrest l (Nat.le_refl _) (by omega)]
        rfl
end

/-! ### The stack machine yields the depth-first order -/

theorem Node.size_pos (n : Node) : 0 < n.size := by
  cases n; rw [Node.size]; omega

theorem stackSize_pushEdges (es : Edges) (st : List (Nat × Node × Edges)) :
    stackSize (pushEdges es st) = es.size + stackSize st := by
  cases es with
  | nil => simp [pushEdges, Edges.size]
  | cons l c es => simp [pushEdges, stackSize, Edges.size]

theorem stackEntries_pushEdges (es : Edges) (st : List (Nat × Node × Edges)) :
    stackEntries (pushEdges es st) = es.entries ++ stackEntries st := by
  cases es with
  | nil => simp [pushEdges, Edges.entries_nil]
  | cons l c es => simp [pushEdges, stackEntries, Edges.entries_cons]

/-- With enough rounds the loop of `Next` returns the first leaf still to come and
leaves the others on the stack; the stack shrinks when a leaf is returned. -/
theorem Iterator.nextLoop_spec : ∀ (fuel : Nat) (st : List (Nat × Node × Edges)),
    stackSize st ≤ fuel →
    (Iterator.nextLoop fuel st).1 = (stackEntries st).head? ∧
    stackEntries (Iterator.nextLoop fuel st).2 = (stackEntries st).tail ∧
    ((Iterator.nextLoop fuel st).1.isSome → stackSize (Iterator.nextLoop fuel st).2 < stackSize st)
  | 0, [], _ => by simp [Iterator.nextLoop, stackEntries]
  | 0, (l, c, es) :: st, h => by
    have := Node.size_pos c
    simp only [stackSize] at h
    omega
  | fuel + 1, [], _ => by simp [Iterator.nextLoop, stackEntries]
  | fuel + 1, (l, .mk leaf p e, rest) :: st, h => by
    have hsz : stackSize (pushEdges e (pushEdges rest st)) + 1 =
        stackSize ((l, Node.mk leaf p e, rest) :: st) := by
      simp only [stackSize_pushEdges, stackSize, Node.size]; omega
    have hen : stackEntries ((l, Node.mk leaf p e, rest) :: st) =
        leaf.toList ++ stackEntries (pushEdges e (pushEdges rest st)) := by
      simp only [stackEntries_pushEdges, stackEntries, Node.entries_mk, List.append_assoc]
    cases leaf with
    | some lf =>
      simp only [Iterator.nextLoop, Node.leaf, Node.edges]
      rw [hen]
      refine ⟨rfl, rfl, fun _ => ?_⟩
      omega
    | none =>
      simp only [Iterator.nextLoop, Node.leaf, Node.edges]
      rw [hen]
      have ih := Iterator.nextLoop_spec fuel (pushEdges e (pushEdges rest st)) (by omega)
      refine ⟨ih.1, ih.2.1, fun hs => ?_⟩
      have := ih.2.2 hs
      omega

theorem stackEntries_of_size_zero {st : List (Nat × Node × Edges)} (h : stackSize st = 0) :
    stackEntries st = [] := by
  cases st with
  | nil => rfl
  | cons x st =>
    obtain ⟨l, c, es⟩ := x
    have := Node.size_pos c
    simp only [stackSize] at h
    omega

theorem Iterator.startStack_mk_some (nd : Option Node) (st : List (Nat × Node × Edges)) :
    Iterator.startStack ⟨nd, some st⟩ = st := rfl

/-- With enough calls, draining an iterator yields every leaf still to come. -/
theorem Iterator.drain_spec : ∀ (fuel : Nat) (i : Iterator),
    stackSize i.startStack ≤ fuel → Iterator.drain fuel i = stackEntries i.startStack
  | 0, i, h => by
    rw [stackEntries_of_size_zero (by omega)]; rfl
  | fuel + 1, i, h => by
    obtain ⟨h1, h2, h3⟩ := Iterator.nextLoop_spec (stackSize i.startStack) i.startStack
      (Nat.le_refl _)
    rw [Iterator.drain]
    simp only [Iterator.Next]
    cases hr : (Iterator.nextLoop (stackSize i.startStack) i.startStack).1 with
    | none =>
      rw [hr] at h1
      simp only
      cases hs : stackEntries i.startStack with
      | nil => rfl
      | cons a as => rw [hs] at h1; cases h1
    | some lf =>
      rw [hr] at h1 h3
      simp only
      have hlt := h3 rfl
      rw [Iterator.drain_spec fuel _ (by rw [Iterator.startStack_mk_some]; omega),
        Iterator.startStack_mk_some, h2]
      cases hs : stackEntries i.startStack with
      | nil => rw [hs] at h1; cases h1
      | cons a as => rw [hs] at h1; cases h1; rfl

/-- Calling `Next` until the end yields the leaves of the start node in depth-first
order. -/
theorem Iterator.toList_fresh (nd : Option Node) :
    Iterator.toList ⟨nd, none⟩ = entriesOf nd := by
  unfold Iterator.toList
  rw [Iterator.drain_spec _ _ (Nat.le_refl _)]
  cases nd with
  | none => rfl
  | some n => simp [Iterator.startStack, stackEntries, Edges.entries_nil, entriesOf]

/-! ## Whole trees -/

theorem TreeWF_New : TreeWF New.root :=
  ⟨rfl, (Node.WF_mk _ _ _ _).2 ⟨(by intro lf h; cases h), Edges.WF_nil _⟩⟩

theorem TreeWF_insert {n : Node} (h : TreeWF n) (k : Key) (v : Value) :
    TreeWF (n.insert k k v).1 :=
  ⟨by rw [Node.insert_pfx]; exact h.1, Node.WF_insert n [] k k v h.2 rfl⟩

theorem Node.GetVia_of_pfx_nil {n : Node} (h : n.pfx = []) (s : Key) : n.GetVia s = n.Get s := by
  unfold Node.GetVia
  rw [h]
  simp

/-- Deleting from a well-formed tree fails exactly when the key is absent. -/
theorem TreeWF_delete_none {n : Node} (h : TreeWF n) (k : Key) :
    n.delete true k = none ↔ n.Get k = none := by
  have hw : Node.WF ([] ++ n.pfx) n := by rw [h.1]; exact h.2
  have hs := Node.delete_spec n true k [] hw
  constructor
  · exact hs.1
  · intro hg
    cases hd : n.delete true k with
    | none => rfl
    | some x =>
      obtain ⟨n', lf⟩ := x
      rw [(hs.2 n' lf hd).1] at hg
      cases hg

/-- A successful delete from a well-formed tree: the removed leaf held the value of
the key, the new tree is well formed, the key is gone and every other key is
unchanged. -/
theorem TreeWF_delete_some {n : Node} (h : TreeWF n) {k : Key} {n' : Node} {lf : leafNode}
    (hd : n.delete true k = some (n', lf)) :
    n.Get k = some lf.val ∧ TreeWF n' ∧
      ∀ k', n'.Get k' = if k' = k then none else n.Get k' := by
  have hw : Node.WF ([] ++ n.pfx) n := by rw [h.1]; exact h.2
  obtain ⟨h1, _, h3, h4, h5⟩ := (Node.delete_spec n true k [] hw).2 n' lf hd
  have hp : n'.pfx = [] := by rw [h3 rfl]; exact h.1
  refine ⟨h1, ⟨hp, by rw [hp] at h4; exact h4⟩, ?_⟩
  intro k'
  have := h5 k'
  rw [Node.GetVia_of_pfx_nil hp, Node.GetVia_of_pfx_nil h.1, h.1] at this
  exact this

/-- The prefix iterator over a well-formed tree yields exactly the leaves whose key
starts with the prefix, in the depth-first order of the tree. -/
theorem TreeWF_iterate {n : Node} (h : TreeWF n) (p : Key) :
    (n.Iterator.SeekPrefix p).toList = n.entries.filter (fun lf => decide (p <+: lf.key)) := by
  have := Node.entries_seekPrefix n [] p h.2
  simp only [List.nil_append] at this
  rw [← this]
  exact Iterator.toList_fresh _

/-- The leaves of a well-formed tree are its bindings. -/
theorem TreeWF_mem_entries {n : Node} (h : TreeWF n) (lf : leafNode) :
    lf ∈ n.entries ↔ n.Get lf.key = some lf.val := by
  rw [Node.mem_entries n [] h.2 lf]
  constructor
  · rintro ⟨s, hk, hg⟩
    rw [List.nil_append] at hk
    rw [hk]; exact hg
  · intro hg
    exact ⟨lf.key, rfl, hg⟩

end Iradix

namespace Mdb

open Iradix (Key Value Node Edges Tree Iterator leafNode)

/-! ## Steps -/

theorem step_txn (s : Sys) (w : Bool) (s' : Sys) (h : s.step (.txn w) = some s') :
    (w = true → s.db.writer = false) ∧
    s' = ⟨⟨s.db.root, s.db.writer || w⟩, s.txns ++ [⟨w, some s.db.root.Txn⟩]⟩ := by
  simp only [Sys.step, MDB.Txn, Mutex.Lock, MDB.getRoot] at h
  cases w <;> cases hw : s.db.writer <;> simp_all

theorem step_txn_read (s : Sys) :
    s.step (.txn false) = some ⟨s.db, s.txns ++ [⟨false, some s.db.root.Txn⟩]⟩ := rfl

theorem step_txn_write (s : Sys) (h : s.db.writer = false) :
    s.step (.txn true) =
      some ⟨⟨s.db.root, true⟩, s.txns ++ [⟨true, some s.db.root.Txn⟩]⟩ := by
  simp [Sys.step, MDB.Txn, Mutex.Lock, MDB.getRoot, h]

theorem step_txn_blocked (s : Sys) (h : s.db.writer = true) : s.step (.txn true) = none := by
  simp [Sys.step, MDB.Txn, Mutex.Lock, h]

theorem set_self {α : Type} (l : List α) (i : Nat) (a : α) (h : l[i]? = some a) :
    l.set i a = l := by
  apply List.ext_getElem?
  intro j
  rw [List.getElem?_set]
  by_cases hij : i = j
  · subst hij
    rw [if_pos rfl, h]
    have := (List.getElem?_eq_some_iff.1 h).1
    rw [if_pos this]
  · rw [if_neg hij]

theorem Txn.liveWriter_iff (t : Txn) :
    t.liveWriter = true ↔ t.write = true ∧ ∃ rt, t.rootTxn = some rt := by
  cases t with
  | mk w r => cases w <;> cases r <;> simp [Txn.liveWriter]

theorem Txn.not_liveWriter_iff (t : Txn) :
    t.liveWriter = false ↔ t.write = false ∨ t.rootTxn = none := by
  cases t with
  | mk w r => cases w <;> cases r <;> simp [Txn.liveWriter]

/-! ### What each method returns -/

theorem Txn.Put_readonly (t : Txn) (k : Key) (v : Value) (h : t.write = false) :
    t.Put k v = .ok (t, some .putReadOnly) := by
  simp [Txn.Put, h]

theorem Txn.Put_live (t : Txn) (k : Key) (v : Value) (rt : Iradix.Txn) (h : t.write = true)
    (hr : t.rootTxn = some rt) :
    t.Put k v = .ok (⟨true, some (rt.Insert k v).1⟩, none) := by
  simp [Txn.Put, h, hr]

theorem Txn.Put_dead (t : Txn) (k : Key) (v : Value) (h : t.write = true)
    (hr : t.rootTxn = none) : t.Put k v = .error .nilDeref := by
  simp [Txn.Put, h, hr]

theorem Txn.Delete_readonly (t : Txn) (k : Key) (h : t.write = false) :
    t.Delete k = .ok (t, some .deleteReadOnly) := by
  simp [Txn.Delete, h]

theorem Txn.Delete_live (t : Txn) (k : Key) (rt : Iradix.Txn) (h : t.write = true)
    (hr : t.rootTxn = some rt) :
    t.Delete k = .ok (⟨true, some (rt.Delete k).1⟩,
      if (rt.Delete k).2.2 = true then none else some (.notFound k)) := by
  simp only [Txn.Delete, h, hr]
  cases (rt.Delete k).2.2 <;> simp

theorem Txn.Delete_dead (t : Txn) (k : Key) (h : t.write = true) (hr : t.rootTxn = none) :
    t.Delete k = .error .nilDeref := by
  simp [Txn.Delete, h, hr]

theorem Txn.Commit_terminal (t : Txn) (db : MDB) (h : t.write = false ∨ t.rootTxn = none) :
    t.Commit db = .ok (db, t) := by
  rcases h with h | h
  · simp [Txn.Commit, h]
  · cases hw : t.write <;> simp [Txn.Commit, h, hw]

theorem Txn.Abort_terminal (t : Txn) (db : MDB) (h : t.write = false ∨ t.rootTxn = none) :
    t.Abort db = .ok (db, t) := by
  rcases h with h | h
  · simp [Txn.Abort, h]
  · cases hw : t.write <;> simp [Txn.Abort, h, hw]

theorem Txn.Commit_live (t : Txn) (db : MDB) (rt : Iradix.Txn) (h : t.write = true)
    (hr : t.rootTxn = some rt) :
    t.Commit db = if db.writer = true then .ok (⟨rt.Commit, false⟩, ⟨true, none⟩)
      else .error .unlockOfUnlocked := by
  cases hw : db.writer <;> simp [Txn.Commit, h, hr, Mutex.Unlock, hw]

theorem Txn.Abort_live (t : Txn) (db : MDB) (rt : Iradix.Txn) (h : t.write = true)
    (hr : t.rootTxn = some rt) :
    t.Abort db = if db.writer = true then .ok (⟨db.root, false⟩, ⟨true, none⟩)
      else .error .unlockOfUnlocked := by
  cases hw : db.writer <;> simp [Txn.Abort, h, hr, Mutex.Unlock, hw]

theorem radix_Insert_snap (rt : Iradix.Txn) (k : Key) (v : Value) :
    (rt.Insert k v).1.snap = rt.snap := rfl

theorem radix_Insert_root (rt : Iradix.Txn) (k : Key) (v : Value) :
    (rt.Insert k v).1.root = (rt.root.insert k k v).1 := rfl

theorem radix_Delete_snap (rt : Iradix.Txn) (k : Key) :
    (rt.Delete k).1.snap = rt.snap := by
  unfold Iradix.Txn.Delete
  split <;> rfl

theorem radix_Delete_WF (rt : Iradix.Txn) (k : Key) (h : Iradix.TreeWF rt.root) :
    Iradix.TreeWF (rt.Delete k).1.root := by
  unfold Iradix.Txn.Delete
  split
  · exact h
  · next n' lf hd => exact (Iradix.TreeWF_delete_some h hd).2.1

theorem step_kind (s s' : Sys) (op : Op) (h : s.step op = some s') : StepKind s s' := by
  cases op with
  | txn w =>
    obtain ⟨h1, h2⟩ := step_txn s w s' h
    exact .begin w h1 h2
  | put i k v =>
    simp only [Sys.step] at h
    cases ht : s.txns[i]? with
    | none => simp [ht] at h
    | some t =>
      simp only [ht] at h
      cases hw : t.write with
      | false =>
        rw [Txn.Put_readonly t k v hw] at h
        simp only [Option.some.injEq] at h
        rw [set_self _ _ _ ht] at h
        exact .same h.symm
      | true =>
        cases hr : t.rootTxn with
        | none => rw [Txn.Put_dead t k v hw hr] at h; cases h
        | some rt =>
          rw [Txn.Put_live t k v rt hw hr] at h
          simp only [Option.some.injEq] at h
          exact .edit i t rt (rt.Insert k v).1 ht hw hr rfl
            (fun hwf => Iradix.TreeWF_insert hwf k v) h.symm
  | delete i k =>
    simp only [Sys.step] at h
    cases ht : s.txns[i]? with
    | none => simp [ht] at h
    | some t =>
      simp only [ht] at h
      cases hw : t.write with
      | false =>
        rw [Txn.Delete_readonly t k hw] at h
        simp only [Option.some.injEq] at h
        rw [set_self _ _ _ ht] at h
        exact .same h.symm
      | true =>
        cases hr : t.rootTxn with
        | none => rw [Txn.Delete_dead t k hw hr] at h; cases h
        | some rt =>
          rw [Txn.Delete_live t k rt hw hr] at h
          simp only [Option.some.injEq] at h
          exact .edit i t rt (rt.Delete k).1 ht hw hr (radix_Delete_snap rt k)
            (radix_Delete_WF rt k) h.symm
  | commit i =>
    simp only [Sys.step] at h
    cases ht : s.txns[i]? with
    | none => simp [ht] at h
    | some t =>
      simp only [ht] at h
      by_cases hterm : t.write = false ∨ t.rootTxn = none
      · rw [Txn.Commit_terminal t s.db hterm] at h
        simp only [Option.some.injEq] at h
        rw [set_self _ _ _ ht] at h
        exact .same h.symm
      · have hw : t.write = true := by
          cases hw : t.write
          · exact absurd (Or.inl hw) hterm
          · rfl
        cases hr : t.rootTxn with
        | none => exact absurd (Or.inr hr) hterm
        | some rt =>
          rw [Txn.Commit_live t s.db rt hw hr] at h
          cases hl : s.db.writer with
          | false => rw [hl] at h; simp at h
          | true =>
            rw [hl] at h
            simp only [if_true, Option.some.injEq] at h
            exact .commit i t rt ht hw hr hl h.symm
  | abort i =>
    simp only [Sys.step] at h
    cases ht : s.txns[i]? with
    | none => simp [ht] at h
    | some t =>
      simp only [ht] at h
      by_cases hterm : t.write = false ∨ t.rootTxn = none
      · rw [Txn.Abort_terminal t s.db hterm] at h
        simp only [Option.some.injEq] at h
        rw [set_self _ _ _ ht] at h
        exact .same h.symm
      · have hw : t.write = true := by
          cases hw : t.write
          · exact absurd (Or.inl hw) hterm
          · rfl
        cases hr : t.rootTxn with
        | none => exact absurd (Or.inr hr) hterm
        | some rt =>
          rw [Txn.Abort_live t s.db rt hw hr] at h
          cases hl : s.db.writer with
          | false => rw [hl] at h; simp at h
          | true =>
            rw [hl] at h
            simp only [if_true, Option.some.injEq] at h
            exact .abort i t rt ht hw hr hl h.symm

/-! ### The invariants of reachable states -/

theorem get_set_some {α : Type} {l : List α} {i j : Nat} {a b : α}
    (h : (l.set i a)[j]? = some b) : (i = j ∧ b = a) ∨ (i ≠ j ∧ l[j]? = some b) := by
  rw [List.getElem?_set] at h
  by_cases hij : i = j
  · rw [if_pos hij] at h
    split at h
    · exact Or.inl ⟨hij, by cases h; rfl⟩
    · cases h
  · rw [if_neg hij] at h
    exact Or.inr ⟨hij, h⟩

theorem get_append_single {α : Type} {l : List α} {j : Nat} {a b : α}
    (h : (l ++ [a])[j]? = some b) : l[j]? = some b ∨ (j = l.length ∧ b = a) := by
  rw [List.getElem?_append] at h
  split at h
  · exact Or.inl h
  · next hlt =>
    right
    have hj : j - l.length = 0 := by
      by_contra hne
      rw [List.getElem?_eq_none (by simp; omega)] at h
      cases h
    rw [hj] at h
    simp only [List.getElem?_cons_zero, Option.some.injEq] at h
    exact ⟨by omega, h.symm⟩

theorem get_append_of_some {α : Type} {l : List α} {j : Nat} {a b : α}
    (h : l[j]? = some b) : (l ++ [a])[j]? = some b := by
  rw [List.getElem?_append_left (List.getElem?_eq_some_iff.1 h).1]
  exact h

theorem StepKind.WF {s s' : Sys} (k : StepKind s s') (h : s.WF) : s'.WF := by
  obtain ⟨hdb, htx⟩ := h
  cases k with
  | begin w hfree hs =>
    subst hs
    refine ⟨hdb, ?_⟩
    intro i t rt ht hr
    rcases get_append_single ht with h1 | ⟨_, h2⟩
    · exact htx i t rt h1 hr
    · subst h2
      simp only [Option.some.injEq] at hr
      subst hr
      exact hdb
  | same hs => subst hs; exact ⟨hdb, htx⟩
  | edit i t rt rt' ht hw hr hsnap hwf hs =>
    subst hs
    refine ⟨hdb, ?_⟩
    intro j tj rtj htj hrj
    rcases get_set_some htj with ⟨_, h2⟩ | ⟨_, h2⟩
    · subst h2
      simp only [Option.some.injEq] at hrj
      subst hrj
      exact hwf (htx i t rt ht hr)
    · exact htx j tj rtj h2 hrj
  | commit i t rt ht hw hr hlock hs =>
    subst hs
    refine ⟨htx i t rt ht hr, ?_⟩
    intro j tj rtj htj hrj
    rcases get_set_some htj with ⟨_, h2⟩ | ⟨_, h2⟩
    · subst h2; cases hrj
    · exact htx j tj rtj h2 hrj
  | abort i t rt ht hw hr hlock hs =>
    subst hs
    refine ⟨hdb, ?_⟩
    intro j tj rtj htj hrj
    rcases get_set_some htj with ⟨_, h2⟩ | ⟨_, h2⟩
    · subst h2; cases hrj
    · exact htx j tj rtj h2 hrj

/-- Once the only live writer has ended, no write transaction is live. -/
theorem no_liveWriter_after_end {s : Sys} (hu : ∀ (i j : Nat) (ti tj : Txn),
    s.txns[i]? = some ti → s.txns[j]? = some tj →
    ti.liveWriter = true → tj.liveWriter = true → i = j)
    {i : Nat} {t : Txn} (ht : s.txns[i]? = some t) (hl : t.liveWriter = true)
    {j : Nat} {tj : Txn} (htj : (s.txns.set i ⟨true, none⟩)[j]? = some tj) :
    tj.liveWriter = false := by
  rcases get_set_some htj with ⟨_, h2⟩ | ⟨hne, h2⟩
  · subst h2; rfl
  · cases hlj : tj.liveWriter with
    | false => rfl
    | true => exact absurd (hu i j t tj ht h2 hl hlj) hne

theorem StepKind.Inv {s s' : Sys} (k : StepKind s s') (h : s.Inv) : s'.Inv := by
  obtain ⟨hu, hl, hsn⟩ := h
  cases k with
  | begin w hfree hs =>
    subst hs
    have hnew : ∀ {j : Nat} {tj : Txn},
        (s.txns ++ [(⟨w, some s.db.root.Txn⟩ : Txn)])[j]? = some tj → tj.liveWriter = true →
        s.txns[j]? = some tj ∨ (j = s.txns.length ∧ w = true ∧ tj = ⟨w, some s.db.root.Txn⟩) := by
      intro j tj htj hlj
      rcases get_append_single htj with h1 | ⟨h1, h2⟩
      · exact Or.inl h1
      · subst h2
        exact Or.inr ⟨h1, by simpa [Txn.liveWriter] using hlj, rfl⟩
    have hnone : w = true → ∀ (j : Nat) (tj : Txn), s.txns[j]? = some tj →
        tj.liveWriter = true → False := by
      intro hw j tj htj hlj
      have := hl.2 ⟨j, tj, htj, hlj⟩
      rw [hfree hw] at this
      cases this
    refine ⟨?_, ?_, ?_⟩
    · intro i j ti tj hti htj hli hlj
      rcases hnew hti hli with h1 | ⟨h1, hw1, _⟩ <;> rcases hnew htj hlj with h2 | ⟨h2, hw2, _⟩
      · exact hu i j ti tj h1 h2 hli hlj
      · exact (hnone hw2 i ti h1 hli).elim
      · exact (hnone hw1 j tj h2 hlj).elim
      · rw [h1, h2]
    · constructor
      · intro hw
        simp only [Bool.or_eq_true] at hw
        by_cases hw2 : w = true
        · exact ⟨s.txns.length, ⟨w, some s.db.root.Txn⟩, List.getElem?_concat_length _ _,
            by simp [Txn.liveWriter, hw2]⟩
        · rcases hw with hw | hw
          · obtain ⟨i, t, ht, hlt⟩ := hl.1 hw
            exact ⟨i, t, get_append_of_some ht, hlt⟩
          · exact absurd hw hw2
      · rintro ⟨i, t, ht, hlt⟩
        simp only [Bool.or_eq_true]
        rcases hnew ht hlt with h1 | ⟨_, hw1, _⟩
        · exact Or.inl (hl.2 ⟨i, t, h1, hlt⟩)
        · exact Or.inr hw1
    · intro i t rt ht hlt hr
      rcases hnew ht hlt with h1 | ⟨_, _, h3⟩
      · exact hsn i t rt h1 hlt hr
      · subst h3
        simp only [Option.some.injEq] at hr
        subst hr
        rfl
  | same hs => subst hs; exact ⟨hu, hl, hsn⟩
  | edit i t rt rt' ht hw hr hsnap hwf hs =>
    subst hs
    have hti : t.liveWriter = true := (Txn.liveWriter_iff t).2 ⟨hw, rt, hr⟩
    have hold : ∀ {j : Nat} {tj : Txn}, (s.txns.set i ⟨true, some rt'⟩)[j]? = some tj →
        tj.liveWriter = true → ∃ tj', s.txns[j]? = some tj' ∧ tj'.liveWriter = true := by
      intro j tj htj hlj
      rcases get_set_some htj with ⟨h1, _⟩ | ⟨_, h2⟩
      · subst h1; exact ⟨t, ht, hti⟩
      · exact ⟨tj, h2, hlj⟩
    refine ⟨?_, ?_, ?_⟩
    · intro a b ta tb hta htb hla hlb
      obtain ⟨ta', hta', hla'⟩ := hold hta hla
      obtain ⟨tb', htb', hlb'⟩ := hold htb hlb
      exact hu a b ta' tb' hta' htb' hla' hlb'
    · rw [hl]
      constructor
      · rintro ⟨j, tj, htj, hlj⟩
        by_cases hij : i = j
        · subst hij
          refine ⟨i, ⟨true, some rt'⟩, ?_, rfl⟩
          rw [List.getElem?_set_self (List.getElem?_eq_some_iff.1 ht).1]
        · refine ⟨j, tj, ?_, hlj⟩
          rw [List.getElem?_set_ne hij]; exact htj
      · rintro ⟨j, tj, htj, hlj⟩
        obtain ⟨tj', htj', hlj'⟩ := hold htj hlj
        exact ⟨j, tj', htj', hlj'⟩
    · intro j tj rtj htj hlj hrj
      rcases get_set_some htj with ⟨_, h2⟩ | ⟨_, h2⟩
      · subst h2
        simp only [Option.some.injEq] at hrj
        subst hrj
        rw [hsnap]
        exact hsn i t rt ht hti hr
      · exact hsn j tj rtj h2 hlj hrj
  | commit i t rt ht hw hr hlock hs =>
    subst hs
    have hti : t.liveWriter = true := (Txn.liveWriter_iff t).2 ⟨hw, rt, hr⟩
    refine ⟨?_, ?_, ?_⟩
    · intro a b ta tb hta _ hla _
      rw [no_liveWriter_after_end hu ht hti hta] at hla; cases hla
    · constructor
      · intro h; cases h
      · rintro ⟨j, tj, htj, hlj⟩
        rw [no_liveWriter_after_end hu ht hti htj] at hlj; cases hlj
    · intro j tj rtj htj hlj _
      rw [no_liveWriter_after_end hu ht hti htj] at hlj; cases hlj
  | abort i t rt ht hw hr hlock hs =>
    subst hs
    have hti : t.liveWriter = true := (Txn.liveWriter_iff t).2 ⟨hw, rt, hr⟩
    refine ⟨?_, ?_, ?_⟩
    · intro a b ta tb hta _ hla _
      rw [no_liveWriter_after_end hu ht hti hta] at hla; cases hla
    · constructor
      · intro h; cases h
      · rintro ⟨j, tj, htj, hlj⟩
        rw [no_liveWriter_after_end hu ht hti htj] at hlj; cases hlj
    · intro j tj rtj htj hlj _
      rw [no_liveWriter_after_end hu ht hti htj] at hlj; cases hlj

theorem Sys.init_WF : Sys.init.WF := by
  refine ⟨Iradix.TreeWF_New, ?_⟩
  intro i t rt ht
  simp [Sys.init] at ht

theorem Sys.init_Inv : Sys.init.Inv := by
  refine ⟨?_, ?_, ?_⟩
  · intro i j ti tj hti; simp [Sys.init] at hti
  · constructor
    · intro h; cases h
    · rintro ⟨i, t, ht, _⟩; simp [Sys.init] at ht
  · intro i t rt ht; simp [Sys.init] at ht

/-- Every reachable state has well-formed trees and satisfies the single-writer
invariant. -/
theorem Reachable.inv {s : Sys} (h : Reachable s) : s.WF ∧ s.Inv := by
  induction h with
  | init => exact ⟨Sys.init_WF, Sys.init_Inv⟩
  | step op _ hstep ih => exact ⟨(step_kind _ _ op hstep).WF ih.1, (step_kind _ _ op hstep).Inv ih.2⟩

theorem Reachable.run {s : Sys} (h : Reachable s) : ∀ (ops : List Op) (s' : Sys),
    s.run ops = some s' → Reachable s' := by
  intro ops
  induction ops generalizing s with
  | nil => intro s' hr; simp only [Sys.run, Option.some.injEq] at hr; subst hr; exact h
  | cons op ops ih =>
    intro s' hr
    simp only [Sys.run] at hr
    cases hs : s.step op with
    | none => rw [hs] at hr; cases hr
    | some s1 =>
      rw [hs] at hr
      exact ih (Reachable.step op h hs) s' hr

/-! ### The edits of a live write transaction -/

theorem run_edits (i : Nat) : ∀ (es : List Edit) (s : Sys) (T : Txn) (rt : Iradix.Txn),
    s.txns[i]? = some T → T.write = true → T.rootTxn = some rt →
    ∃ (s1 : Sys) (rt1 : Iradix.Txn),
      s.run (es.map (Edit.op i)) = some s1 ∧ s1.db = s.db ∧
      s1.txns[i]? = some ⟨true, some rt1⟩ ∧ s1.txns.length = s.txns.length ∧
      (∀ j, j ≠ i → s1.txns[j]? = s.txns[j]?)
  | [], s, T, rt, hT, hw, hr => by
    refine ⟨s, rt, rfl, rfl, ?_, rfl, fun _ _ => rfl⟩
    rw [hT]; cases T; simp only [Txn.mk.injEq, Option.some.injEq] at hw hr ⊢
    exact ⟨hw, hr⟩
  | e :: es, s, T, rt, hT, hw, hr => by
    have hlt : i < s.txns.length := (List.getElem?_eq_some_iff.1 hT).1
    have key : ∃ rt', s.step (e.op i) = some ⟨s.db, s.txns.set i ⟨true, some rt'⟩⟩ := by
      cases e with
      | put k v =>
        refine ⟨(rt.Insert k v).1, ?_⟩
        simp only [Edit.op, Sys.step, hT, Txn.Put_live T k v rt hw hr]
      | delete k =>
        refine ⟨(rt.Delete k).1, ?_⟩
        simp only [Edit.op, Sys.step, hT, Txn.Delete_live T k rt hw hr]
    obtain ⟨rt', hstep⟩ := key
    have hT' : (s.txns.set i ⟨true, some rt'⟩)[i]? = some (⟨true, some rt'⟩ : Txn) :=
      List.getElem?_set_self hlt
    obtain ⟨s1, rt1, h1, h2, h3, h4, h5⟩ :=
      run_edits i es ⟨s.db, s.txns.set i ⟨true, some rt'⟩⟩ ⟨true, some rt'⟩ rt' hT' rfl rfl
    refine ⟨s1, rt1, ?_, h2, h3, by rw [h4]; simp, ?_⟩
    · simp only [List.map_cons, Sys.run, hstep]; exact h1
    · intro j hj
      rw [h5 j hj]
      exact List.getElem?_set_ne (fun h => hj h.symm)

theorem fresh_Get (s : Sys) (w : Bool) (s' : Sys) (h : s.step (.txn w) = some s') (k : Key) :
    s'.Get s.txns.length k = some (.ok (s.db.root.Txn.Get k).1) := by
  obtain ⟨_, h2⟩ := step_txn s w s' h
  subst h2
  simp only [Sys.Get, List.getElem?_concat_length, Option.map_some', Txn.Get]

/-! ## Example states are reachable -/

theorem exLive_reachable : Reachable exLive :=
  Reachable.step (.put 0 keyA (.str "b")) (Reachable.step (.txn true) Reachable.init rfl) rfl

theorem exIter_reachable : Reachable exIter :=
  Reachable.step (.txn false) (Reachable.step (.commit 0) (Reachable.step
    (.put 0 keyC1 (.str "c.1")) (Reachable.step (.put 0 keyA2 (.str "a.2")) (Reachable.step
    (.put 0 keyA1 (.str "a.1")) (Reachable.step (.txn true) Reachable.init rfl) rfl) rfl) rfl)
    rfl) rfl

/-! ## The claims -/

theorem Txn.Get_live (t : Txn) (rt : Iradix.Txn) (k : Key) (hr : t.rootTxn = some rt) :
    t.Get k = .ok ((rt.root.Get k).getD Value.nil) := by
  simp only [Txn.Get, hr, Iradix.Txn.Get]
  cases rt.root.Get k <;> rfl

/-- C2 (commit publishes the working root).  In a reachable state let `T` (handle
`i`) be a live write transaction.  Any sequence `es` of `Put`/`Delete` calls on `T`
runs, leaving `T` live with a working tree `rt`; the following `Commit` returns,
makes `rt` the database's current root and frees the writer mutex; and a transaction
begun then (read-only or write) returns from `Get(k)` exactly what `T.Get(k)`
returned just before the commit, for every key. -/
theorem commit_publishes (s : Sys) (hs : Reachable s) (i : Nat) (T : Txn)
    (hT : s.txns[i]? = some T) (hlive : T.liveWriter = true) (es : List Edit) :
    ∃ (s1 s2 : Sys) (T1 : Txn) (rt : Iradix.Txn),
      s.run (es.map (Edit.op i)) = some s1 ∧
      s1.txns[i]? = some T1 ∧ T1.rootTxn = some rt ∧
      s1.step (.commit i) = some s2 ∧
      s2.db.root = rt.Commit ∧ s2.db.root.root = rt.root ∧ s2.db.writer = false ∧
      ∀ w : Bool, ∃ s3, s2.step (.txn w) = some s3 ∧
        ∀ k, s3.Get s2.txns.length k = some (T1.Get k) := by
  obtain ⟨hw, rt0, hr0⟩ := (Txn.liveWriter_iff T).1 hlive
  obtain ⟨s1, rt, h1, _, h3, _, _⟩ := run_edits i es s T rt0 hT hw hr0
  have hreach : Reachable s1 := hs.run _ _ h1
  have hlock : s1.db.writer = true := hreach.inv.2.2.1.2 ⟨i, _, h3, rfl⟩
  have hstep : s1.step (.commit i) = some ⟨⟨rt.Commit, false⟩, s1.txns.set i ⟨true, none⟩⟩ := by
    simp only [Sys.step, h3, Txn.Commit_live ⟨true, some rt⟩ s1.db rt rfl rfl, hlock, if_true]
  refine ⟨s1, _, ⟨true, some rt⟩, rt, h1, h3, rfl, hstep, rfl, rfl, rfl, ?_⟩
  intro w
  have hw' : (⟨⟨rt.Commit, false⟩, s1.txns.set i ⟨true, none⟩⟩ : Sys).step (.txn w) =
      some ⟨⟨rt.Commit, w⟩, s1.txns.set i ⟨true, none⟩ ++ [⟨w, some rt.Commit.Txn⟩]⟩ := by
    cases w
    · rfl
    · exact step_txn_write _ rfl
  refine ⟨_, hw', ?_⟩
  intro k
  rw [fresh_Get _ w _ hw' k, Txn.Get_live _ rt k rfl]
  simp only [Iradix.Txn.Get, Iradix.Txn.Commit, Iradix.Tree.Txn]
  cases rt.root.Get k <;> rfl

/-- Witness for C2 (`TestPutCommit`): `Put("a","b")` then `Commit`; the theorem is
applied to the live writer of `exLive` with no further edits, and a fresh reader
finds "b". -/
theorem commit_publishes_witness :
    (Reachable exLive ∧ exLive.txns[0]? = some exLiveTxn ∧ exLiveTxn.liveWriter = true) ∧
    (∃ (s1 s2 : Sys) (T1 : Txn) (rt : Iradix.Txn),
      exLive.run [] = some s1 ∧
      s1.txns[0]? = some T1 ∧ T1.rootTxn = some rt ∧
      s1.step (.commit 0) = some s2 ∧
      s2.db.root = rt.Commit ∧ s2.db.root.root = rt.root ∧ s2.db.writer = false ∧
      ∀ w : Bool, ∃ s3, s2.step (.txn w) = some s3 ∧
        ∀ k, s3.Get s2.txns.length k = some (T1.Get k)) ∧
    exLiveTxn.Get keyA = .ok (.str "b") ∧
    (exLive.after [.commit 0, .txn false]).Get 1 keyA = some (.ok (.str "b")) :=
  ⟨⟨exLive_reachable, rfl, rfl⟩,
    commit_publishes exLive exLive_reachable 0 exLiveTxn rfl rfl [], rfl, rfl⟩

/-- C3 (abort has no effect on the database).  Let a write transaction `T` begin in
state `s` (so `T` gets the handle `s.txns.length`).  Any sequence `es` of
`Put`/`Delete` calls on `T` runs, and the following `Abort` returns.  Afterwards the
database is what it was before `T` began: the same current root and a free writer
mutex, so a fresh transaction reads, for every key, what a fresh transaction read
before `T` began.  The abort itself changes nothing in the database but the mutex
(held before, free after), and every other handle is untouched. -/
theorem abort_no_effect (s s0 : Sys) (hbegin : s.step (.txn true) = some s0) (es : List Edit) :
    ∃ s1 s2 : Sys,
      s0.run (es.map (Edit.op s.txns.length)) = some s1 ∧
      s1.step (.abort s.txns.length) = some s2 ∧
      s2.db.root = s.db.root ∧ s2.db = s.db ∧
      s1.db.root = s.db.root ∧ s1.db.writer = true ∧ s2.db.writer = false ∧
      (∀ j, j ≠ s.txns.length → s2.txns[j]? = s1.txns[j]?) ∧
      (∀ j, j < s.txns.length → s2.txns[j]? = s.txns[j]?) ∧
      ∀ w : Bool, ∃ sa sb, s.step (.txn w) = some sa ∧ s2.step (.txn w) = some sb ∧
        ∀ k, sb.Get s2.txns.length k = sa.Get s.txns.length k := by
  obtain ⟨hfree, h0⟩ := step_txn s true s0 hbegin
  have hfree := hfree rfl
  subst h0
  have hT : (s.txns ++ [(⟨true, some s.db.root.Txn⟩ : Txn)])[s.txns.length]? =
      some ⟨true, some s.db.root.Txn⟩ := List.getElem?_concat_length _ _
  obtain ⟨s1, rt, h1, h2, h3, h4, h5⟩ := run_edits s.txns.length es
    ⟨⟨s.db.root, s.db.writer || true⟩, s.txns ++ [⟨true, some s.db.root.Txn⟩]⟩
    ⟨true, some s.db.root.Txn⟩ s.db.root.Txn hT rfl rfl
  have hroot : s1.db.root = s.db.root := by rw [h2]
  have hlock : s1.db.writer = true := by rw [h2]; simp
  have hstep : s1.step (.abort s.txns.length) =
      some ⟨⟨s1.db.root, false⟩, s1.txns.set s.txns.length ⟨true, none⟩⟩ := by
    simp only [Sys.step, h3, Txn.Abort_live ⟨true, some rt⟩ s1.db rt rfl rfl, hlock, if_true]
  have hdb : (⟨s1.db.root, false⟩ : MDB) = s.db := by
    rw [hroot, ← hfree]
  refine ⟨s1, _, h1, hstep, hroot, hdb, hroot, hlock, rfl, ?_, ?_, ?_⟩
  · intro j hj
    exact List.getElem?_set_ne (fun h => hj h.symm)
  · intro j hj
    show (s1.txns.set s.txns.length ⟨true, none⟩)[j]? = s.txns[j]?
    rw [List.getElem?_set_ne (by omega), h5 j (by omega)]
    exact List.getElem?_append_left hj
  · intro w
    have ha : s.step (.txn w) = some ⟨⟨s.db.root, w⟩, s.txns ++ [⟨w, some s.db.root.Txn⟩]⟩ := by
      cases w
      · rw [step_txn_read]; rw [← hfree]
      · exact step_txn_write _ hfree
    have hb : (⟨⟨s1.db.root, false⟩, s1.txns.set s.txns.length ⟨true, none⟩⟩ : Sys).step (.txn w) =
        some ⟨⟨s1.db.root, w⟩,
          s1.txns.set s.txns.length ⟨true, none⟩ ++ [⟨w, some s1.db.root.Txn⟩]⟩ := by
      cases w
      · rfl
      · exact step_txn_write _ rfl
    refine ⟨_, _, ha, hb, ?_⟩
    intro k
    rw [fresh_Get _ w _ hb k, fresh_Get _ w _ ha k]
    show some (Except.ok (s1.db.root.Txn.Get k).1) = _
    rw [hroot]

/-- Witness for C3 (`TestDeleteAbort`): "a" is committed, then a write transaction
(handle 1) deletes it, reads nil, and aborts; a fresh reader still finds "a". -/
theorem abort_no_effect_witness :
    exCommitted.step (.txn true) = some (exCommitted.after [.txn true]) ∧
    (∃ s1 s2 : Sys,
      (exCommitted.after [.txn true]).run ([Edit.delete keyA].map
        (Edit.op exCommitted.txns.length)) = some s1 ∧
      s1.step (.abort exCommitted.txns.length) = some s2 ∧
      s2.db.root = exCommitted.db.root ∧ s2.db = exCommitted.db ∧
      s1.db.root = exCommitted.db.root ∧ s1.db.writer = true ∧ s2.db.writer = false ∧
      (∀ j, j ≠ exCommitted.txns.length → s2.txns[j]? = s1.txns[j]?) ∧
      (∀ j, j < exCommitted.txns.length → s2.txns[j]? = exCommitted.txns[j]?) ∧
      ∀ w : Bool, ∃ sa sb, exCommitted.step (.txn w) = some sa ∧ s2.step (.txn w) = some sb ∧
        ∀ k, sb.Get s2.txns.length k = sa.Get exCommitted.txns.length k) ∧
    (exCommitted.after [.txn true, .delete 1 keyA]).Get 1 keyA = some (.ok Value.nil) ∧
    (exCommitted.after [.txn true, .delete 1 keyA, .abort 1, .txn false]).Get 2 keyA =
      some (.ok (.str "a")) :=
  ⟨rfl, abort_no_effect exCommitted (exCommitted.after [.txn true]) rfl [Edit.delete keyA],
    rfl, rfl⟩

/-- C4 (single writer building on the latest root).  In every state reachable from
`New()`: at most one write transaction is live; the writer mutex is held exactly
when one is live; while one is live the database's current root is the root that
transaction captured when it began (so its commit publishes edits made on top of
every earlier commit); and `Txn(true)` is not enabled while the mutex is held.
The schedule of `TestWriteSafety` follows: while the first writer is open the two
incrementing writers cannot begin, and once it has committed "lease" = 1 they run
one after the other and leave "lease" = 3. -/
theorem single_writer (s : Sys) (hs : Reachable s) :
    (∀ (i j : Nat) (ti tj : Txn), s.txns[i]? = some ti → s.txns[j]? = some tj →
      ti.liveWriter = true → tj.liveWriter = true → i = j) ∧
    (s.db.writer = true ↔ ∃ (i : Nat) (t : Txn), s.txns[i]? = some t ∧ t.liveWriter = true) ∧
    (∀ (i : Nat) (t : Txn) (rt : Iradix.Txn), s.txns[i]? = some t → t.liveWriter = true →
      t.rootTxn = some rt → s.db.root.root = rt.snap) ∧
    (s.db.writer = true → s.step (.txn true) = none) ∧
    (∃ s1 s2 s3 s4 s5 s6 : Sys,
      Sys.init.step (.txn true) = some s1 ∧ s1.increment keyLease = none ∧
      s1.step (.put 0 keyLease (.int 1)) = some s2 ∧ s2.increment keyLease = none ∧
      s2.step (.commit 0) = some s3 ∧
      s3.increment keyLease = some s4 ∧ s4.increment keyLease = some s5 ∧
      s5.step (.txn false) = some s6 ∧ s6.Get 3 keyLease = some (.ok (.int 3))) := by
  refine ⟨hs.inv.2.1, hs.inv.2.2.1, hs.inv.2.2.2, step_txn_blocked s, ?_⟩
  exact ⟨Sys.init.after [.txn true],
    Sys.init.after [.txn true, .put 0 keyLease (.int 1)],
    Sys.init.after [.txn true, .put 0 keyLease (.int 1), .commit 0],
    Sys.init.after [.txn true, .put 0 keyLease (.int 1), .commit 0,
      .txn true, .put 1 keyLease (.int 2), .commit 1],
    Sys.init.after [.txn true, .put 0 keyLease (.int 1), .commit 0,
      .txn true, .put 1 keyLease (.int 2), .commit 1,
      .txn true, .put 2 keyLease (.int 3), .commit 2],
    Sys.init.after [.txn true, .put 0 keyLease (.int 1), .commit 0,
      .txn true, .put 1 keyLease (.int 2), .commit 1,
      .txn true, .put 2 keyLease (.int 3), .commit 2, .txn false],
    rfl, rfl, rfl, rfl, rfl, rfl, rfl, rfl, rfl⟩

/-- Witness for C4: in `exLive` a write transaction is live, so the mutex is held,
a second writer cannot begin, and the current root is the root the writer began
on. -/
theorem single_writer_witness :
    Reachable exLive ∧
    exLive.db.writer = true ∧ exLive.step (.txn true) = none ∧
    exLive.db.root.root = Iradix.New.root :=
  have h := single_writer exLive exLive_reachable
  ⟨exLive_reachable, h.2.1.2 ⟨0, exLiveTxn, rfl, rfl⟩,
    h.2.2.2.1 (h.2.1.2 ⟨0, exLiveTxn, rfl, rfl⟩), h.2.2.1 0 exLiveTxn _ rfl rfl rfl⟩

theorem Reachable.live_WF {s : Sys} (hs : Reachable s) {i : Nat} {T : Txn}
    (hT : s.txns[i]? = some T) {rt : Iradix.Txn} (hr : T.rootTxn = some rt) :
    Iradix.TreeWF rt.root :=
  hs.inv.1.2 i T rt hT hr

/-- The radix `Delete` of a well-formed overlay: not found exactly when the key is
absent, and then the overlay is unchanged; otherwise the key is gone and every
other key is unchanged. -/
theorem radix_Delete_spec (rt : Iradix.Txn) (k : Key) (h : Iradix.TreeWF rt.root) :
    (rt.root.Get k = none → rt.Delete k = (rt, Value.nil, false)) ∧
    (rt.root.Get k ≠ none → (rt.Delete k).2.2 = true ∧
      ∀ k', (rt.Delete k).1.root.Get k' = if k' = k then none else rt.root.Get k') := by
  constructor
  · intro hg
    unfold Iradix.Txn.Delete
    rw [(Iradix.TreeWF_delete_none h k).2 hg]
  · intro hg
    unfold Iradix.Txn.Delete
    cases hd : rt.root.delete true k with
    | none => exact absurd ((Iradix.TreeWF_delete_none h k).1 hd) hg
    | some x =>
      obtain ⟨n', lf⟩ := x
      exact ⟨rfl, (Iradix.TreeWF_delete_some h hd).2.2⟩

/-- C5 (read-your-own-writes).  Let `T` be a live write transaction of a reachable
state.  `Put(k, v)` succeeds and `Get(k)` right after it returns `v`; when
`Delete(k)` succeeds, `Get(k)` right after it returns nil; and in both cases `Get`
of every other key returns what it returned before the call. -/
theorem read_your_writes (s : Sys) (hs : Reachable s) (i : Nat) (T : Txn)
    (hT : s.txns[i]? = some T) (hlive : T.liveWriter = true) (k : Key) (v : Value) :
    (∃ T', T.Put k v = .ok (T', none) ∧ T'.Get k = .ok v ∧
      ∀ k', k' ≠ k → T'.Get k' = T.Get k') ∧
    (∀ T', T.Delete k = .ok (T', none) → T'.Get k = .ok Value.nil ∧
      ∀ k', k' ≠ k → T'.Get k' = T.Get k') := by
  obtain ⟨hw, rt, hr⟩ := (Txn.liveWriter_iff T).1 hlive
  have hwf := hs.live_WF hT hr
  constructor
  · refine ⟨_, Txn.Put_live T k v rt hw hr, ?_, ?_⟩
    · rw [Txn.Get_live _ (rt.Insert k v).1 k rfl, radix_Insert_root, Iradix.Node.Get_insert,
        if_pos rfl]
      rfl
    · intro k' hk
      rw [Txn.Get_live _ (rt.Insert k v).1 k' rfl, Txn.Get_live T rt k' hr,
        radix_Insert_root, Iradix.Node.Get_insert, if_neg hk]
  · intro T' hd
    rw [Txn.Delete_live T k rt hw hr] at hd
    simp only [Except.ok.injEq, Prod.mk.injEq] at hd
    obtain ⟨hT', hfound⟩ := hd
    have hpresent : rt.root.Get k ≠ none := by
      intro hg
      rw [((radix_Delete_spec rt k hwf).1 hg)] at hfound
      simp at hfound
    obtain ⟨_, hget⟩ := (radix_Delete_spec rt k hwf).2 hpresent
    subst hT'
    constructor
    · rw [Txn.Get_live _ (rt.Delete k).1 k rfl, hget, if_pos rfl]; rfl
    · intro k' hk
      rw [Txn.Get_live _ (rt.Delete k).1 k' rfl, Txn.Get_live T rt k' hr, hget, if_neg hk]

/-- Witness for C5: in `exLive` the live writer puts "lease" = 1 and reads it back;
it deletes "a", reads nil, and still reads "lease". -/
theorem read_your_writes_witness :
    (Reachable exLive ∧ exLive.txns[0]? = some exLiveTxn ∧ exLiveTxn.liveWriter = true) ∧
    ((∃ T', exLiveTxn.Put keyLease (.int 1) = .ok (T', none) ∧ T'.Get keyLease = .ok (.int 1) ∧
      ∀ k', k' ≠ keyLease → T'.Get k' = exLiveTxn.Get k') ∧
    (∀ T', exLiveTxn.Delete keyLease = .ok (T', none) → T'.Get keyLease = .ok Value.nil ∧
      ∀ k', k' ≠ keyLease → T'.Get k' = exLiveTxn.Get k')) ∧
    (exLive.after [.put 0 keyLease (.int 1)]).Get 0 keyLease = some (.ok (.int 1)) ∧
    (exLive.after [.put 0 keyLease (.int 1), .delete 0 keyA]).Get 0 keyA = some (.ok Value.nil) ∧
    (exLive.after [.put 0 keyLease (.int 1), .delete 0 keyA]).Get 0 keyLease =
      some (.ok (.int 1)) :=
  ⟨⟨exLive_reachable, rfl, rfl⟩,
    read_your_writes exLive exLive_reachable 0 exLiveTxn rfl rfl keyLease (.int 1),
    rfl, rfl, rfl⟩

/-- C7 (the result of `Delete`).  On a read-only transaction `Delete(k)` returns the
read-only error and leaves the handle as it is, whatever the tree holds.  On a live
write transaction of a reachable state, with working tree `rt`: `Delete(k)` returns
the not-found error exactly when `k` is absent from `rt`; in that case the handle
(and with it every `Get`) is unchanged; and when `k` is present the call succeeds. -/
theorem delete_result (s : Sys) (hs : Reachable s) (i : Nat) (T : Txn)
    (hT : s.txns[i]? = some T) (k : Key) :
    (T.write = false → T.Delete k = .ok (T, some .deleteReadOnly)) ∧
    (T.liveWriter = true → ∃ rt, T.rootTxn = some rt ∧
      ((∃ T', T.Delete k = .ok (T', some (.notFound k))) ↔ rt.root.Get k = none) ∧
      (rt.root.Get k = none → T.Delete k = .ok (T, some (.notFound k)) ∧
        ∀ T', T.Delete k = .ok (T', some (.notFound k)) → ∀ k', T'.Get k' = T.Get k') ∧
      (rt.root.Get k ≠ none → ∃ T', T.Delete k = .ok (T', none))) := by
  refine ⟨Txn.Delete_readonly T k, ?_⟩
  intro hlive
  obtain ⟨hw, rt, hr⟩ := (Txn.liveWriter_iff T).1 hlive
  have hwf := hs.live_WF hT hr
  have hspec := radix_Delete_spec rt k hwf
  have hTeq : T = ⟨true, some rt⟩ := by
    cases T; simp only [Txn.mk.injEq] at hw hr ⊢; exact ⟨hw, hr⟩
  have habsent : rt.root.Get k = none → T.Delete k = .ok (T, some (.notFound k)) := by
    intro hg
    rw [Txn.Delete_live T k rt hw hr, hspec.1 hg, hTeq]
    rfl
  have hpresent : rt.root.Get k ≠ none → T.Delete k = .ok (⟨true, some (rt.Delete k).1⟩, none) := by
    intro hg
    rw [Txn.Delete_live T k rt hw hr, (hspec.2 hg).1]
    rfl
  refine ⟨rt, hr, ⟨?_, ?_⟩, ?_, ?_⟩
  · rintro ⟨T', hd⟩
    by_contra hg
    rw [hpresent hg] at hd
    simp at hd
  · intro hg
    exact ⟨T, habsent hg⟩
  · intro hg
    refine ⟨habsent hg, ?_⟩
    intro T' hd k'
    rw [habsent hg] at hd
    simp only [Except.ok.injEq, Prod.mk.injEq, and_true] at hd
    rw [hd]
  · intro hg
    exact ⟨_, hpresent hg⟩

/-- Witness for C7: the live writer of `exLive` holds "a" but not "lease"; the reader
`exIterTxn` is read-only. -/
theorem delete_result_witness :
    (Reachable exLive ∧ exLive.txns[0]? = some exLiveTxn) ∧
    ((exLiveTxn.write = false → exLiveTxn.Delete keyLease = .ok (exLiveTxn, some .deleteReadOnly)) ∧
    (exLiveTxn.liveWriter = true → ∃ rt, exLiveTxn.rootTxn = some rt ∧
      ((∃ T', exLiveTxn.Delete keyLease = .ok (T', some (.notFound keyLease))) ↔
        rt.root.Get keyLease = none) ∧
      (rt.root.Get keyLease = none →
        exLiveTxn.Delete keyLease = .ok (exLiveTxn, some (.notFound keyLease)) ∧
        ∀ T', exLiveTxn.Delete keyLease = .ok (T', some (.notFound keyLease)) →
          ∀ k', T'.Get k' = exLiveTxn.Get k') ∧
      (rt.root.Get keyLease ≠ none → ∃ T', exLiveTxn.Delete keyLease = .ok (T', none)))) ∧
    exLiveTxn.Delete keyLease = .ok (exLiveTxn, some (.notFound keyLease)) ∧
    (exLiveTxn.Delete keyA).map (fun r => r.2) = .ok none ∧
    exIterTxn.Delete keyA1 = .ok (exIterTxn, some .deleteReadOnly) :=
  ⟨⟨exLive_reachable, rfl⟩, delete_result exLive exLive_reachable 0 exLiveTxn rfl keyLease,
    rfl, rfl, rfl⟩

/-- C9 (`Commit` and `Abort` are idempotent).  On a read-only transaction, and on a
write transaction that is already committed or aborted, `Commit` and `Abort` return
and change neither the database (root and writer mutex, whatever their state) nor
the handle; as steps they leave the whole system state unchanged.  Hence for a live
write transaction of a reachable state every non-empty sequence of `Commit`/`Abort`
calls has the effect of its first call alone: that call releases the writer mutex
(held before, free after) and the later calls do not touch it. -/
theorem commit_abort_idempotent :
    (∀ (db : MDB) (t : Txn), (t.write = false ∨ t.rootTxn = none) →
      t.Commit db = .ok (db, t) ∧ t.Abort db = .ok (db, t)) ∧
    (∀ (s : Sys) (i : Nat) (t : Txn), s.txns[i]? = some t →
      (t.write = false ∨ t.rootTxn = none) →
      s.step (.commit i) = some s ∧ s.step (.abort i) = some s) ∧
    (∀ (s : Sys), Reachable s → ∀ (i : Nat) (t : Txn), s.txns[i]? = some t →
      t.liveWriter = true → ∀ (first : Bool) (rest : List Bool), ∃ s1,
        s.step (endOp i first) = some s1 ∧
        s.run ((first :: rest).map (endOp i)) = some s1 ∧
        s.db.writer = true ∧ s1.db.writer = false) := by
  have hstep : ∀ (s : Sys) (i : Nat) (t : Txn), s.txns[i]? = some t →
      (t.write = false ∨ t.rootTxn = none) →
      s.step (.commit i) = some s ∧ s.step (.abort i) = some s := by
    intro s i t ht hterm
    constructor
    · simp only [Sys.step, ht, Txn.Commit_terminal t s.db hterm, set_self _ _ _ ht]
    · simp only [Sys.step, ht, Txn.Abort_terminal t s.db hterm, set_self _ _ _ ht]
  refine ⟨fun db t h => ⟨Txn.Commit_terminal t db h, Txn.Abort_terminal t db h⟩, hstep, ?_⟩
  intro s hs i t ht hlive first rest
  obtain ⟨hw, rt, hr⟩ := (Txn.liveWriter_iff t).1 hlive
  have hlock : s.db.writer = true := hs.inv.2.2.1.2 ⟨i, t, ht, hlive⟩
  have hlt : i < s.txns.length := (List.getElem?_eq_some_iff.1 ht).1
  have hfirst : ∃ db', s.step (endOp i first) = some ⟨db', s.txns.set i ⟨true, none⟩⟩ ∧
      db'.writer = false := by
    cases first
    · refine ⟨⟨s.db.root, false⟩, ?_, rfl⟩
      rw [show endOp i false = Op.abort i from rfl]
      simp only [Sys.step, ht, Txn.Abort_live t s.db rt hw hr, hlock, if_true]
    · refine ⟨⟨rt.Commit, false⟩, ?_, rfl⟩
      rw [show endOp i true = Op.commit i from rfl]
      simp only [Sys.step, ht, Txn.Commit_live t s.db rt hw hr, hlock, if_true]
  obtain ⟨db', h1, h2⟩ := hfirst
  have hdead : (s.txns.set i ⟨true, none⟩)[i]? = some (⟨true, none⟩ : Txn) :=
    List.getElem?_set_self hlt
  have hrest : ∀ (l : List Bool) (s1 : Sys), s1.txns[i]? = some (⟨true, none⟩ : Txn) →
      s1.run (l.map (endOp i)) = some s1 := by
    intro l
    induction l with
    | nil => intro s1 _; rfl
    | cons c l ih =>
      intro s1 h
      have := hstep s1 i _ h (Or.inr rfl)
      cases c
      · rw [List.map_cons, show endOp i false = Op.abort i from rfl]
        simp only [Sys.run, this.2]
        exact ih s1 h
      · rw [List.map_cons, show endOp i true = Op.commit i from rfl]
        simp only [Sys.run, this.1]
        exact ih s1 h
  refine ⟨_, h1, ?_, hlock, h2⟩
  simp only [List.map_cons, Sys.run, h1]
  exact hrest rest _ hdead

/-- Witness for C9: the live writer of `exLive` commits, then aborts and commits
again; the state is the one after the first commit, and the mutex was released. -/
theorem commit_abort_idempotent_witness :
    exLive.run ([true, false, true].map (endOp 0)) = exLive.step (.commit 0) ∧
    exLive.db.writer = true ∧ (exLive.after [.commit 0]).db.writer = false ∧
    exDead.Commit ⟨Iradix.New, true⟩ = .ok (⟨Iradix.New, true⟩, exDead) ∧
    exIterTxn.Abort ⟨Iradix.New, true⟩ = .ok (⟨Iradix.New, true⟩, exIterTxn) :=
  have h := commit_abort_idempotent.2.2 exLive exLive_reachable
    0 exLiveTxn rfl rfl true [false, true]
  ⟨h.elim (fun _ hs1 => hs1.2.1.trans hs1.1.symm), rfl, rfl,
    (commit_abort_idempotent.1 _ exDead (Or.inr rfl)).1,
    (commit_abort_idempotent.1 _ exIterTxn (Or.inl rfl)).2⟩

/-- C8, the code at the failing input: after `db.Txn(true)` and `Commit()` the handle
holds a nil radix transaction; `Put` and `Delete` on it dereference the nil pointer
and panic, while a second `Commit` returns and changes nothing. -/
theorem use_after_commit :
    (Sys.init.after [.txn true, .commit 0]).txns = [exDead] ∧
    exDead.Put keyA (.str "b") = .error .nilDeref ∧
    exDead.Delete keyA = .error .nilDeref ∧
    (Sys.init.after [.txn true, .commit 0]).step (.put 0 keyA (.str "b")) = none ∧
    exDead.Commit (Sys.init.after [.txn true, .commit 0]).db =
      .ok ((Sys.init.after [.txn true, .commit 0]).db, exDead) :=
  ⟨rfl, rfl, rfl, rfl, rfl⟩

/-- C6, the code at the failing input: a write transaction (`write = true`) that has
been aborted; `Put` on it neither succeeds nor returns an error, it panics. -/
theorem put_after_abort :
    (Sys.init.after [.txn true, .abort 0]).txns = [exDead] ∧ exDead.write = true ∧
    exDead.Put keyA (.str "b") = .error .nilDeref :=
  ⟨rfl, rfl, rfl⟩

/-- C10, the code at the failing input: `All` on a committed write transaction
yields no sequence, it panics. -/
theorem all_after_commit :
    (Sys.init.after [.txn true, .put 0 keyA1 (.str "a.1"), .commit 0]).txns = [exDead] ∧
    exDead.All [] = .error .nilDeref ∧ exDead.All keyA = .error .nilDeref :=
  ⟨rfl, rfl, rfl⟩

/-! ## Further properties -/

/-- `Put` on a transaction that is still usable: it returns an error exactly when
the transaction is read-only, and then the handle is unchanged (`Put` never touches
the database); on a live write transaction it succeeds. -/
theorem put_result (T : Txn) (k : Key) (v : Value) (hlive : T.live = true) :
    (T.write = false → T.Put k v = .ok (T, some .putReadOnly)) ∧
    (T.write = true → ∃ T', T.Put k v = .ok (T', none)) ∧
    ((∃ T' e, T.Put k v = .ok (T', some e)) ↔ T.write = false) := by
  obtain ⟨rt, hr⟩ : ∃ rt, T.rootTxn = some rt := by
    cases h : T.rootTxn with
    | none => simp [Txn.live, h] at hlive
    | some rt => exact ⟨rt, rfl⟩
  refine ⟨Txn.Put_readonly T k v, fun hw => ⟨_, Txn.Put_live T k v rt hw hr⟩, ?_⟩
  constructor
  · rintro ⟨T', e, h⟩
    cases hw : T.write with
    | false => rfl
    | true => rw [Txn.Put_live T k v rt hw hr] at h; simp at h
  · intro hw
    exact ⟨T, _, Txn.Put_readonly T k v hw⟩

/-- Witness for `put_result`: the live writer of `exLive` and the reader of
`exIter`. -/
theorem put_result_witness :
    (∃ T', exLiveTxn.Put keyLease (.int 1) = .ok (T', none)) ∧
    exIterTxn.Put keyLease (.int 1) = .ok (exIterTxn, some .putReadOnly) :=
  ⟨(put_result exLiveTxn keyLease (.int 1) rfl).2.1 rfl,
    (put_result exIterTxn keyLease (.int 1) rfl).1 rfl⟩

/-- Ordered prefix iteration on a transaction that is still usable.  In a reachable
state let `T` hold the working tree `rt`.  `All(p)` returns an iterator; calling
`Next` until the end yields exactly the bindings of `rt` whose key starts with `p`,
each once, in strictly ascending byte-wise lexicographic key order; in particular
nothing when no key starts with `p`. -/
theorem all_ordered (s : Sys) (hs : Reachable s) (i : Nat) (T : Txn)
    (hT : s.txns[i]? = some T) (rt : Iradix.Txn) (hr : T.rootTxn = some rt) (p : Key) :
    ∃ it, T.All p = .ok it ∧
      (it.toList.map (·.key)).Pairwise Iradix.keyLt ∧
      (∀ k v, (⟨k, v⟩ : leafNode) ∈ it.toList ↔ (p <+: k ∧ rt.root.Get k = some v)) ∧
      ((∀ k, p <+: k → rt.root.Get k = none) → it.toList = []) := by
  have hwf := hs.live_WF hT hr
  have hall : T.All p = .ok (rt.root.Iterator.SeekPrefix p) := by
    simp only [Txn.All, hr, Iradix.Txn.Root]
  have hlist := Iradix.TreeWF_iterate hwf p
  have hmem : ∀ k v, (⟨k, v⟩ : leafNode) ∈ (rt.root.Iterator.SeekPrefix p).toList ↔
      (p <+: k ∧ rt.root.Get k = some v) := by
    intro k v
    rw [hlist, List.mem_filter, Iradix.TreeWF_mem_entries hwf]
    simp only [decide_eq_true_eq]
    exact And.comm
  refine ⟨_, hall, ?_, hmem, ?_⟩
  · rw [hlist, List.pairwise_map]
    exact (Iradix.Node.sorted_entries rt.root [] hwf.2).sublist (List.filter_sublist _)
  · intro hnone
    rw [List.eq_nil_iff_forall_not_mem]
    intro lf hlf
    have := (hmem lf.key lf.val).1 hlf
    rw [hnone lf.key this.1] at this
    cases this.2

/-- Witness for `all_ordered` (`TestIterator`, `TestIteratorWithPrefix`): over the
keys "a.1", "a.2", "c.1" the prefix "" yields a.1, a.2, c.1, the prefix "a" yields
a.1, a.2 and the prefix "z" yields nothing. -/
theorem all_ordered_witness :
    (Reachable exIter ∧ exIter.txns[1]? = some exIterTxn ∧
      exIterTxn.rootTxn = some exIterTree) ∧
    (∃ it, exIterTxn.All keyA = .ok it ∧
      (it.toList.map (·.key)).Pairwise Iradix.keyLt ∧
      (∀ k v, (⟨k, v⟩ : leafNode) ∈ it.toList ↔
        (keyA <+: k ∧ exIterTree.root.Get k = some v)) ∧
      ((∀ k, keyA <+: k → exIterTree.root.Get k = none) → it.toList = [])) ∧
    (exIterTxn.All []).map (fun it => it.toList.map (·.val)) =
      .ok [.str "a.1", .str "a.2", .str "c.1"] ∧
    (exIterTxn.All keyA).map (fun it => it.toList.map (·.val)) = .ok [.str "a.1", .str "a.2"] ∧
    (exIterTxn.All [122]).map (fun it => it.toList.map (·.val)) = .ok [] :=
  ⟨⟨exIter_reachable, rfl, rfl⟩,
    all_ordered exIter exIter_reachable 1 exIterTxn rfl exIterTree rfl keyA, rfl, rfl, rfl⟩

/-- One call that is not the live writer's own `Commit` or `Abort` keeps the current
root and keeps that writer live. -/
theorem step_keeps_root (s s' : Sys) (hs : Reachable s) (i : Nat) (T : Txn)
    (hT : s.txns[i]? = some T) (hlive : T.liveWriter = true) (op : Op)
    (hstep : s.step op = some s') (hc : op ≠ .commit i) (ha : op ≠ .abort i) :
    s'.db.root = s.db.root ∧ ∃ T', s'.txns[i]? = some T' ∧ T'.liveWriter = true := by
  obtain ⟨hw, rt, hr⟩ := (Txn.liveWriter_iff T).1 hlive
  have hlt : i < s.txns.length := (List.getElem?_eq_some_iff.1 hT).1
  have huniq := hs.inv.2.1
  have hedit : ∀ (j : Nat) (t t' : Txn), s.txns[j]? = some t →
      (t.write = false → t' = t) →
      (∀ r, t.write = true → t.rootTxn = some r → ∃ r', t' = ⟨true, some r'⟩) →
      ∃ T', (s.txns.set j t')[i]? = some T' ∧ T'.liveWriter = true := by
    intro j t t' ht h1 h2
    by_cases hji : j = i
    · subst hji
      rw [hT] at ht
      cases ht
      obtain ⟨r', hr'⟩ := h2 rt hw hr
      exact ⟨t', List.getElem?_set_self hlt, by rw [hr']; rfl⟩
    · exact ⟨T, by rw [List.getElem?_set_ne hji]; exact hT, hlive⟩
  have hend : ∀ (j : Nat) (t : Txn), s.txns[j]? = some t → j ≠ i →
      t.write = false ∨ t.rootTxn = none := by
    intro j t ht hji
    by_contra hterm
    apply hji
    apply huniq j i t T ht hT _ hlive
    cases hwt : t.write with
    | false => exact absurd (Or.inl hwt) hterm
    | true =>
      cases hrt : t.rootTxn with
      | none => exact absurd (Or.inr hrt) hterm
      | some r => simp [Txn.liveWriter, hwt, hrt]
  cases op with
  | txn w =>
    obtain ⟨_, h2⟩ := step_txn s w s' hstep
    subst h2
    exact ⟨rfl, T, get_append_of_some hT, hlive⟩
  | put j k v =>
    simp only [Sys.step] at hstep
    cases ht : s.txns[j]? with
    | none => simp [ht] at hstep
    | some t =>
      simp only [ht] at hstep
      cases hwt : t.write with
      | false =>
        rw [Txn.Put_readonly t k v hwt] at hstep
        simp only [Option.some.injEq] at hstep
        subst hstep
        exact ⟨rfl, hedit j t t ht (fun _ => rfl) (fun r h => by rw [hwt] at h; cases h)⟩
      | true =>
        cases hrt : t.rootTxn with
        | none => rw [Txn.Put_dead t k v hwt hrt] at hstep; cases hstep
        | some r =>
          rw [Txn.Put_live t k v r hwt hrt] at hstep
          simp only [Option.some.injEq] at hstep
          subst hstep
          exact ⟨rfl, hedit j t _ ht (fun h => by rw [hwt] at h; cases h) (fun _ _ _ => ⟨_, rfl⟩)⟩
  | delete j k =>
    simp only [Sys.step] at hstep
    cases ht : s.txns[j]? with
    | none => simp [ht] at hstep
    | some t =>
      simp only [ht] at hstep
      cases hwt : t.write with
      | false =>
        rw [Txn.Delete_readonly t k hwt] at hstep
        simp only [Option.some.injEq] at hstep
        subst hstep
        exact ⟨rfl, hedit j t t ht (fun _ => rfl) (fun r h => by rw [hwt] at h; cases h)⟩
      | true =>
        cases hrt : t.rootTxn with
        | none => rw [Txn.Delete_dead t k hwt hrt] at hstep; cases hstep
        | some r =>
          rw [Txn.Delete_live t k r hwt hrt] at hstep
          simp only [Option.some.injEq] at hstep
          subst hstep
          exact ⟨rfl, hedit j t _ ht (fun h => by rw [hwt] at h; cases h) (fun _ _ _ => ⟨_, rfl⟩)⟩
  | commit j =>
    have hji : j ≠ i := fun h => hc (by rw [h])
    simp only [Sys.step] at hstep
    cases ht : s.txns[j]? with
    | none => simp [ht] at hstep
    | some t =>
      simp only [ht, Txn.Commit_terminal t s.db (hend j t ht hji), Option.some.injEq] at hstep
      subst hstep
      exact ⟨rfl, T, by rw [List.getElem?_set_ne hji]; exact hT, hlive⟩
  | abort j =>
    have hji : j ≠ i := fun h => ha (by rw [h])
    simp only [Sys.step] at hstep
    cases ht : s.txns[j]? with
    | none => simp [ht] at hstep
    | some t =>
      simp only [ht, Txn.Abort_terminal t s.db (hend j t ht hji), Option.some.injEq] at hstep
      subst hstep
      exact ⟨rfl, T, by rw [List.getElem?_set_ne hji]; exact hT, hlive⟩

theorem run_keeps_root : ∀ (ops : List Op) (s s' : Sys), Reachable s → ∀ (i : Nat) (T : Txn),
    s.txns[i]? = some T → T.liveWriter = true → s.run ops = some s' →
    (∀ op ∈ ops, op ≠ .commit i ∧ op ≠ .abort i) →
    s'.db.root = s.db.root ∧ ∃ T', s'.txns[i]? = some T' ∧ T'.liveWriter = true
  | [], s, s', _, i, T, hT, hlive, hrun, _ => by
    simp only [Sys.run, Option.some.injEq] at hrun
    subst hrun
    exact ⟨rfl, T, hT, hlive⟩
  | op :: ops, s, s', hs, i, T, hT, hlive, hrun, hops => by
    simp only [Sys.run] at hrun
    cases hstep : s.step op with
    | none => rw [hstep] at hrun; cases hrun
    | some s1 =>
      rw [hstep] at hrun
      have h1 := hops op (List.mem_cons_self _ _)
      obtain ⟨hroot, T1, hT1, hlive1⟩ := step_keeps_root s s1 hs i T hT hlive op hstep h1.1 h1.2
      obtain ⟨hroot', h2⟩ := run_keeps_root ops s1 s' (Reachable.step op hs hstep) i T1 hT1 hlive1
        hrun (fun o ho => hops o (List.mem_cons_of_mem _ ho))
      exact ⟨hroot'.trans hroot, h2⟩

/-- While a write transaction is live, nobody else changes the current root.  In a
reachable state let `T` (handle `i`) be a live write transaction.  After any sequence
of enabled calls that contains neither `T.Commit()` nor `T.Abort()` (calls on other
handles, new transactions, `T`'s own `Put`/`Delete`) the current root is the same
and `T` is still live; if `T` then aborts, the root is still the same and the mutex
is free. -/
theorem root_stable_while_writer_live (s s' : Sys) (hs : Reachable s) (i : Nat) (T : Txn)
    (hT : s.txns[i]? = some T) (hlive : T.liveWriter = true) (ops : List Op)
    (hrun : s.run ops = some s') (hops : ∀ op ∈ ops, op ≠ .commit i ∧ op ≠ .abort i) :
    s'.db.root = s.db.root ∧ (∃ T', s'.txns[i]? = some T' ∧ T'.liveWriter = true) ∧
    ∃ s2, s'.step (.abort i) = some s2 ∧ s2.db.root = s.db.root ∧ s2.db.writer = false := by
  obtain ⟨hroot, T', hT', hlive'⟩ := run_keeps_root ops s s' hs i T hT hlive hrun hops
  refine ⟨hroot, ⟨T', hT', hlive'⟩, ?_⟩
  obtain ⟨hw, rt, hr⟩ := (Txn.liveWriter_iff T').1 hlive'
  have hlock : s'.db.writer = true := (hs.run ops s' hrun).inv.2.2.1.2 ⟨i, T', hT', hlive'⟩
  refine ⟨⟨⟨s'.db.root, false⟩, s'.txns.set i ⟨true, none⟩⟩, ?_, hroot, rfl⟩
  simp only [Sys.step, hT', Txn.Abort_live T' s'.db rt hw hr, hlock, if_true]

/-- Witness for `root_stable_while_writer_live`: while the writer of `exLive` is
live, a reader begins, the writer puts "lease", and `Commit` is called on the
reader; the root is unchanged, and still is after the writer aborts. -/
theorem root_stable_while_writer_live_witness :
    (Reachable exLive ∧ exLive.txns[0]? = some exLiveTxn ∧ exLiveTxn.liveWriter = true ∧
      exLive.run [.txn false, .put 0 keyLease (.int 1), .commit 1] =
        some (exLive.after [.txn false, .put 0 keyLease (.int 1), .commit 1])) ∧
    ((exLive.after [.txn false, .put 0 keyLease (.int 1), .commit 1]).db.root = exLive.db.root ∧
      (∃ T', (exLive.after [.txn false, .put 0 keyLease (.int 1), .commit 1]).txns[0]? = some T' ∧
        T'.liveWriter = true) ∧
      ∃ s2, (exLive.after [.txn false, .put 0 keyLease (.int 1), .commit 1]).step (.abort 0) =
        some s2 ∧ s2.db.root = exLive.db.root ∧ s2.db.writer = false) :=
  ⟨⟨exLive_reachable, rfl, rfl, rfl⟩,
    root_stable_while_writer_live exLive _ exLive_reachable 0 exLiveTxn rfl rfl
      [.txn false, .put 0 keyLease (.int 1), .commit 1] rfl (by decide)⟩

end Mdb

namespace IradixP

open Iradix (Key Value leafNode Node Edges longestPrefix splitNode)

/-! ## The node store: edge lists -/

theorem reifyEdges_congr {f g : Nat → Node} : ∀ (es : List (Nat × Nat)),
    (∀ e ∈ es, f e.2 = g e.2) → reifyEdges f es = reifyEdges g es
  | [], _ => rfl
  | (l, q) :: es, h => by
    simp only [reifyEdges]
    rw [h (l, q) (List.mem_cons_self _ _),
      reifyEdges_congr es (fun e he => h e (List.mem_cons_of_mem _ he))]

theorem reifyEdges_length (f : Nat → Node) : ∀ (es : List (Nat × Nat)),
    (reifyEdges f es).length = es.length
  | [] => rfl
  | (_, _) :: es => by simp [reifyEdges, Edges.length, reifyEdges_length f es]

theorem getEdge_mem : ∀ (es : List (Nat × Nat)) (b q : Nat), getEdge es b = some q → (b, q) ∈ es
  | [], _, _, h => by simp [getEdge] at h
  | (l, q') :: es, b, q, h => by
    simp only [getEdge] at h
    split_ifs at h with h1 h2
    · exact List.mem_cons_of_mem _ (getEdge_mem es b q h)
    · cases h; subst h2; exact List.mem_cons_self _ _

theorem addEdge_mem : ∀ (es : List (Nat × Nat)) (b q : Nat) (e : Nat × Nat),
    e ∈ addEdge es b q → e = (b, q) ∨ e ∈ es
  | [], b, q, e, h => by simpa [addEdge] using h
  | (l, q') :: es, b, q, e, h => by
    simp only [addEdge] at h
    split_ifs at h with h1
    · rcases List.mem_cons.1 h with h | h
      · exact Or.inr (h ▸ List.mem_cons_self _ _)
      · rcases addEdge_mem es b q e h with h | h
        · exact Or.inl h
        · exact Or.inr (List.mem_cons_of_mem _ h)
    · rcases List.mem_cons.1 h with h | h
      · exact Or.inl h
      · exact Or.inr h

theorem setEdge_mem : ∀ (es : List (Nat × Nat)) (b q : Nat) (e : Nat × Nat),
    e ∈ setEdge es b q → e.2 = q ∨ e ∈ es
  | [], b, q, e, h => by simp [setEdge] at h
  | (l, q') :: es, b, q, e, h => by
    simp only [setEdge] at h
    split_ifs at h with h1 h2
    · rcases List.mem_cons.1 h with h | h
      · exact Or.inr (h ▸ List.mem_cons_self _ _)
      · rcases setEdge_mem es b q e h with h | h
        · exact Or.inl h
        · exact Or.inr (List.mem_cons_of_mem _ h)
    · rcases List.mem_cons.1 h with h | h
      · exact Or.inl (by rw [h])
      · exact Or.inr (List.mem_cons_of_mem _ h)
    · exact Or.inr h

theorem delEdge_mem : ∀ (es : List (Nat × Nat)) (b : Nat) (e : Nat × Nat),
    e ∈ delEdge es b → e ∈ es
  | [], b, e, h => by simp [delEdge] at h
  | (l, q') :: es, b, e, h => by
    simp only [delEdge] at h
    split_ifs at h with h1 h2
    · rcases List.mem_cons.1 h with h | h
      · exact h ▸ List.mem_cons_self _ _
      · exact List.mem_cons_of_mem _ (delEdge_mem es b e h)
    · exact List.mem_cons_of_mem _ h
    · exact h

/-! ## The node store: reading a tree out of it -/

theorem Closed.child_lt {h : Store} (hc : Closed h) {p : Nat} {c : Cell} (hp : h[p]? = some c)
    {e : Nat × Nat} (he : e ∈ c.edges) : e.2 < p := hc p c hp e he

theorem lookup_lt {h : Store} {p : Nat} {c : Cell} (hp : h[p]? = some c) : p < h.length := by
  by_contra hlt
  rw [List.getElem?_eq_none (by omega)] at hp
  cases hp

theorem lookup_prefix {h h' : Store} (hpre : h <+: h') {p : Nat} (hp : p < h.length) :
    h'[p]? = h[p]? := by
  obtain ⟨ext, rfl⟩ := hpre
  exact List.getElem?_append_left hp

theorem lookup_new (h : Store) (c : Cell) : (h ++ [c])[h.length]? = some c := by
  simp

theorem Closed_append {h : Store} (hc : Closed h) (c : Cell)
    (hcell : ∀ e ∈ c.edges, e.2 < h.length) : Closed (h ++ [c]) := by
  intro i d hi e he
  by_cases hlt : i < h.length
  · rw [List.getElem?_append_left hlt] at hi
    exact hc i d hi e he
  · have hi' := lookup_lt hi
    simp only [List.length_append, List.length_singleton] at hi'
    have hieq : i = h.length := by omega
    subst hieq
    rw [lookup_new] at hi
    cases hi
    exact hcell e he

theorem reify_frame {h h' : Store} (hc : Closed h) (hpre : h <+: h') :
    ∀ (fuel p : Nat), p < h.length → reify fuel h' p = reify fuel h p
  | 0, _, _ => rfl
  | fuel + 1, p, hp => by
    simp only [reify, lookup_prefix hpre hp]
    cases hcell : h[p]? with
    | none => rfl
    | some c =>
      have hcg : reifyEdges (reify fuel h') c.edges = reifyEdges (reify fuel h) c.edges :=
        reifyEdges_congr c.edges (fun e he =>
          reify_frame hc hpre fuel e.2 (lt_trans (hc.child_lt hcell he) hp))
      simp only
      rw [hcg]

theorem reify_fuel {h : Store} (hc : Closed h) :
    ∀ (fuel p : Nat), p < fuel → reify fuel h p = reify (p + 1) h p := by
  intro fuel
  induction fuel using Nat.strong_induction_on with
  | _ fuel ih =>
    intro p hp
    cases fuel with
    | zero => omega
    | succ fuel =>
      simp only [reify]
      cases hcell : h[p]? with
      | none => rfl
      | some c =>
        simp only
        have hcg : reifyEdges (reify fuel h) c.edges = reifyEdges (reify p h) c.edges :=
          reifyEdges_congr c.edges (fun e he => by
            have hlt := hc.child_lt hcell he
            rw [ih fuel (by omega) e.2 (by omega), ih p (by omega) e.2 hlt])
        rw [hcg]

theorem nodeAt_eq {h : Store} (hc : Closed h) {p : Nat} {c : Cell} (hp : h[p]? = some c) :
    nodeAt h p = .mk c.leaf c.pfx (reifyEdges (nodeAt h) c.edges) := by
  have hcg : reifyEdges (reify p h) c.edges = reifyEdges (nodeAt h) c.edges :=
    reifyEdges_congr c.edges (fun e he => reify_fuel hc p e.2 (hc.child_lt hp he))
  simp only [nodeAt, reify, hp]
  exact congrArg _ hcg

theorem nodeAt_frame {h h' : Store} (hc : Closed h) (hpre : h <+: h') {p : Nat}
    (hp : p < h.length) : nodeAt h' p = nodeAt h p :=
  reify_frame hc hpre (p + 1) p hp

theorem nodeAt_new {h : Store} (hc : Closed h) (c : Cell)
    (hcell : ∀ e ∈ c.edges, e.2 < h.length) :
    nodeAt (h ++ [c]) h.length = .mk c.leaf c.pfx (reifyEdges (nodeAt h) c.edges) := by
  have hcg : reifyEdges (nodeAt (h ++ [c])) c.edges = reifyEdges (nodeAt h) c.edges :=
    reifyEdges_congr c.edges (fun e he =>
      nodeAt_frame hc (List.prefix_append h [c]) (hcell e he))
  rw [nodeAt_eq (Closed_append hc c hcell) (lookup_new h c), hcg]

/-! ## The node store: `Get` reads the tree below an address -/

theorem Edges_Get_reify (f : Nat → Node) : ∀ (es : List (Nat × Nat)) (b : Nat) (rest : Key),
    Edges.Get (reifyEdges f es) b rest =
      match getEdge es b with
      | none => none
      | some q => (f q).GetVia (b :: rest)
  | [], _, _ => rfl
  | (l, q) :: es, b, rest => by
    simp only [reifyEdges, Iradix.Edges.Get_cons, getEdge]
    split_ifs with h1 h2
    · exact Edges_Get_reify f es b rest
    · rfl
    · rfl

theorem nodeAt_pfx {h : Store} (hc : Closed h) {p : Nat} {c : Cell} (hp : h[p]? = some c) :
    (nodeAt h p).pfx = c.pfx := by
  rw [nodeAt_eq hc hp]; rfl

theorem nodeAt_leaf {h : Store} (hc : Closed h) {p : Nat} {c : Cell} (hp : h[p]? = some c) :
    (nodeAt h p).leaf = c.leaf := by
  rw [nodeAt_eq hc hp]; rfl

theorem nodeAt_edges {h : Store} (hc : Closed h) {p : Nat} {c : Cell} (hp : h[p]? = some c) :
    (nodeAt h p).edges = reifyEdges (nodeAt h) c.edges := by
  rw [nodeAt_eq hc hp]; rfl

theorem lookup_some {h : Store} {p : Nat} (hp : p < h.length) : ∃ c, h[p]? = some c :=
  ⟨h[p], List.getElem?_eq_getElem hp⟩

theorem getLoop_refines {h : Store} (hc : Closed h) :
    ∀ (fuel p : Nat) (k : Key), p < fuel → p < h.length →
      getLoop fuel h p k = (nodeAt h p).Get k
  | 0, _, _, hf, _ => by omega
  | fuel + 1, p, k, hf, hp => by
    obtain ⟨c, hcell⟩ := lookup_some hp
    rw [nodeAt_eq hc hcell]
    cases k with
    | nil => simp only [getLoop, hcell, Iradix.Node.Get_mk_nil]
    | cons b rest =>
      simp only [getLoop, hcell, Iradix.Node.Get_mk_cons, Edges_Get_reify]
      cases hge : getEdge c.edges b with
      | none => rfl
      | some q =>
        have hq : q < p := hc.child_lt hcell (getEdge_mem _ _ _ hge)
        obtain ⟨child, hchild⟩ := lookup_some (lt_trans hq hp)
        simp only [hchild, Iradix.Node.GetVia, nodeAt_pfx hc hchild]
        split_ifs with hpre
        · exact getLoop_refines hc fuel q _ (by omega) (lt_trans hq hp)
        · rfl

theorem Get_refines {h : Store} (hc : Closed h) {p : Nat} (hp : p < h.length) (k : Key) :
    Get h p k = (nodeAt h p).Get k :=
  getLoop_refines hc (p + 1) p k (Nat.lt_succ_self p) hp

theorem Get_frame {h h' : Store} (hc : Closed h) (hc' : Closed h') (hpre : h <+: h') {p : Nat}
    (hp : p < h.length) (k : Key) : Get h' p k = Get h p k := by
  rw [Get_refines hc hp, Get_refines hc' (lt_of_lt_of_le hp hpre.length_le),
    nodeAt_frame hc hpre hp]

/-! ## The node store: `Insert` copies the path and writes no node of the store -/

theorem Edges_insert_none (f g : Nat → Node) (k : Key) (b : Nat) (rest : Key) (v : Value)
    (qn : Nat) (hg : g qn = .mk (some ⟨k, v⟩) (b :: rest) .nil) :
    ∀ (es : List (Nat × Nat)), getEdge es b = none → (∀ e ∈ es, g e.2 = f e.2) →
      Edges.insert (reifyEdges f es) k b rest v = (reifyEdges g (addEdge es b qn), false)
  | [], _, _ => by simp only [reifyEdges, addEdge, Iradix.Edges.insert_nil, hg]
  | (l, q) :: es, hge, hfg => by
    have hq : g q = f q := hfg (l, q) (List.mem_cons_self _ _)
    have hes : ∀ e ∈ es, g e.2 = f e.2 := fun e he => hfg e (List.mem_cons_of_mem _ he)
    simp only [getEdge] at hge
    simp only [reifyEdges, addEdge, Iradix.Edges.insert_cons]
    by_cases h1 : l < b
    · simp only [h1, if_true] at hge ⊢
      rw [Edges_insert_none f g k b rest v qn hg es hge hes]
      simp only [reifyEdges, hq]
    · by_cases h2 : l = b
      · simp [h1, h2] at hge
      · simp only [h1, h2, if_false, reifyEdges, hg, hq,
          reifyEdges_congr es (fun e he => (hes e he).symm)]

theorem Edges_insert_some (f g : Nat → Node) (k : Key) (b : Nat) (rest : Key) (v : Value)
    (q qn : Nat)
    (hg : g qn = if longestPrefix (b :: rest) (f q).pfx = (f q).pfx.length
      then ((f q).insert k ((b :: rest).drop (f q).pfx.length) v).1
      else splitNode (f q) k (b :: rest) (longestPrefix (b :: rest) (f q).pfx) v) :
    ∀ (es : List (Nat × Nat)), getEdge es b = some q → (∀ e ∈ es, g e.2 = f e.2) →
      Edges.insert (reifyEdges f es) k b rest v =
        (reifyEdges g (setEdge es b qn),
          if longestPrefix (b :: rest) (f q).pfx = (f q).pfx.length
          then ((f q).insert k ((b :: rest).drop (f q).pfx.length) v).2 else false)
  | [], hge, _ => by simp [getEdge] at hge
  | (l, q') :: es, hge, hfg => by
    have hq : g q' = f q' := hfg (l, q') (List.mem_cons_self _ _)
    have hes : ∀ e ∈ es, g e.2 = f e.2 := fun e he => hfg e (List.mem_cons_of_mem _ he)
    simp only [getEdge] at hge
    simp only [reifyEdges, setEdge, Iradix.Edges.insert_cons]
    by_cases h1 : l < b
    · simp only [h1, if_true] at hge ⊢
      rw [Edges_insert_some f g k b rest v q qn hg es hge hes]
      simp only [reifyEdges, hq]
    · by_cases h2 : l = b
      · subst h2
        simp only [lt_irrefl, if_false, if_true, Option.some.injEq] at hge ⊢
        subst hge
        have hcg := reifyEdges_congr es (fun e he => (hes e he).symm)
        by_cases h3 : longestPrefix (l :: rest) (f q').pfx = (f q').pfx.length
        · simp only [h3, if_true] at hg ⊢
          simp only [reifyEdges, hg, hcg]
        · simp only [h3, if_false] at hg ⊢
          simp only [reifyEdges, hg, hcg]
      · simp [h1, h2] at hge

theorem Closed_children {h : Store} (hc : Closed h) {p : Nat} {c : Cell} (hp : h[p]? = some c) :
    ∀ e ∈ c.edges, e.2 < h.length :=
  fun _ he => lt_trans (hc.child_lt hp he) (lookup_lt hp)

theorem reifyEdges_addEdge (g : Nat → Node) (b q : Nat) : ∀ (es : List (Nat × Nat)),
    reifyEdges g (addEdge es b q) = (reifyEdges g es).addEdge b (g q)
  | [] => rfl
  | (l, q') :: es => by
    simp only [addEdge, reifyEdges, Iradix.Edges.addEdge]
    split_ifs with h1
    · simp only [reifyEdges, reifyEdges_addEdge g b q es]
    · rfl

theorem splitNode_drop_nil (child : Node) (k search : Key) (cp : Nat) (v : Value)
    (hd : search.drop cp = []) :
    splitNode child k search cp v =
      .mk (some ⟨k, v⟩) (search.take cp)
        (Edges.nil.addEdge (child.pfx.getD cp 0)
          (.mk child.leaf (child.pfx.drop cp) child.edges)) := by
  unfold splitNode
  simp only [hd]

theorem splitNode_drop_cons (child : Node) (k search : Key) (cp : Nat) (v : Value)
    (b : Nat) (rest : Key) (hd : search.drop cp = b :: rest) :
    splitNode child k search cp v =
      .mk none (search.take cp)
        ((Edges.nil.addEdge (child.pfx.getD cp 0)
          (.mk child.leaf (child.pfx.drop cp) child.edges)).addEdge b
            (.mk (some ⟨k, v⟩) (b :: rest) .nil)) := by
  unfold splitNode
  simp only [hd]

theorem insertLoop_refines {h : Store} (hc : Closed h) :
    ∀ (fuel p : Nat) (k s : Key) (v : Value), p < fuel → p < h.length →
      ∃ h' p', insertLoop fuel h p k s v = some (h', p', ((nodeAt h p).insert k s v).2) ∧
        h <+: h' ∧ Closed h' ∧ p' < h'.length ∧
        nodeAt h' p' = ((nodeAt h p).insert k s v).1
  | 0, _, _, _, _, hf, _ => by omega
  | fuel + 1, p, k, s, v, hf, hp => by
    obtain ⟨c, hcell⟩ := lookup_some hp
    have hch := Closed_children hc hcell
    rw [nodeAt_eq hc hcell]
    obtain ⟨cl, cpf, ces⟩ := c
    simp only at hch ⊢
    cases s with
    | nil =>
      refine ⟨h ++ [⟨some ⟨k, v⟩, cpf, ces⟩], h.length, ?_, List.prefix_append _ _,
        Closed_append hc _ hch, by simp, ?_⟩
      · simp only [insertLoop, hcell, Iradix.Node.insert_mk_nil]
      · rw [nodeAt_new hc ⟨some ⟨k, v⟩, cpf, ces⟩ hch, Iradix.Node.insert_mk_nil]
    | cons b rest =>
      rw [Iradix.Node.insert_mk_cons]
      cases hge : getEdge ces b with
      | none =>
        -- a new leaf node below the clone of the node
        have hc1 : Closed (h ++ [⟨some ⟨k, v⟩, b :: rest, []⟩]) :=
          Closed_append hc _ (by simp)
        have hleaf := nodeAt_new hc ⟨some ⟨k, v⟩, b :: rest, []⟩ (by simp)
        simp only [reifyEdges] at hleaf
        have hpar : ∀ e ∈ (addEdge ces b h.length),
            e.2 < (h ++ [(⟨some ⟨k, v⟩, b :: rest, []⟩ : Cell)]).length := by
          intro e he
          rcases addEdge_mem _ _ _ _ he with he | he
          · subst he; simp
          · have := hch e he; simp; omega
        have hins := Edges_insert_none (nodeAt h)
          (nodeAt (h ++ [(⟨some ⟨k, v⟩, b :: rest, []⟩ : Cell)])) k b rest v h.length hleaf
          ces hge (fun e he => nodeAt_frame hc (List.prefix_append _ _) (hch e he))
        refine ⟨h ++ [⟨some ⟨k, v⟩, b :: rest, []⟩] ++ [⟨cl, cpf, addEdge ces b h.length⟩],
          h.length + 1, ?_, (List.prefix_append _ _).trans (List.prefix_append _ _),
          Closed_append hc1 _ hpar, by simp, ?_⟩
        · simp only [insertLoop, hcell, hge, hins]
        · have hnew := nodeAt_new hc1 ⟨cl, cpf, addEdge ces b h.length⟩ hpar
          simp only [List.length_append, List.length_singleton] at hnew
          rw [hnew, hins]
      | some q =>
        have hq : q < p := hc.child_lt hcell (getEdge_mem _ _ _ hge)
        have hqlen : q < h.length := lt_trans hq hp
        obtain ⟨child, hchild⟩ := lookup_some hqlen
        have hchq := Closed_children hc hchild
        have hpfx := nodeAt_pfx hc hchild
        have hnq := nodeAt_eq hc hchild
        obtain ⟨chl, chp, che⟩ := child
        simp only at hchq hpfx hnq
        by_cases hlp : longestPrefix (b :: rest) chp = chp.length
        · -- the prefix of the child is consumed: insert below the child
          obtain ⟨h1, q', hrec, hpre1, hc1, hq', hnode1⟩ :=
            insertLoop_refines hc fuel q k ((b :: rest).drop chp.length) v (by omega) hqlen
          have hpar : ∀ e ∈ (setEdge ces b q'), e.2 < h1.length := by
            intro e he
            rcases setEdge_mem _ _ _ _ he with he | he
            · omega
            · exact lt_of_lt_of_le (hch e he) hpre1.length_le
          have hins := Edges_insert_some (nodeAt h) (nodeAt h1) k b rest v q q'
            (by rw [hpfx]; simp only [hlp, if_true]; exact hnode1)
            ces hge (fun e he => nodeAt_frame hc hpre1 (hch e he))
          rw [hpfx] at hins
          simp only [hlp, if_true] at hins
          refine ⟨h1 ++ [⟨cl, cpf, setEdge ces b q'⟩], h1.length, ?_,
            hpre1.trans (List.prefix_append _ _), Closed_append hc1 _ hpar, by simp, ?_⟩
          · simp only [insertLoop, hcell, hge, hchild, hlp, if_true, hrec, hins]
          · rw [nodeAt_new hc1 ⟨cl, cpf, setEdge ces b q'⟩ hpar, hins]
        · -- the prefix of the child and the key part ways: split the child
          obtain ⟨cp, hcp⟩ : ∃ cp, cp = longestPrefix (b :: rest) chp := ⟨_, rfl⟩
          obtain ⟨mc, hmc⟩ : ∃ mc : Cell, mc = ⟨chl, chp.drop cp, che⟩ := ⟨_, rfl⟩
          have hmcE : ∀ e ∈ mc.edges, e.2 < h.length := by rw [hmc]; exact hchq
          have hmod := nodeAt_new hc mc hmcE
          have hc1 := Closed_append hc mc hmcE
          have hlen1 : (h ++ [mc]).length = h.length + 1 := by simp
          rw [← hcp] at hlp
          cases hd : (b :: rest).drop cp with
          | nil =>
            obtain ⟨sc, hsc⟩ : ∃ sc : Cell, sc = ⟨some ⟨k, v⟩, (b :: rest).take cp,
              addEdge [] (chp.getD cp 0) h.length⟩ := ⟨_, rfl⟩
            have hscE : ∀ e ∈ sc.edges, e.2 < (h ++ [mc]).length := by
              rw [hsc, hlen1]
              intro e he
              rcases addEdge_mem _ _ _ _ he with he | he
              · subst he; simp
              · cases he
            have hc2 := Closed_append hc1 sc hscE
            have hsplit := nodeAt_new hc1 sc hscE
            have hlen2 : (h ++ [mc] ++ [sc]).length = h.length + 2 := by simp
            have hpre2 : h <+: h ++ [mc] ++ [sc] :=
              (List.prefix_append _ _).trans (List.prefix_append _ _)
            obtain ⟨pc, hpc⟩ : ∃ pc : Cell, pc = ⟨cl, cpf, setEdge ces b (h.length + 1)⟩ :=
              ⟨_, rfl⟩
            have hpcE : ∀ e ∈ pc.edges, e.2 < (h ++ [mc] ++ [sc]).length := by
              rw [hpc, hlen2]
              intro e he
              rcases setEdge_mem _ _ _ _ he with he | he
              · omega
              · have := hch e he; omega
            have hins := Edges_insert_some (nodeAt h) (nodeAt (h ++ [mc] ++ [sc])) k b rest v q
              (h.length + 1)
              (by
                rw [← hlen1, hsplit, hpfx, ← hcp]
                simp only [hlp, if_false]
                rw [splitNode_drop_nil _ _ _ _ _ hd, hnq, hsc]
                simp only [reifyEdges_addEdge, reifyEdges]
                rw [hmod, hmc]
                rfl)
              ces hge (fun e he => nodeAt_frame hc hpre2 (hch e he))
            rw [hpfx, ← hcp] at hins
            simp only [hlp, if_false] at hins
            refine ⟨h ++ [mc] ++ [sc] ++ [pc], h.length + 2, ?_,
              hpre2.trans (List.prefix_append _ _),
              Closed_append hc2 pc hpcE, by simp, ?_⟩
            · simp only [insertLoop, hcell, hge, hchild, ← hcp, hlp, if_false, hd, hins, hmc,
                hsc, hpc]
            · have hnew := nodeAt_new hc2 pc hpcE
              rw [hlen2] at hnew
              rw [hnew, hins, hpc]
          | cons b' rest' =>
            obtain ⟨lc, hlc⟩ : ∃ lc : Cell, lc = ⟨some ⟨k, v⟩, b' :: rest', []⟩ := ⟨_, rfl⟩
            have hlcE : ∀ e ∈ lc.edges, e.2 < (h ++ [mc]).length := by
              rw [hlc]; intro e he; cases he
            have hc2 := Closed_append hc1 lc hlcE
            have hleaf := nodeAt_new hc1 lc hlcE
            have hlen2 : (h ++ [mc] ++ [lc]).length = h.length + 2 := by simp
            obtain ⟨sc, hsc⟩ : ∃ sc : Cell, sc = ⟨none, (b :: rest).take cp,
              addEdge (addEdge [] (chp.getD cp 0) h.length) b' (h.length + 1)⟩ := ⟨_, rfl⟩
            have hscE : ∀ e ∈ sc.edges, e.2 < (h ++ [mc] ++ [lc]).length := by
              rw [hsc, hlen2]
              intro e he
              rcases addEdge_mem _ _ _ _ he with he | he
              · subst he; simp
              · rcases addEdge_mem _ _ _ _ he with he | he
                · subst he; simp
                · cases he
            have hc3 := Closed_append hc2 sc hscE
            have hsplit := nodeAt_new hc2 sc hscE
            have hlen3 : (h ++ [mc] ++ [lc] ++ [sc]).length = h.length + 3 := by simp
            have hpre3 : h <+: h ++ [mc] ++ [lc] ++ [sc] :=
              ((List.prefix_append _ _).trans (List.prefix_append _ _)).trans
                (List.prefix_append _ _)
            have hmod2 : nodeAt (h ++ [mc] ++ [lc]) h.length = nodeAt (h ++ [mc]) h.length :=
              nodeAt_frame hc1 (List.prefix_append _ _) (by rw [hlen1]; omega)
            obtain ⟨pc, hpc⟩ : ∃ pc : Cell, pc = ⟨cl, cpf, setEdge ces b (h.length + 2)⟩ :=
              ⟨_, rfl⟩
            have hpcE : ∀ e ∈ pc.edges, e.2 < (h ++ [mc] ++ [lc] ++ [sc]).length := by
              rw [hpc, hlen3]
              intro e he
              rcases setEdge_mem _ _ _ _ he with he | he
              · omega
              · have := hch e he; omega
            have hins := Edges_insert_some (nodeAt h) (nodeAt (h ++ [mc] ++ [lc] ++ [sc])) k b
              rest v q (h.length + 2)
              (by
                rw [← hlen2, hsplit, hpfx, ← hcp]
                simp only [hlp, if_false]
                rw [splitNode_drop_cons _ _ _ _ _ _ _ hd, hnq, hsc]
                simp only [reifyEdges_addEdge, reifyEdges]
                rw [hmod2, hmod, ← hlen1, hleaf, hmc, hlc]
                rfl)
              ces hge (fun e he => nodeAt_frame hc hpre3 (hch e he))
            rw [hpfx, ← hcp] at hins
            simp only [hlp, if_false] at hins
            refine ⟨h ++ [mc] ++ [lc] ++ [sc] ++ [pc], h.length + 3, ?_,
              hpre3.trans (List.prefix_append _ _),
              Closed_append hc3 pc hpcE, by simp, ?_⟩
            · simp only [insertLoop, hcell, hge, hchild, ← hcp, hlp, if_false, hd, hins, hmc,
                hlc, hsc, hpc]
            · have hnew := nodeAt_new hc3 pc hpcE
              rw [hlen3] at hnew
              rw [hnew, hins, hpc]

/-! ## The node store: `Delete` copies the path and writes no node of the store -/

theorem Edges_delete_none (f : Nat → Node) (b : Nat) (rest : Key) :
    ∀ (es : List (Nat × Nat)), getEdge es b = none →
      Edges.delete (reifyEdges f es) b rest = none
  | [], _ => rfl
  | (l, q) :: es, hge => by
    simp only [getEdge] at hge
    simp only [reifyEdges, Iradix.Edges.delete_cons]
    by_cases h1 : l < b
    · simp only [h1, if_true] at hge ⊢
      rw [Edges_delete_none f b rest es hge]
    · by_cases h2 : l = b
      · simp [h1, h2] at hge
      · simp only [h1, h2, if_false]

theorem Edges_delete_miss (f : Nat → Node) (b : Nat) (rest : Key) (q : Nat)
    (hmiss : ¬ ((f q).pfx <+: (b :: rest)) ∨
      (f q).delete false ((b :: rest).drop (f q).pfx.length) = none) :
    ∀ (es : List (Nat × Nat)), getEdge es b = some q →
      Edges.delete (reifyEdges f es) b rest = none
  | [], hge => by simp [getEdge] at hge
  | (l, q') :: es, hge => by
    simp only [getEdge] at hge
    simp only [reifyEdges, Iradix.Edges.delete_cons]
    by_cases h1 : l < b
    · simp only [h1, if_true] at hge ⊢
      rw [Edges_delete_miss f b rest q hmiss es hge]
    · by_cases h2 : l = b
      · subst h2
        simp only [lt_irrefl, if_false, if_true, Option.some.injEq] at hge ⊢
        subst hge
        rcases hmiss with hm | hm
        · simp only [hm, if_false]
        · split_ifs
          · rw [hm]
          · rfl
      · simp [h1, h2] at hge

theorem Edges_delete_some (f g : Nat → Node) (b : Nat) (rest : Key) (q qn : Nat)
    (nc : Node) (lf : leafNode) (hpre : (f q).pfx <+: (b :: rest))
    (hdel : (f q).delete false ((b :: rest).drop (f q).pfx.length) = some (nc, lf))
    (hg : g qn = nc) :
    ∀ (es : List (Nat × Nat)), getEdge es b = some q → (∀ e ∈ es, g e.2 = f e.2) →
      Edges.delete (reifyEdges f es) b rest =
        if nc.leaf.isNone && nc.edges.length == 0
        then some (reifyEdges g (delEdge es b), true, lf)
        else some (reifyEdges g (setEdge es b qn), false, lf)
  | [], hge, _ => by simp [getEdge] at hge
  | (l, q') :: es, hge, hfg => by
    have hq : g q' = f q' := hfg (l, q') (List.mem_cons_self _ _)
    have hes : ∀ e ∈ es, g e.2 = f e.2 := fun e he => hfg e (List.mem_cons_of_mem _ he)
    simp only [getEdge] at hge
    simp only [reifyEdges, delEdge, setEdge, Iradix.Edges.delete_cons]
    by_cases h1 : l < b
    · simp only [h1, if_true] at hge ⊢
      rw [Edges_delete_some f g b rest q qn nc lf hpre hdel hg es hge hes]
      split_ifs <;> simp only [reifyEdges, hq]
    · by_cases h2 : l = b
      · subst h2
        simp only [lt_irrefl, if_false, if_true, Option.some.injEq] at hge ⊢
        subst hge
        have hcg := reifyEdges_congr es (fun e he => (hes e he).symm)
        simp only [hpre, if_true, hdel]
        split_ifs <;> simp only [reifyEdges, hg, hcg]
      · simp [h1, h2] at hge

theorem mergeChild_refines {h : Store} (hc : Closed h) (nc : Cell)
    (hnc : ∀ e ∈ nc.edges, e.2 < h.length) :
    (∀ e ∈ (mergeChild h nc).edges, e.2 < h.length) ∧
      Node.mk (mergeChild h nc).leaf (mergeChild h nc).pfx
          (reifyEdges (nodeAt h) (mergeChild h nc).edges) =
        (Node.mk nc.leaf nc.pfx (reifyEdges (nodeAt h) nc.edges)).mergeChild := by
  obtain ⟨nl, np, ne⟩ := nc
  cases ne with
  | nil => exact ⟨hnc, rfl⟩
  | cons e es =>
    obtain ⟨l, q⟩ := e
    have hq : q < h.length := hnc (l, q) (List.mem_cons_self _ _)
    obtain ⟨child, hchild⟩ := lookup_some hq
    have hm : mergeChild h ⟨nl, np, (l, q) :: es⟩ = ⟨child.leaf, np ++ child.pfx, child.edges⟩ := by
      simp only [mergeChild, hchild]
    rw [hm]
    refine ⟨fun e he => Closed_children hc hchild e he, ?_⟩
    simp only [reifyEdges, Iradix.Node.mergeChild, nodeAt_leaf hc hchild, nodeAt_pfx hc hchild,
      nodeAt_edges hc hchild]

theorem deleteLoop_refines {h : Store} (hc : Closed h) :
    ∀ (fuel : Nat) (r : Bool) (p : Nat) (s : Key), p < fuel → p < h.length →
      (deleteLoop fuel h r p s = none ∧ (nodeAt h p).delete r s = none) ∨
      ∃ h' p' lf, deleteLoop fuel h r p s = some (h', p', lf) ∧
        h <+: h' ∧ Closed h' ∧ p' < h'.length ∧
        (nodeAt h p).delete r s = some (nodeAt h' p', lf)
  | 0, _, _, _, hf, _ => by omega
  | fuel + 1, r, p, s, hf, hp => by
    obtain ⟨c, hcell⟩ := lookup_some hp
    have hch := Closed_children hc hcell
    rw [nodeAt_eq hc hcell]
    obtain ⟨cl, cpf, ces⟩ := c
    simp only at hch ⊢
    cases s with
    | nil =>
      cases cl with
      | none =>
        left
        simp only [deleteLoop, hcell, Iradix.Node.delete_mk_nil, and_self]
      | some oldLeaf =>
        right
        obtain ⟨nc, hnc⟩ : ∃ nc : Cell, nc = (if !r && ces.length == 1
            then mergeChild h ⟨none, cpf, ces⟩ else ⟨none, cpf, ces⟩) := ⟨_, rfl⟩
        have hmr := mergeChild_refines hc ⟨none, cpf, ces⟩ hch
        have hncE : ∀ e ∈ nc.edges, e.2 < h.length := by
          rw [hnc]; split_ifs
          · exact hmr.1
          · exact hch
        refine ⟨h ++ [nc], h.length, oldLeaf, ?_, List.prefix_append _ _,
          Closed_append hc nc hncE, by simp, ?_⟩
        · simp only [deleteLoop, hcell, hnc]
        · rw [Iradix.Node.delete_mk_nil, nodeAt_new hc nc hncE, hnc, reifyEdges_length]
          simp only
          split_ifs
          · rw [hmr.2]
          · rfl
    | cons b rest =>
      rw [Iradix.Node.delete_mk_cons]
      cases hge : getEdge ces b with
      | none =>
        left
        simp only [deleteLoop, hcell, hge, Edges_delete_none _ b rest ces hge, and_self]
      | some q =>
        have hq : q < p := hc.child_lt hcell (getEdge_mem _ _ _ hge)
        have hqlen : q < h.length := lt_trans hq hp
        obtain ⟨child, hchild⟩ := lookup_some hqlen
        have hpfx := nodeAt_pfx hc hchild
        by_cases hpre : child.pfx <+: (b :: rest)
        · rcases deleteLoop_refines hc fuel false q ((b :: rest).drop child.pfx.length)
            (by omega) hqlen with ⟨hrec, hpure⟩ | ⟨h1, q', lf, hrec, hpre1, hc1, hq', hpure⟩
          · left
            rw [← hpfx] at hpure
            simp only [deleteLoop, hcell, hge, hchild, hpre, if_true, hrec,
              Edges_delete_miss _ b rest q (Or.inr hpure) ces hge, and_self]
          · right
            obtain ⟨newChild, hnew⟩ := lookup_some hq'
            have hnl := nodeAt_leaf hc1 hnew
            have hne := nodeAt_edges hc1 hnew
            have hdel := Edges_delete_some (nodeAt h) (nodeAt h1) b rest q q' (nodeAt h1 q') lf
              (by rw [hpfx]; exact hpre) (by rw [hpfx]; exact hpure) rfl ces hge
              (fun e he => nodeAt_frame hc hpre1 (hch e he))
            rw [hnl, hne, reifyEdges_length] at hdel
            rw [hdel]
            by_cases hempty : (newChild.leaf.isNone && newChild.edges.length == 0) = true
            · -- the child became empty: its edge is removed
              have hdE : ∀ e ∈ (delEdge ces b), e.2 < h1.length := fun e he =>
                lt_of_lt_of_le (hch e (delEdge_mem _ _ _ he)) hpre1.length_le
              obtain ⟨nc, hnc⟩ : ∃ nc : Cell,
                  nc = (if !r && (delEdge ces b).length == 1 && cl.isNone
                    then mergeChild h1 ⟨cl, cpf, delEdge ces b⟩ else ⟨cl, cpf, delEdge ces b⟩) :=
                ⟨_, rfl⟩
              have hmr := mergeChild_refines hc1 ⟨cl, cpf, delEdge ces b⟩ hdE
              have hncE : ∀ e ∈ nc.edges, e.2 < h1.length := by
                rw [hnc]; split_ifs
                · exact hmr.1
                · exact hdE
              refine ⟨h1 ++ [nc], h1.length, lf, ?_, hpre1.trans (List.prefix_append _ _),
                Closed_append hc1 nc hncE, by simp, ?_⟩
              · simp only [deleteLoop, hcell, hge, hchild, hpre, if_true, hrec, hnew, hempty, hnc]
              · simp only [hempty, if_true]
                rw [nodeAt_new hc1 nc hncE, hnc, reifyEdges_length]
                simp only [Bool.true_and]
                split_ifs
                · rw [hmr.2]
                · rfl
            · -- the edge now leads to the clone of the child
              have hsE : ∀ e ∈ (setEdge ces b q'), e.2 < h1.length := by
                intro e he
                rcases setEdge_mem _ _ _ _ he with he | he
                · omega
                · exact lt_of_lt_of_le (hch e he) hpre1.length_le
              refine ⟨h1 ++ [⟨cl, cpf, setEdge ces b q'⟩], h1.length, lf, ?_,
                hpre1.trans (List.prefix_append _ _),
                Closed_append hc1 (⟨cl, cpf, setEdge ces b q'⟩ : Cell) hsE, by simp, ?_⟩
              · simp only [deleteLoop, hcell, hge, hchild, hpre, if_true, hrec, hnew, hempty]
                simp
              · simp only [hempty]
                rw [nodeAt_new hc1 (⟨cl, cpf, setEdge ces b q'⟩ : Cell) hsE]
                simp
        · left
          simp only [deleteLoop, hcell, hge, hchild, hpre, if_false,
            Edges_delete_miss _ b rest q (Or.inl (by rw [hpfx]; exact hpre)) ces hge, and_self]

end IradixP

namespace MdbP

open Iradix (Key Value)
open IradixP (Store Cell Closed nodeAt)
open Mdb (Fault Error Op)

/-! ## mdb over the node store: every address stays valid -/

theorem radix_Insert_store {h : Store} (hc : Closed h) (rt : IradixP.Txn) (k : Key) (v : Value)
    (hr : rt.root < h.length) :
    ∃ h' rt', rt.Insert h k v = some (h', rt') ∧ h <+: h' ∧ Closed h' ∧
      rt'.root < h'.length ∧ rt'.snap = rt.snap ∧
      rt'.size = (if ((nodeAt h rt.root).insert k k v).2 then rt.size else rt.size + 1) ∧
      nodeAt h' rt'.root = ((nodeAt h rt.root).insert k k v).1 := by
  obtain ⟨h', p', hins, hpre, hc', hp', hnode⟩ :=
    IradixP.insertLoop_refines hc (rt.root + 1) rt.root k k v (Nat.lt_succ_self _) hr
  refine ⟨h', ⟨p', rt.snap,
    if ((nodeAt h rt.root).insert k k v).2 then rt.size else rt.size + 1⟩,
    ?_, hpre, hc', ?_, ?_, ?_, ?_⟩
  · simp only [IradixP.Txn.Insert, hins]
  · exact hp'
  · rfl
  · rfl
  · exact hnode

theorem radix_Delete_store {h : Store} (hc : Closed h) (rt : IradixP.Txn) (k : Key)
    (hr : rt.root < h.length) :
    (rt.Delete h k = (h, rt, false) ∧ (nodeAt h rt.root).delete true k = none) ∨
    ∃ h' rt' lf, rt.Delete h k = (h', rt', true) ∧ h <+: h' ∧ Closed h' ∧
      rt'.root < h'.length ∧ rt'.snap = rt.snap ∧ rt'.size = rt.size - 1 ∧
      (nodeAt h rt.root).delete true k = some (nodeAt h' rt'.root, lf) := by
  rcases IradixP.deleteLoop_refines hc (rt.root + 1) true rt.root k (Nat.lt_succ_self _) hr with
    ⟨hdel, hpure⟩ | ⟨h', p', lf, hdel, hpre, hc', hp', hpure⟩
  · left
    exact ⟨by simp only [IradixP.Txn.Delete, hdel], hpure⟩
  · right
    exact ⟨h', ⟨p', rt.snap, rt.size - 1⟩, lf, by simp only [IradixP.Txn.Delete, hdel],
      hpre, hc', hp', rfl, rfl, hpure⟩

theorem get_set_other {α : Type} (l : List α) (i j : Nat) (a : α) (hij : i ≠ j) :
    (l.set i a)[j]? = l[j]? := by
  simp [List.getElem?_set, hij]

theorem Inv_init : Sys.init.Inv := by
  refine ⟨?_, by decide, ?_⟩
  · intro i c hi e he
    have hlt := IradixP.lookup_lt hi
    have hi0 : i = 0 := by
      have : (Sys.init.store).length = 1 := rfl
      omega
    subst hi0
    cases hi
    cases he
  · intro i t rt hi
    simp [Sys.init] at hi

/-- A handle other than the one a call is made on is not touched by the call. -/
theorem store_step_other (s s' : Sys) (op : Op) (hstep : s.step op = some s') (j : Nat)
    (hop : op.handle ≠ some j) (hj : j < s.txns.length) : s'.txns[j]? = s.txns[j]? := by
  cases op with
  | txn w =>
    simp only [Sys.step] at hstep
    cases hdb : s.db.Txn w with
    | none => simp [hdb] at hstep
    | some r =>
      simp only [hdb, Option.some.injEq] at hstep
      subst hstep
      exact List.getElem?_append_left hj
  | put i k v =>
    have hij : i ≠ j := fun h => hop (by rw [h]; rfl)
    simp only [Sys.step] at hstep
    cases ht : s.txns[i]? with
    | none => simp [ht] at hstep
    | some t =>
      simp only [ht] at hstep
      cases hput : t.Put s.store k v with
      | error f => simp [hput] at hstep
      | ok r =>
        simp only [hput, Option.some.injEq] at hstep
        subst hstep
        exact get_set_other _ _ _ _ hij
  | delete i k =>
    have hij : i ≠ j := fun h => hop (by rw [h]; rfl)
    simp only [Sys.step] at hstep
    cases ht : s.txns[i]? with
    | none => simp [ht] at hstep
    | some t =>
      simp only [ht] at hstep
      cases hdel : t.Delete s.store k with
      | error f => simp [hdel] at hstep
      | ok r =>
        simp only [hdel, Option.some.injEq] at hstep
        subst hstep
        exact get_set_other _ _ _ _ hij
  | commit i =>
    have hij : i ≠ j := fun h => hop (by rw [h]; rfl)
    simp only [Sys.step] at hstep
    cases ht : s.txns[i]? with
    | none => simp [ht] at hstep
    | some t =>
      simp only [ht] at hstep
      cases hcm : t.Commit s.db with
      | error f => simp [hcm] at hstep
      | ok r =>
        simp only [hcm, Option.some.injEq] at hstep
        subst hstep
        exact get_set_other _ _ _ _ hij
  | abort i =>
    have hij : i ≠ j := fun h => hop (by rw [h]; rfl)
    simp only [Sys.step] at hstep
    cases ht : s.txns[i]? with
    | none => simp [ht] at hstep
    | some t =>
      simp only [ht] at hstep
      cases hab : t.Abort s.db with
      | error f => simp [hab] at hstep
      | ok r =>
        simp only [hab, Option.some.injEq] at hstep
        subst hstep
        exact get_set_other _ _ _ _ hij

theorem store_step_length (s s' : Sys) (op : Op) (hstep : s.step op = some s') :
    s.txns.length ≤ s'.txns.length := by
  cases op with
  | txn w =>
    simp only [Sys.step] at hstep
    cases hdb : s.db.Txn w with
    | none => simp [hdb] at hstep
    | some r =>
      simp only [hdb, Option.some.injEq] at hstep
      subst hstep
      simp
  | put i k v =>
    simp only [Sys.step] at hstep
    cases ht : s.txns[i]? with
    | none => simp [ht] at hstep
    | some t =>
      simp only [ht] at hstep
      cases hput : t.Put s.store k v with
      | error f => simp [hput] at hstep
      | ok r =>
        simp only [hput, Option.some.injEq] at hstep
        subst hstep
        simp
  | delete i k =>
    simp only [Sys.step] at hstep
    cases ht : s.txns[i]? with
    | none => simp [ht] at hstep
    | some t =>
      simp only [ht] at hstep
      cases hdel : t.Delete s.store k with
      | error f => simp [hdel] at hstep
      | ok r =>
        simp only [hdel, Option.some.injEq] at hstep
        subst hstep
        simp
  | commit i =>
    simp only [Sys.step] at hstep
    cases ht : s.txns[i]? with
    | none => simp [ht] at hstep
    | some t =>
      simp only [ht] at hstep
      cases hcm : t.Commit s.db with
      | error f => simp [hcm] at hstep
      | ok r =>
        simp only [hcm, Option.some.injEq] at hstep
        subst hstep
        simp
  | abort i =>
    simp only [Sys.step] at hstep
    cases ht : s.txns[i]? with
    | none => simp [ht] at hstep
    | some t =>
      simp only [ht] at hstep
      cases hab : t.Abort s.db with
      | error f => simp [hab] at hstep
      | ok r =>
        simp only [hab, Option.some.injEq] at hstep
        subst hstep
        simp

/-! ## mdb over the node store: a call only allocates, and reads as the same call
on trees held as values -/

/-- The addresses a handle holds lie in the store `h`. -/
theorem Txn.abs_frame {h h' : Store} (hc : Closed h) (hpre : h <+: h') (t : Txn)
    (hb : ∀ rt, t.rootTxn = some rt → rt.root < h.length ∧ rt.snap < h.length) :
    t.abs h' = t.abs h := by
  obtain ⟨w, rtx⟩ := t
  cases rtx with
  | none => rfl
  | some rt =>
    obtain ⟨hr, hsn⟩ := hb rt rfl
    simp only [Txn.abs, absRadix, Option.map_some', IradixP.nodeAt_frame hc hpre hr,
      IradixP.nodeAt_frame hc hpre hsn]

theorem Txn.Put_refines {h : Store} (hc : Closed h) (t : Txn) (k : Key) (v : Value)
    (hb : ∀ rt, t.rootTxn = some rt → rt.root < h.length ∧ rt.snap < h.length) :
    (∃ f, t.Put h k v = .error f ∧ (t.abs h).Put k v = .error f) ∨
    ∃ h' t' e, t.Put h k v = .ok (h', t', e) ∧ h <+: h' ∧ Closed h' ∧
      (∀ rt, t'.rootTxn = some rt → rt.root < h'.length ∧ rt.snap < h'.length) ∧
      (t.abs h).Put k v = .ok (t'.abs h', e) := by
  obtain ⟨w, rtx⟩ := t
  cases w with
  | false =>
    right
    exact ⟨h, _, _, rfl, List.prefix_refl h, hc, hb, rfl⟩
  | true =>
    cases rtx with
    | none =>
      left
      exact ⟨.nilDeref, rfl, rfl⟩
    | some rt =>
      right
      obtain ⟨hr, hsn⟩ := hb rt rfl
      obtain ⟨h', rt', hins, hpre, hc', hr', hsnap, hsize, hnode⟩ :=
        radix_Insert_store hc rt k v hr
      refine ⟨h', ⟨true, some rt'⟩, none, ?_, hpre, hc', ?_, ?_⟩
      · simp only [Txn.Put, hins]
        rfl
      · intro rt2 h2
        cases h2
        exact ⟨hr', by rw [hsnap]; exact lt_of_lt_of_le hsn hpre.length_le⟩
      · simp only [Mdb.Txn.Put, Txn.abs, Option.map_some', absRadix, Iradix.Txn.Insert, hnode,
          hsize, hsnap, IradixP.nodeAt_frame hc hpre hsn]
        rfl

theorem Txn.Delete_refines {h : Store} (hc : Closed h) (t : Txn) (k : Key)
    (hb : ∀ rt, t.rootTxn = some rt → rt.root < h.length ∧ rt.snap < h.length) :
    (∃ f, t.Delete h k = .error f ∧ (t.abs h).Delete k = .error f) ∨
    ∃ h' t' e, t.Delete h k = .ok (h', t', e) ∧ h <+: h' ∧ Closed h' ∧
      (∀ rt, t'.rootTxn = some rt → rt.root < h'.length ∧ rt.snap < h'.length) ∧
      (t.abs h).Delete k = .ok (t'.abs h', e) := by
  obtain ⟨w, rtx⟩ := t
  cases w with
  | false =>
    right
    exact ⟨h, _, _, rfl, List.prefix_refl h, hc, hb, rfl⟩
  | true =>
    cases rtx with
    | none =>
      left
      exact ⟨.nilDeref, rfl, rfl⟩
    | some rt =>
      right
      obtain ⟨hr, hsn⟩ := hb rt rfl
      rcases radix_Delete_store hc rt k hr with ⟨hdel, hpure⟩ |
        ⟨h', rt', lf, hdel, hpre, hc', hr', hsnap, hsize, hpure⟩
      · refine ⟨h, ⟨true, some rt⟩, some (.notFound k), ?_, List.prefix_refl h, hc, hb, ?_⟩
        · simp only [Txn.Delete, hdel]
          rfl
        · simp only [Mdb.Txn.Delete, Txn.abs, Option.map_some', absRadix, Iradix.Txn.Delete,
            hpure]
          rfl
      · refine ⟨h', ⟨true, some rt'⟩, none, ?_, hpre, hc', ?_, ?_⟩
        · simp only [Txn.Delete, hdel]
          rfl
        · intro rt2 h2
          cases h2
          exact ⟨hr', by rw [hsnap]; exact lt_of_lt_of_le hsn hpre.length_le⟩
        · simp only [Mdb.Txn.Delete, Txn.abs, Option.map_some', absRadix, Iradix.Txn.Delete,
            hpure, hsize, hsnap, IradixP.nodeAt_frame hc hpre hsn]
          rfl

theorem Sys.Inv.bounds {s : Sys} (hs : s.Inv) {i : Nat} {t : Txn} (ht : s.txns[i]? = some t) :
    ∀ rt, t.rootTxn = some rt → rt.root < s.store.length ∧ rt.snap < s.store.length :=
  fun rt hrt => hs.2.2 i t rt ht hrt

theorem abs_set (s : Sys) (hs : s.Inv) (h' : Store) (hpre : s.store <+: h') (i : Nat)
    (t' : Txn) :
    (s.txns.set i t').map (Txn.abs h') = (s.txns.map (Txn.abs s.store)).set i (t'.abs h') := by
  rw [List.map_set]
  congr 1
  apply List.map_congr_left
  intro t ht
  obtain ⟨j, hj⟩ := List.mem_iff_getElem?.1 ht
  exact Txn.abs_frame hs.1 hpre t (hs.bounds hj)

theorem Inv_set (s : Sys) (hs : s.Inv) (h' : Store) (hpre : s.store <+: h') (hc' : Closed h')
    (db' : MDB) (hdb : db'.root.root < h'.length) (i : Nat) (t' : Txn)
    (ht' : ∀ rt, t'.rootTxn = some rt → rt.root < h'.length ∧ rt.snap < h'.length) :
    Sys.Inv ⟨h', db', s.txns.set i t'⟩ := by
  refine ⟨hc', hdb, ?_⟩
  intro j t rt hj hrt
  by_cases hij : i = j
  · subst hij
    have ht : t = t' := by
      by_cases hlt : i < s.txns.length
      · rw [List.getElem?_set_self hlt] at hj
        cases hj
        rfl
      · rw [List.getElem?_eq_none (by simp; omega)] at hj
        cases hj
    subst ht
    exact ht' rt hrt
  · rw [get_set_other _ _ _ _ hij] at hj
    obtain ⟨hr, hsn⟩ := hs.bounds hj rt hrt
    exact ⟨lt_of_lt_of_le hr hpre.length_le, lt_of_lt_of_le hsn hpre.length_le⟩

theorem abs_lookup (s : Sys) (i : Nat) :
    s.abs.txns[i]? = (s.txns[i]?).map (Txn.abs s.store) := by
  simp only [Sys.abs, List.getElem?_map]

/-- Every call on a state whose addresses are valid either is not enabled (or
crashes), in the store model and in the value model alike, or it returns in both:
the store only grows, the addresses stay valid, and the new state read out of the
store is the new state of the value model. -/
theorem store_step (s : Sys) (hs : s.Inv) (op : Op) :
    (s.step op = none ∧ s.abs.step op = none) ∨
    ∃ s', s.step op = some s' ∧ s.store <+: s'.store ∧ s'.Inv ∧
      s.abs.step op = some s'.abs := by
  obtain ⟨hc, hroot, hb⟩ := hs
  have hs : s.Inv := ⟨hc, hroot, hb⟩
  cases op with
  | txn w =>
    cases hw : (if w then Mdb.Mutex.Lock s.db.writer else some s.db.writer) with
    | none =>
      left
      constructor
      · simp only [Sys.step, MDB.Txn, hw]
      · simp only [Mdb.Sys.step, Mdb.MDB.Txn, Sys.abs, hw]
    | some w' =>
      right
      refine ⟨⟨s.store, { s.db with writer := w' }, s.txns ++ [⟨w, some s.db.root.Txn⟩]⟩,
        ?_, List.prefix_refl _, ⟨hc, hroot, ?_⟩, ?_⟩
      · simp only [Sys.step, MDB.Txn, hw, MDB.getRoot]
      · intro i t rt hi hrt
        by_cases hlt : i < s.txns.length
        · rw [List.getElem?_append_left hlt] at hi
          exact hb i t rt hi hrt
        · rw [List.getElem?_append_right (by omega)] at hi
          have h0 : i - s.txns.length = 0 := by
            by_contra hne
            rw [List.getElem?_eq_none (by simp; omega)] at hi
            cases hi
          rw [h0] at hi
          simp only [List.getElem?_cons_zero, Option.some.injEq] at hi
          subst hi
          cases hrt
          exact ⟨hroot, hroot⟩
      · simp only [Mdb.Sys.step, Mdb.MDB.Txn, Sys.abs, hw, List.map_append, List.map_cons,
          List.map_nil]
        rfl
  | put i k v =>
    cases ht : s.txns[i]? with
    | none =>
      left
      constructor
      · simp only [Sys.step, ht]
      · simp only [Mdb.Sys.step, abs_lookup, ht, Option.map_none']
    | some t =>
      rcases Txn.Put_refines hc t k v (hs.bounds ht) with ⟨f, hp, hv⟩ |
        ⟨h', t', e, hp, hpre, hc', hb', hv⟩
      · left
        constructor
        · simp only [Sys.step, ht, hp]
        · simp only [Mdb.Sys.step, abs_lookup, ht, Option.map_some', hv]
      · right
        refine ⟨⟨h', s.db, s.txns.set i t'⟩, ?_, hpre,
          Inv_set s hs h' hpre hc' s.db (lt_of_lt_of_le hroot hpre.length_le) i t' hb', ?_⟩
        · simp only [Sys.step, ht, hp]
        · simp only [Mdb.Sys.step, abs_lookup, ht, Option.map_some', hv]
          simp only [Sys.abs, abs_set s hs h' hpre, IradixP.nodeAt_frame hc hpre hroot]
  | delete i k =>
    cases ht : s.txns[i]? with
    | none =>
      left
      constructor
      · simp only [Sys.step, ht]
      · simp only [Mdb.Sys.step, abs_lookup, ht, Option.map_none']
    | some t =>
      rcases Txn.Delete_refines hc t k (hs.bounds ht) with ⟨f, hp, hv⟩ |
        ⟨h', t', e, hp, hpre, hc', hb', hv⟩
      · left
        constructor
        · simp only [Sys.step, ht, hp]
        · simp only [Mdb.Sys.step, abs_lookup, ht, Option.map_some', hv]
      · right
        refine ⟨⟨h', s.db, s.txns.set i t'⟩, ?_, hpre,
          Inv_set s hs h' hpre hc' s.db (lt_of_lt_of_le hroot hpre.length_le) i t' hb', ?_⟩
        · simp only [Sys.step, ht, hp]
        · simp only [Mdb.Sys.step, abs_lookup, ht, Option.map_some', hv]
          simp only [Sys.abs, abs_set s hs h' hpre, IradixP.nodeAt_frame hc hpre hroot]
  | commit i =>
    cases ht : s.txns[i]? with
    | none =>
      left
      constructor
      · simp only [Sys.step, ht]
      · simp only [Mdb.Sys.step, abs_lookup, ht, Option.map_none']
    | some t =>
      obtain ⟨w, rtx⟩ := t
      cases w with
      | false =>
        right
        refine ⟨⟨s.store, s.db, s.txns.set i ⟨false, rtx⟩⟩, ?_, List.prefix_refl _,
          Inv_set s hs s.store (List.prefix_refl _) hc s.db hroot i _ (hs.bounds ht), ?_⟩
        · simp only [Sys.step, ht, Txn.Commit]
          rfl
        · simp only [Mdb.Sys.step, abs_lookup, ht, Option.map_some', Txn.abs, Mdb.Txn.Commit]
          simp only [Sys.abs, abs_set s hs s.store (List.prefix_refl _), Txn.abs]
          rfl
      | true =>
        cases rtx with
        | none =>
          right
          refine ⟨⟨s.store, s.db, s.txns.set i ⟨true, none⟩⟩, ?_, List.prefix_refl _,
            Inv_set s hs s.store (List.prefix_refl _) hc s.db hroot i _ (hs.bounds ht), ?_⟩
          · simp only [Sys.step, ht, Txn.Commit]
            rfl
          · simp only [Mdb.Sys.step, abs_lookup, ht, Option.map_some', Txn.abs,
              Mdb.Txn.Commit]
            simp only [Sys.abs, abs_set s hs s.store (List.prefix_refl _), Txn.abs]
            rfl
        | some rt =>
          cases hw : s.db.writer with
          | false =>
            left
            constructor
            · simp only [Sys.step, ht, Txn.Commit, Mdb.Mutex.Unlock, hw]
              rfl
            · have hw' : s.abs.db.writer = false := hw
              simp only [Mdb.Sys.step, abs_lookup, ht, Option.map_some', Txn.abs,
                Mdb.Txn.Commit, Mdb.Mutex.Unlock, hw']
              rfl
          | true =>
            right
            obtain ⟨hr, hsn⟩ := hs.bounds ht rt rfl
            refine ⟨⟨s.store, ⟨rt.Commit, false⟩, s.txns.set i ⟨true, none⟩⟩, ?_,
              List.prefix_refl _,
              Inv_set s hs s.store (List.prefix_refl _) hc _ hr i _
                (fun rt2 h2 => by cases h2), ?_⟩
            · simp only [Sys.step, ht, Txn.Commit, Mdb.Mutex.Unlock, hw]
              rfl
            · have hw' : s.abs.db.writer = true := hw
              simp only [Mdb.Sys.step, abs_lookup, ht, Option.map_some', Txn.abs,
                Mdb.Txn.Commit, Mdb.Mutex.Unlock, hw']
              simp only [Sys.abs, abs_set s hs s.store (List.prefix_refl _)]
              rfl
  | abort i =>
    cases ht : s.txns[i]? with
    | none =>
      left
      constructor
      · simp only [Sys.step, ht]
      · simp only [Mdb.Sys.step, abs_lookup, ht, Option.map_none']
    | some t =>
      obtain ⟨w, rtx⟩ := t
      cases w with
      | false =>
        right
        refine ⟨⟨s.store, s.db, s.txns.set i ⟨false, rtx⟩⟩, ?_, List.prefix_refl _,
          Inv_set s hs s.store (List.prefix_refl _) hc s.db hroot i _ (hs.bounds ht), ?_⟩
        · simp only [Sys.step, ht, Txn.Abort]
          rfl
        · simp only [Mdb.Sys.step, abs_lookup, ht, Option.map_some', Txn.abs, Mdb.Txn.Abort]
          simp only [Sys.abs, abs_set s hs s.store (List.prefix_refl _), Txn.abs]
          rfl
      | true =>
        cases rtx with
        | none =>
          right
          refine ⟨⟨s.store, s.db, s.txns.set i ⟨true, none⟩⟩, ?_, List.prefix_refl _,
            Inv_set s hs s.store (List.prefix_refl _) hc s.db hroot i _ (hs.bounds ht), ?_⟩
          · simp only [Sys.step, ht, Txn.Abort]
            rfl
          · simp only [Mdb.Sys.step, abs_lookup, ht, Option.map_some', Txn.abs,
              Mdb.Txn.Abort]
            simp only [Sys.abs, abs_set s hs s.store (List.prefix_refl _), Txn.abs]
            rfl
        | some rt =>
          cases hw : s.db.writer with
          | false =>
            left
            constructor
            · simp only [Sys.step, ht, Txn.Abort, Mdb.Mutex.Unlock, hw]
              rfl
            · have hw' : s.abs.db.writer = false := hw
              simp only [Mdb.Sys.step, abs_lookup, ht, Option.map_some', Txn.abs,
                Mdb.Txn.Abort, Mdb.Mutex.Unlock, hw']
              rfl
          | true =>
            right
            refine ⟨⟨s.store, ⟨s.db.root, false⟩, s.txns.set i ⟨true, none⟩⟩, ?_,
              List.prefix_refl _,
              Inv_set s hs s.store (List.prefix_refl _) hc _ hroot i _
                (fun rt2 h2 => by cases h2), ?_⟩
            · simp only [Sys.step, ht, Txn.Abort, Mdb.Mutex.Unlock, hw]
              rfl
            · have hw' : s.abs.db.writer = true := hw
              simp only [Mdb.Sys.step, abs_lookup, ht, Option.map_some', Txn.abs,
                Mdb.Txn.Abort, Mdb.Mutex.Unlock, hw']
              simp only [Sys.abs, abs_set s hs s.store (List.prefix_refl _)]
              rfl

/-! ## mdb over the node store: reachable states -/

theorem store_step_inv (s s' : Sys) (hs : s.Inv) (op : Op) (hstep : s.step op = some s') :
    s.store <+: s'.store ∧ s'.Inv ∧ s.abs.step op = some s'.abs := by
  rcases store_step s hs op with ⟨hnone, _⟩ | ⟨s2, hsome, hpre, hinv, habs⟩
  · rw [hnone] at hstep
    cases hstep
  · rw [hsome] at hstep
    cases hstep
    exact ⟨hpre, hinv, habs⟩

theorem store_reachable_inv {s : Sys} (hs : Reachable s) : s.Inv := by
  induction hs with
  | init => exact Inv_init
  | step op _ hstep ih => exact (store_step_inv _ _ ih op hstep).2.1

theorem store_reachable_run : ∀ (ops : List Op) {s s' : Sys}, Reachable s →
    s.run ops = some s' → Reachable s'
  | [], s, s', hs, hrun => by
    simp only [Sys.run, Option.some.injEq] at hrun
    exact hrun ▸ hs
  | op :: ops, s, s', hs, hrun => by
    simp only [Sys.run] at hrun
    cases hstep : s.step op with
    | none => simp [hstep] at hrun
    | some s1 =>
      simp only [hstep] at hrun
      exact store_reachable_run ops (Reachable.step op hs hstep) hrun

theorem store_reachable_abs {s : Sys} (hs : Reachable s) : Mdb.Reachable s.abs := by
  induction hs with
  | init => exact Mdb.Reachable.init
  | step op hr hstep ih =>
    exact Mdb.Reachable.step op ih (store_step_inv _ _ (store_reachable_inv hr) op hstep).2.2

/-- A run of calls none of which is made on the handle `j` only appends nodes to the
store and leaves the handle `j` as it is. -/
theorem store_run_frame : ∀ (ops : List Op) (s s' : Sys) (j : Nat), s.Inv →
    s.run ops = some s' → (∀ op ∈ ops, op.handle ≠ some j) → j < s.txns.length →
    s.store <+: s'.store ∧ s'.Inv ∧ s'.txns[j]? = s.txns[j]?
  | [], s, s', j, hs, hrun, _, _ => by
    simp only [Sys.run, Option.some.injEq] at hrun
    subst hrun
    exact ⟨List.prefix_refl _, hs, rfl⟩
  | op :: ops, s, s', j, hs, hrun, hops, hj => by
    simp only [Sys.run] at hrun
    cases hstep : s.step op with
    | none => simp [hstep] at hrun
    | some s1 =>
      simp only [hstep] at hrun
      obtain ⟨hpre1, hinv1, _⟩ := store_step_inv s s1 hs op hstep
      have hj1 : j < s1.txns.length := lt_of_lt_of_le hj (store_step_length s s1 op hstep)
      obtain ⟨hpre2, hinv2, hsame⟩ := store_run_frame ops s1 s' j hinv1 hrun
        (fun o ho => hops o (List.mem_cons_of_mem _ ho)) hj1
      exact ⟨hpre1.trans hpre2, hinv2,
        hsame.trans (store_step_other s s1 op hstep j (hops op (List.mem_cons_self _ _)) hj)⟩

/-- Reading through a handle gives the same over a store that has only grown. -/
theorem Txn.Get_grown {h h' : Store} (hc : Closed h) (hc' : Closed h') (hpre : h <+: h')
    (t : Txn) (hb : ∀ rt, t.rootTxn = some rt → rt.root < h.length ∧ rt.snap < h.length)
    (k : Key) : t.Get h' k = t.Get h k := by
  obtain ⟨w, rtx⟩ := t
  cases rtx with
  | none => rfl
  | some rt =>
    simp only [Txn.Get, IradixP.Txn.Get, IradixP.Get_frame hc hc' hpre (hb rt rfl).1]

/-- Reading through a handle of the store model is reading through the handle of the
value model. -/
theorem Txn.Get_abs {h : Store} (hc : Closed h) (t : Txn)
    (hb : ∀ rt, t.rootTxn = some rt → rt.root < h.length ∧ rt.snap < h.length) (k : Key) :
    t.Get h k = (t.abs h).Get k := by
  obtain ⟨w, rtx⟩ := t
  cases rtx with
  | none => rfl
  | some rt =>
    simp only [Txn.Get, IradixP.Txn.Get, IradixP.Get_refines hc (hb rt rfl).1, Txn.abs,
      Option.map_some', Mdb.Txn.Get, Iradix.Txn.Get, absRadix]

/-- C1 (isolation of snapshots), on the model in which all trees share the nodes of
one store.  Let `R` be the transaction with handle `j` of any reachable state,
read-only or write, live or not.  Any run of enabled calls that are not made on `R`,
that is `Put`, `Delete`, `Commit` and `Abort` of other transactions and new `Txn`
calls, writes no node that is already in the store (the old store is a prefix of the
new one) and leaves the result of `R.Get(k)` the same for every key `k`.  So what a
writer puts, deletes and commits never becomes visible through a transaction that
began before the commit. -/
theorem snapshot_isolation (s s' : Sys) (hs : Reachable s) (j : Nat) (ops : List Op) (k : Key)
    (hj : j < s.txns.length) (hops : ∀ op ∈ ops, op.handle ≠ some j)
    (hrun : s.run ops = some s') :
    s.store <+: s'.store ∧ s'.Get j k = s.Get j k := by
  have hinv := store_reachable_inv hs
  obtain ⟨hpre, hinv', hsame⟩ := store_run_frame ops s s' j hinv hrun hops hj
  refine ⟨hpre, ?_⟩
  simp only [Sys.Get, hsame]
  cases ht : s.txns[j]? with
  | none => rfl
  | some t =>
    simp only [Option.map_some', Option.some.injEq]
    exact Txn.Get_grown hinv.1 hinv'.1 hpre t (hinv.bounds ht) k

/-- `TestReadConcurrency` over the node store: the reader (handle 1) began when
"lease" was 1; a writer then overwrites, deletes and re-puts keys and commits 2.  The
reader still gets 1, and a transaction begun after the commit gets 2. -/
theorem snapshot_isolation_witness :
    (Reachable exReader ∧ 1 < exReader.txns.length ∧
      (∀ op ∈ exWriterOps, op.handle ≠ some 1) ∧
      exReader.run exWriterOps = some (exReader.after exWriterOps)) ∧
    (exReader.store <+: (exReader.after exWriterOps).store ∧
      (exReader.after exWriterOps).Get 1 Mdb.keyLease = exReader.Get 1 Mdb.keyLease) ∧
    exReader.Get 1 Mdb.keyLease = some (.ok (.int 1)) ∧
    ((exReader.after exWriterOps).after [.txn false]).Get 3 Mdb.keyLease
      = some (.ok (.int 2)) :=
  ⟨⟨store_reachable_run exReaderOps Reachable.init rfl, by decide, by decide, rfl⟩,
    snapshot_isolation exReader (exReader.after exWriterOps)
      (store_reachable_run exReaderOps Reachable.init rfl) 1 exWriterOps Mdb.keyLease
      (by decide) (by decide) rfl,
    rfl, rfl⟩

/-- The model over the node store refines the model in which every handle holds its
tree as a value: a reachable state of the first, with its trees read out of the
store, is a reachable state of the second; every call is enabled and returns in the
one exactly when it does in the other, with corresponding results; and `Get` gives
the same. -/
theorem store_refines (s : Sys) (hs : Reachable s) :
    Mdb.Reachable s.abs ∧ (∀ op, (s.step op).map Sys.abs = s.abs.step op) ∧
      ∀ i k, s.Get i k = s.abs.Get i k := by
  have hinv := store_reachable_inv hs
  refine ⟨store_reachable_abs hs, ?_, ?_⟩
  · intro op
    rcases store_step s hinv op with ⟨h1, h2⟩ | ⟨s', h1, _, _, h2⟩
    · rw [h1, h2]; rfl
    · rw [h1, h2]; rfl
  · intro i k
    simp only [Sys.Get, Mdb.Sys.Get, abs_lookup]
    cases ht : s.txns[i]? with
    | none => rfl
    | some t =>
      simp only [Option.map_some', Option.some.injEq]
      exact Txn.Get_abs hinv.1 t (hinv.bounds ht) k

/-- The state of `TestReadConcurrency` after the writer's commit, read out of the
store, is a reachable state of the value model, and the reader gets 1 in both. -/
theorem store_refines_witness :
    Reachable (exReader.after exWriterOps) ∧
    (Mdb.Reachable (exReader.after exWriterOps).abs ∧
      (∀ op, ((exReader.after exWriterOps).step op).map Sys.abs
        = (exReader.after exWriterOps).abs.step op) ∧
      ∀ i k, (exReader.after exWriterOps).Get i k = (exReader.after exWriterOps).abs.Get i k) ∧
    (exReader.after exWriterOps).abs.Get 1 Mdb.keyLease = some (.ok (.int 1)) :=
  ⟨store_reachable_run exWriterOps (store_reachable_run exReaderOps Reachable.init rfl) rfl,
    store_refines (exReader.after exWriterOps)
      (store_reachable_run exWriterOps (store_reachable_run exReaderOps Reachable.init rfl) rfl),
    rfl⟩

end MdbP
